import Mathlib

/-!
Verification of the pmmap persistent hash map (patricia trie on hashed keys).

The Go source is shallowly embedded: the `node` interface (with `nil`, `*leaf`
and `*branch` implementations) becomes a three-constructor inductive type,
`uint64` values become `Nat` (with explicit `2 ^ 64` arithmetic where two's
complement wrap-around matters), and fallible lookups return `Option`.

Pointer equality on immutable nodes is modelled as structural (decidable)
equality of node values, with one refinement: the `other == originalOther`
check in `merge`'s leaf case is modelled through the `changed` flags of the
folded `insert` calls, because in the source `insert` returns its argument
pointer exactly when its `changed` flag is false (every `changed = true` path
allocates a fresh node).
-/

set_option linter.unusedSectionVars false

namespace pmmap

/-! ## Bit utilities (lib.go) -/

/-- `zeroBit(key, bit)` from lib.go: `key & bit == 0`. -/
def zeroBit (key bit : Nat) : Bool := key &&& bit == 0

/-- `branchingBit(p0, p1)` from lib.go: `diff & -diff` over `uint64` where
`diff := p0 ^ p1`, with the two's complement negation written out as
`(2^64 - diff) % 2^64`. -/
def branchingBit (p0 p1 : Nat) : Nat :=
  (p0 ^^^ p1) &&& ((2 ^ 64 - (p0 ^^^ p1)) % 2 ^ 64)

/-- Index of the lowest set bit of a positive number (0 for 0). -/
def lowBitIdx (d : Nat) : Nat :=
  if _h : d = 0 then 0
  else if d % 2 = 1 then 0
  else lowBitIdx (d / 2) + 1
termination_by d
decreasing_by exact Nat.div_lt_self (Nat.pos_of_ne_zero _h) (by omega)

theorem lowBitIdx_odd {d : Nat} (h : d % 2 = 1) : lowBitIdx d = 0 := by
  unfold lowBitIdx
  have hd : d ≠ 0 := by omega
  simp [hd, h]

theorem lowBitIdx_even {d : Nat} (h0 : d ≠ 0) (h : d % 2 = 0) :
    lowBitIdx d = lowBitIdx (d / 2) + 1 := by
  rw [lowBitIdx]
  simp [h0, h]

/-- The bit at `lowBitIdx d` is set (for positive `d`). -/
theorem testBit_lowBitIdx {d : Nat} (h : 0 < d) : d.testBit (lowBitIdx d) = true := by
  induction d using Nat.strong_induction_on with
  | _ d ih =>
    rcases Nat.mod_two_eq_zero_or_one d with he | ho
    · have h0 : d ≠ 0 := by omega
      rw [lowBitIdx_even h0 he, Nat.testBit_succ]
      exact ih (d / 2) (Nat.div_lt_self h (by omega)) (by omega)
    · rw [lowBitIdx_odd ho, Nat.testBit_zero]
      simp [ho]

/-- All bits below `lowBitIdx d` are clear. -/
theorem testBit_lt_lowBitIdx {d j : Nat} (h : j < lowBitIdx d) : d.testBit j = false := by
  induction d using Nat.strong_induction_on generalizing j with
  | _ d ih =>
    by_cases h0 : d = 0
    · subst h0; simp
    rcases Nat.mod_two_eq_zero_or_one d with he | ho
    · rw [lowBitIdx_even h0 he] at h
      match j with
      | 0 => rw [Nat.testBit_zero]; simp [he]
      | j + 1 =>
        rw [Nat.testBit_succ]
        exact ih (d / 2) (Nat.div_lt_self (by omega) (by omega)) (by omega)
    · rw [lowBitIdx_odd ho] at h; omega

/-- Doubling both arguments doubles the bitwise and. -/
theorem two_mul_and_two_mul (a b : Nat) : (2 * a) &&& (2 * b) = 2 * (a &&& b) := by
  apply Nat.eq_of_testBit_eq
  intro i
  match i with
  | 0 =>
    simp only [Nat.testBit_and, Nat.testBit_zero, Nat.mul_mod_right]
    simp
  | i + 1 =>
    have h2a : 2 * a / 2 = a := by omega
    have h2b : 2 * b / 2 = b := by omega
    have h2ab : 2 * (a &&& b) / 2 = a &&& b := by omega
    rw [Nat.testBit_and, Nat.testBit_add_one, Nat.testBit_add_one,
      Nat.testBit_add_one, h2a, h2b, h2ab, Nat.testBit_and]

/-- The two's complement trick: for `0 < d < 2^w`, `d &&& (2^w - d)` isolates
the lowest set bit of `d`. -/
theorem and_two_pow_sub (w : Nat) : ∀ d : Nat, 0 < d → d < 2 ^ w →
    d &&& (2 ^ w - d) = 2 ^ lowBitIdx d := by
  induction w with
  | zero => intro d h1 h2; omega
  | succ w ih =>
    intro d h1 h2
    rcases Nat.mod_two_eq_zero_or_one d with he | ho
    · -- even case: divide by two and use the IH
      have hd2 : 0 < d / 2 := by omega
      have hpow : 2 ^ (w + 1) = 2 * 2 ^ w := by rw [Nat.pow_succ]; ring
      have hd2lt : d / 2 < 2 ^ w := by omega
      have hsub : 2 ^ (w + 1) - d = 2 * (2 ^ w - d / 2) := by omega
      have hd : d = 2 * (d / 2) := by omega
      calc d &&& (2 ^ (w + 1) - d)
        = (2 * (d / 2)) &&& (2 * (2 ^ w - d / 2)) := by rw [hsub, ← hd]
      _ = 2 * ((d / 2) &&& (2 ^ w - d / 2)) := two_mul_and_two_mul _ _
      _ = 2 * 2 ^ lowBitIdx (d / 2) := by rw [ih (d / 2) hd2 hd2lt]
      _ = 2 ^ (lowBitIdx (d / 2) + 1) := by rw [Nat.pow_succ]; ring
      _ = 2 ^ lowBitIdx d := by rw [lowBitIdx_even (by omega) he]
    · -- odd case: the result is 1
      rw [lowBitIdx_odd ho, Nat.pow_zero]
      apply Nat.eq_of_testBit_eq
      intro i
      match i with
      | 0 =>
        have hpow : 2 ^ (w + 1) = 2 * 2 ^ w := by rw [Nat.pow_succ]; ring
        simp only [Nat.testBit_and, Nat.testBit_zero]
        have : (2 ^ (w + 1) - d) % 2 = 1 := by omega
        simp [ho, this]
      | i + 1 =>
        have hd1 : d - 1 < 2 ^ (w + 1) := by omega
        have hsub : 2 ^ (w + 1) - d = 2 ^ (w + 1) - ((d - 1) + 1) := by omega
        have hodd : (d - 1) / 2 = d / 2 := by omega
        have h1lt : (1 : Nat) < 2 ^ (i + 1) := by
          have := Nat.one_lt_two_pow_iff (n := i + 1)
          omega
        rw [Nat.testBit_and, hsub, Nat.testBit_two_pow_sub_succ hd1,
          Nat.testBit_lt_two_pow h1lt]
        rcases hb : d.testBit (i + 1) with _ | _
        · simp
        · have : (d - 1).testBit (i + 1) = true := by
            rw [Nat.testBit_succ, hodd, ← Nat.testBit_succ]; exact hb
          simp [this]

/-- `p0 ≠ p1` (both below `2^64`) makes `branchingBit` a power of two, namely
the lowest bit where the two disagree. -/
theorem branchingBit_eq {p0 p1 : Nat} (hne : p0 ≠ p1)
    (h0 : p0 < 2 ^ 64) (h1 : p1 < 2 ^ 64) :
    branchingBit p0 p1 = 2 ^ lowBitIdx (p0 ^^^ p1) := by
  have hdne : p0 ^^^ p1 ≠ 0 := by
    intro h
    apply hne
    apply Nat.eq_of_testBit_eq
    intro i
    have := congrArg (Nat.testBit · i) h
    simpa [Nat.testBit_xor, bne_eq_false_iff_eq] using this
  have hdlt : p0 ^^^ p1 < 2 ^ 64 := Nat.xor_lt_two_pow h0 h1
  have hmod : (2 ^ 64 - (p0 ^^^ p1)) % 2 ^ 64 = 2 ^ 64 - (p0 ^^^ p1) := by
    apply Nat.mod_eq_of_lt; omega
  unfold branchingBit
  rw [hmod]
  exact and_two_pow_sub 64 _ (by omega) hdlt

theorem lowBitIdx_xor_lt {p0 p1 : Nat} (hne : p0 ≠ p1)
    (h0 : p0 < 2 ^ 64) (h1 : p1 < 2 ^ 64) : lowBitIdx (p0 ^^^ p1) < 64 := by
  have hdne : (p0 ^^^ p1) ≠ 0 := by
    intro h
    exact hne (by
      apply Nat.eq_of_testBit_eq
      intro i
      have := congrArg (Nat.testBit · i) h
      simpa [Nat.testBit_xor, bne_eq_false_iff_eq] using this)
  have hdlt : p0 ^^^ p1 < 2 ^ 64 := Nat.xor_lt_two_pow h0 h1
  have ht := testBit_lowBitIdx (d := p0 ^^^ p1) (by omega)
  by_contra hge
  have : (p0 ^^^ p1).testBit (lowBitIdx (p0 ^^^ p1)) = false := by
    apply Nat.testBit_lt_two_pow
    calc p0 ^^^ p1 < 2 ^ 64 := hdlt
    _ ≤ 2 ^ lowBitIdx (p0 ^^^ p1) := Nat.pow_le_pow_right (by omega) (by omega)
  rw [this] at ht
  exact Bool.false_ne_true ht

/-- Below the branching bit, the two prefixes agree. -/
theorem testBit_lt_branching {p0 p1 j : Nat} (h : j < lowBitIdx (p0 ^^^ p1)) :
    p0.testBit j = p1.testBit j := by
  have := testBit_lt_lowBitIdx h
  rw [Nat.testBit_xor] at this
  simpa [bne_eq_false_iff_eq] using this

/-- At the branching bit, the two prefixes disagree. -/
theorem testBit_at_branching {p0 p1 : Nat} (hne : p0 ^^^ p1 ≠ 0) :
    p0.testBit (lowBitIdx (p0 ^^^ p1)) ≠ p1.testBit (lowBitIdx (p0 ^^^ p1)) := by
  have := testBit_lowBitIdx (d := p0 ^^^ p1) (Nat.pos_of_ne_zero hne)
  rw [Nat.testBit_xor] at this
  simp only [bne_iff_ne, ne_eq] at this
  exact this

/-! ## Data model (tree.go, hasher.go) -/

/-- The `Hasher` interface from hasher.go; `Hash` returns a `uint64`,
modelled as `Nat` (boundedness is a hypothesis where needed). -/
structure Hasher (K : Type) where
  Equal : K → K → Bool
  Hash : K → Nat

/-- `MergeFunc[V]` from tree.go: a binary operator returning the merged value
and a flag telling whether the two arguments were equal. -/
def MergeFunc (V : Type) := V → V → V × Bool

/-- A patricia-tree node: Go's nilable `node` interface with its two
implementations `*leaf` and `*branch`. -/
inductive node (K V : Type) where
  | nil : node K V
  | leaf (key : Nat) (values : List (K × V)) (size : Nat) : node K V
  | branch (pfx : Nat) (branchBit : Nat) (left right : node K V) (size : Nat) : node K V
deriving DecidableEq

/-- `branch.match` from tree.go (renamed: `match` is reserved):
does the key belong in the branch's subtree? -/
def matchKey (pfx bb key : Nat) : Bool := (key &&& (bb - 1)) == pfx

/-- `nodeSize` from tree.go: the cached size, 0 for nil. -/
def nodeSize : node K V → Nat
  | .nil => 0
  | .leaf _ _ sz => sz
  | .branch _ _ _ _ sz => sz

/-- Smart branch constructor `br` from tree.go. -/
def br (pfx bb : Nat) (left right : node K V) : node K V :=
  match left, right with
  | .nil, r => r
  | l, .nil => l
  | l, r => .branch pfx bb l r (nodeSize l + nodeSize r)

/-- `join` from tree.go: combine two subtrees with distinct prefixes. -/
def join (p0 p1 : Nat) (t0 t1 : node K V) : node K V :=
  let bbit := branchingBit p0 p1
  let pfx := p0 &&& (bbit - 1)
  let sz := nodeSize t0 + nodeSize t1
  if zeroBit p0 bbit then .branch pfx bbit t0 t1 sz
  else .branch pfx bbit t1 t0 sz

variable {K V : Type} [DecidableEq K] [DecidableEq V]

/-- The bucket-scan loop of `insert`'s leaf case: `none` when no stored key
equals `key` (Go falls through to the append), otherwise the new bucket and
the `changed` flag (false exactly on the `return tree, false` path). -/
def insertPairs (hasher : Hasher K) (key : K) (value : V) (f : Option (MergeFunc V)) :
    List (K × V) → Option (List (K × V) × Bool)
  | [] => none
  | (k', v') :: rest =>
    if hasher.Equal key k' then
      match f with
      | none => some ((k', value) :: rest, true)
      | some fn =>
        let res := fn value v'
        if res.2 then some ((k', v') :: rest, false)
        else some ((k', res.1) :: rest, true)
    else
      match insertPairs hasher key value f rest with
      | some (nvs, changed) => some ((k', v') :: nvs, changed)
      | none => none

/-- `insert` from tree.go. The returned flag is false exactly when the
returned node is the input node (in Go: reference-equal to it). -/
def insert (tree : node K V) (hash : Nat) (key : K) (value : V)
    (hasher : Hasher K) (f : Option (MergeFunc V)) : node K V × Bool :=
  match tree with
  | .nil => (.leaf hash [(key, value)] 1, true)
  | .leaf lk vs sz =>
    if lk = hash then
      match insertPairs hasher key value f vs with
      | some (nvs, changed) =>
        if changed then (.leaf lk nvs sz, true) else (.leaf lk vs sz, false)
      | none => (.leaf lk (vs ++ [(key, value)]) (sz + 1), true)
    else
      (join hash lk (.leaf hash [(key, value)] 1) (.leaf lk vs sz), true)
  | .branch p bb l r sz =>
    if matchKey p bb hash then
      if zeroBit hash bb then
        let res := insert l hash key value hasher f
        if res.2 then (.branch p bb res.1 r (nodeSize res.1 + nodeSize r), true)
        else (.branch p bb l r sz, false)
      else
        let res := insert r hash key value hasher f
        if res.2 then (.branch p bb l res.1 (nodeSize l + nodeSize res.1), true)
        else (.branch p bb l r sz, false)
    else
      (join hash p (.leaf hash [(key, value)] 1) (.branch p bb l r sz), true)

/-- The bucket-scan loop of `remove`'s leaf case: the bucket with the first
`Equal` pair removed, or `none` when no stored key matches. -/
def removePairs (hasher : Hasher K) (key : K) : List (K × V) → Option (List (K × V))
  | [] => none
  | (k', v') :: rest =>
    if hasher.Equal key k' then some rest
    else
      match removePairs hasher key rest with
      | some nvs => some ((k', v') :: nvs)
      | none => none

/-- `remove` from tree.go. An unchanged subtree is returned as-is (the
reference-identity checks become structural equality of node values). -/
def remove (tree : node K V) (hash : Nat) (key : K) (hasher : Hasher K) : node K V :=
  match tree with
  | .nil => .nil
  | .leaf lk vs sz =>
    if lk = hash then
      match removePairs hasher key vs with
      | some nvs => if vs.length = 1 then .nil else .leaf lk nvs (sz - 1)
      | none => .leaf lk vs sz
    else .leaf lk vs sz
  | .branch p bb l r sz =>
    if matchKey p bb hash then
      if zeroBit hash bb then
        let l2 := remove l hash key hasher
        if l2 = l then .branch p bb l r sz else br p bb l2 r
      else
        let r2 := remove r hash key hasher
        if r2 = r then .branch p bb l r sz else br p bb l r2
    else .branch p bb l r sz

/-- The fold of `merge`'s leaf case: insert each pair of the leaf's bucket
into `other`. The boolean conjoins the negated `changed` flags, which in Go
is equivalent to `other == originalOther` at the end of the loop (since
`insert` returns its argument pointer iff `changed` is false). -/
def mergeLeafFold (hasher : Hasher K) (f : MergeFunc V) (lkey : Nat) :
    List (K × V) → node K V → node K V × Bool
  | [], other => (other, true)
  | pr :: rest, other =>
    let res := insert other lkey pr.1 pr.2 hasher (some f)
    let res2 := mergeLeafFold hasher f lkey rest res.1
    (res2.1, !res.2 && res2.2)

/-- The tail of `merge`'s leaf case: after folding, return `(a, true)` when
the other node is an untouched leaf with the same bucket length. -/
def mergeLeafStep (hasher : Hasher K) (f : MergeFunc V) (aOrig : node K V)
    (lk : Nat) (vs : List (K × V)) (other : node K V) : node K V × Bool :=
  let res := mergeLeafFold hasher f lk vs other
  match res.1 with
  | .leaf olk ovs osz =>
    if res.2 && (vs.length == ovs.length) then (aOrig, true)
    else (.leaf olk ovs osz, false)
  | o => (o, false)

/-- `merge` from tree.go. The swap normalization (`s, t = t, s`) is written
out as two symmetric arms; reference-identity checks are structural. -/
def merge (a b : node K V) (hasher : Hasher K) (f : MergeFunc V) : node K V × Bool :=
  if a = b then (a, true)
  else
    match a, b with
    | .nil, bb => (bb, false)
    | aa, .nil => (aa, false)
    | .leaf lk vs sz, other => mergeLeafStep hasher f (.leaf lk vs sz) lk vs other
    | other, .leaf lk vs _ => mergeLeafStep hasher f other lk vs other
    | .branch p1 b1 l1 r1 s1, .branch p2 b2 l2 r2 s2 =>
      if b1 = b2 ∧ p1 = p2 then
        let lres := merge l1 l2 hasher f
        let rres := merge r1 r2 hasher f
        if lres.2 && rres.2 then (.branch p1 b1 l1 r1 s1, true)
        else if (lres.2 || lres.1 = l1) && (rres.2 || rres.1 = r1) then
          (.branch p1 b1 l1 r1 s1, false)
        else if (lres.2 || lres.1 = l2) && (rres.2 || rres.1 = r2) then
          (.branch p2 b2 l2 r2 s2, false)
        else (.branch p1 b1 lres.1 rres.1 (nodeSize lres.1 + nodeSize rres.1), false)
      else if b1 > b2 then
        -- swapped: s is b's fields, t is a's fields
        if b2 < b1 ∧ matchKey p2 b2 p1 = true then
          if zeroBit p1 b2 then
            let res := merge l2 (.branch p1 b1 l1 r1 s1) hasher f
            if res.1 = l2 then (.branch p2 b2 l2 r2 s2, false)
            else (.branch p2 b2 res.1 r2 (nodeSize res.1 + nodeSize r2), false)
          else
            let res := merge r2 (.branch p1 b1 l1 r1 s1) hasher f
            if res.1 = r2 then (.branch p2 b2 l2 r2 s2, false)
            else (.branch p2 b2 l2 res.1 (nodeSize l2 + nodeSize res.1), false)
        else (join p2 p1 (.branch p2 b2 l2 r2 s2) (.branch p1 b1 l1 r1 s1), false)
      else
        if b1 < b2 ∧ matchKey p1 b1 p2 = true then
          if zeroBit p2 b1 then
            let res := merge l1 (.branch p2 b2 l2 r2 s2) hasher f
            if res.1 = l1 then (.branch p1 b1 l1 r1 s1, false)
            else (.branch p1 b1 res.1 r1 (nodeSize res.1 + nodeSize r1), false)
          else
            let res := merge r1 (.branch p2 b2 l2 r2 s2) hasher f
            if res.1 = r1 then (.branch p1 b1 l1 r1 s1, false)
            else (.branch p1 b1 l1 res.1 (nodeSize l1 + nodeSize res.1), false)
        else (join p1 p2 (.branch p1 b1 l1 r1 s1) (.branch p2 b2 l2 r2 s2), false)
termination_by sizeOf a + sizeOf b
decreasing_by all_goals (simp_wf; omega)

/-- `equal` from tree.go; the labelled FOUND loop of the leaf case becomes
an `all` over `a`'s bucket with a `find?` for the first `Equal` key. -/
def equal (a b : node K V) (hasher : Hasher K) (f : V → V → Bool) : Bool :=
  if a = b then true
  else
    match a, b with
    | .leaf _ avs _, .leaf _ bvs _ =>
      avs.length == bvs.length &&
      avs.all (fun ap =>
        match bvs.find? (fun bp => hasher.Equal ap.1 bp.1) with
        | some bp => f ap.2 bp.2
        | none => false)
    | .branch p1 b1 l1 r1 _, .branch p2 b2 l2 r2 _ =>
      p1 == p2 && b1 == b2 && equal l1 l2 hasher f && equal r1 r2 hasher f
    | _, _ => false

/-- Modelled from the spec: the free node-level `lookup(node, hash, key,
hasher)` helper called by `intersectionSize` in set.go is not under src/.
Section 4.2 of the spec describes this walk (prefix check at branches,
bucket scan at a leaf with the matching hashed key), which is also exactly
the loop body of `Tree.Lookup` in tree.go. -/
def lookup (n : node K V) (hash : Nat) (key : K) (hasher : Hasher K) : Option V :=
  match n with
  | .nil => none
  | .leaf lk vs _ =>
    if lk = hash then (vs.find? (fun pr => hasher.Equal key pr.1)).map (·.2) else none
  | .branch p bb l r _ =>
    if matchKey p bb hash then
      if zeroBit hash bb then lookup l hash key hasher else lookup r hash key hasher
    else none

/-- `intersectionSize` from set.go (sets store `Unit` values). The two
branch-assert panics on a nil argument are unreachable under the invariant
and modelled as 0. -/
def intersectionSize (a b : node K Unit) (hasher : Hasher K) : Nat :=
  if a = b then nodeSize a
  else
    match a, b with
    | .leaf lk vs _, other => vs.countP (fun pr => (lookup other lk pr.1 hasher).isSome)
    | other, .leaf lk vs _ => vs.countP (fun pr => (lookup other lk pr.1 hasher).isSome)
    | .branch p1 b1 l1 r1 s1, .branch p2 b2 l2 r2 s2 =>
      if b1 = b2 ∧ p1 = p2 then
        intersectionSize l1 l2 hasher + intersectionSize r1 r2 hasher
      else if b1 > b2 then
        if b2 < b1 ∧ matchKey p2 b2 p1 = true then
          if zeroBit p1 b2 then intersectionSize l2 (.branch p1 b1 l1 r1 s1) hasher
          else intersectionSize r2 (.branch p1 b1 l1 r1 s1) hasher
        else 0
      else
        if b1 < b2 ∧ matchKey p1 b1 p2 = true then
          if zeroBit p2 b1 then intersectionSize l1 (.branch p2 b2 l2 r2 s2) hasher
          else intersectionSize r1 (.branch p2 b2 l2 r2 s2) hasher
        else 0
    | _, _ => 0
termination_by sizeOf a + sizeOf b
decreasing_by all_goals (simp_wf; omega)

/-! ## Public value types (tree.go, set.go) -/

/-- `bits.Reverse64` restricted to the low `w` bits. -/
def revBits : Nat → Nat → Nat
  | 0, _ => 0
  | w + 1, x => 2 ^ w * (x % 2) + revBits w (x / 2)

/-- `bits.Reverse64` (reverses the 64-bit representation). -/
def reverse64 (x : Nat) : Nat := revBits 64 x

/-- `Tree[K, V]` from tree.go: a hasher together with a (possibly nil) root. -/
structure Tree (K V : Type) where
  hasher : Hasher K
  root : node K V

/-- `New` from tree.go. -/
def New (hasher : Hasher K) : Tree K V := ⟨hasher, .nil⟩

/-- `Tree.hash` from tree.go: big-endian 64-bit hash key. -/
def Tree.hash (t : Tree K V) (key : K) : Nat := reverse64 (t.hasher.Hash key)

/-- `Tree.Lookup` from tree.go (the walk is the shared `lookup`). -/
def Tree.Lookup (t : Tree K V) (key : K) : Option V :=
  lookup t.root (t.hash key) key t.hasher

/-- `Tree.InsertOrMerge` from tree.go (`f = none` models a nil MergeFunc). -/
def Tree.InsertOrMerge (t : Tree K V) (key : K) (value : V)
    (f : Option (MergeFunc V)) : Tree K V :=
  { t with root := (insert t.root (t.hash key) key value t.hasher f).1 }

/-- `Tree.Insert` from tree.go. -/
def Tree.Insert (t : Tree K V) (key : K) (value : V) : Tree K V :=
  t.InsertOrMerge key value none

/-- `Tree.Remove` from tree.go. -/
def Tree.Remove (t : Tree K V) (key : K) : Tree K V :=
  { t with root := remove t.root (t.hash key) key t.hasher }

/-- `Tree.Merge` from tree.go (drops the equal flag). -/
def Tree.Merge (t other : Tree K V) (f : MergeFunc V) : Tree K V :=
  { t with root := (merge t.root other.root t.hasher f).1 }

/-- `Tree.Equal` from tree.go. -/
def Tree.Equal (t other : Tree K V) (f : V → V → Bool) : Bool :=
  equal t.root other.root t.hasher f

/-- `Tree.Size` from tree.go. -/
def Tree.Size (t : Tree K V) : Nat := nodeSize t.root

/-- `Set[K]` from set.go: a tree with `Unit` values. -/
structure Set (K : Type) where
  m : Tree K Unit

/-- `NewSet` from set.go. -/
def NewSet (hasher : Hasher K) : Set K := ⟨New hasher⟩

/-- `Set.Contains` from set.go. -/
def Set.Contains (s : Set K) (key : K) : Bool := (s.m.Lookup key).isSome

/-- `Set.Insert` from set.go. -/
def Set.Insert (s : Set K) (key : K) : Set K := ⟨s.m.Insert key ()⟩

/-- `Set.Remove` from set.go. -/
def Set.Remove (s : Set K) (key : K) : Set K := ⟨s.m.Remove key⟩

/-- `Set.Union` from set.go. -/
def Set.Union (s other : Set K) : Set K :=
  ⟨s.m.Merge other.m (fun a _ => (a, true))⟩

/-- `Set.IntersectionSize` from set.go. -/
def Set.IntersectionSize (s other : Set K) : Nat :=
  if s.m.root = .nil ∨ other.m.root = .nil then 0
  else intersectionSize s.m.root other.m.root s.m.hasher

/-- `Set.Equal` from set.go. -/
def Set.Equal (s other : Set K) : Bool :=
  s.m.Equal other.m (fun _ _ => true)

/-- `Set.Size` from set.go. -/
def Set.Size (s : Set K) : Nat := s.m.Size

/-! ## Semantics: hash supports, entries, buckets -/

/-- The hashed keys of all leaves in a subtree. -/
def hashKeys : node K V → List Nat
  | .nil => []
  | .leaf lk _ _ => [lk]
  | .branch _ _ l r _ => hashKeys l ++ hashKeys r

/-- All key-value pairs stored in a subtree. -/
def entries : node K V → List (K × V)
  | .nil => []
  | .leaf _ vs _ => vs
  | .branch _ _ l r _ => entries l ++ entries r

/-- The bucket stored for a hashed key, following the branch routing. -/
def bucketOf : node K V → Nat → List (K × V)
  | .nil, _ => []
  | .leaf lk vs _, h => if lk = h then vs else []
  | .branch p bb l r _, h =>
    if matchKey p bb h then (if zeroBit h bb then bucketOf l h else bucketOf r h)
    else []

/-- Value of the first pair of a bucket whose key is `Equal` to `key`. -/
def findBucket (hasher : Hasher K) (key : K) (vs : List (K × V)) : Option V :=
  (vs.find? (fun pr => hasher.Equal key pr.1)).map (·.2)

/-- `lookup` is exactly a `findBucket` on the routed bucket. -/
theorem lookup_eq_findBucket (n : node K V) (h : Nat) (key : K) (hasher : Hasher K) :
    lookup n h key hasher = findBucket hasher key (bucketOf n h) := by
  induction n with
  | nil => simp [lookup, bucketOf, findBucket]
  | leaf lk vs sz => simp only [lookup, bucketOf, findBucket]; split <;> simp [findBucket]
  | branch p bb l r sz ihl ihr =>
    simp only [lookup, bucketOf]
    split
    · split
      · exact ihl
      · exact ihr
    · simp [findBucket]

/-- A nonempty bucket means the hash belongs to the support. -/
theorem mem_hashKeys_of_bucketOf_ne_nil {n : node K V} {h : Nat}
    (hb : bucketOf n h ≠ []) : h ∈ hashKeys n := by
  induction n with
  | nil => simp [bucketOf] at hb
  | leaf lk vs sz =>
    simp only [bucketOf] at hb
    by_cases he : lk = h
    · simp [hashKeys, he]
    · simp [he] at hb
  | branch p bb l r sz ihl ihr =>
    simp only [bucketOf] at hb
    by_cases hm : matchKey p bb h = true
    · rw [if_pos hm] at hb
      by_cases hz : zeroBit h bb = true
      · rw [if_pos hz] at hb
        simp [hashKeys, ihl hb]
      · rw [if_neg hz] at hb
        simp [hashKeys, ihr hb]
    · rw [if_neg hm] at hb; simp at hb

/-! ## The patricia invariant -/

/-- The global patricia invariants over the node representation, relative to
a hasher and the (already bit-reversed) hash function `hf`:
branch bits are single bits below bit 64, prefixes sit below the branch bit,
children are non-nil and their supports route correctly, cached sizes are
consistent, and leaf buckets are non-empty, share the leaf's hashed key and
have pairwise `Equal`-distinct keys. -/
def Inv (hasher : Hasher K) (hf : K → Nat) : node K V → Prop
  | .nil => True
  | .leaf lk vs sz =>
    vs ≠ [] ∧ sz = vs.length ∧ lk < 2 ^ 64 ∧ (∀ pr ∈ vs, hf pr.1 = lk) ∧
    vs.Pairwise (fun pr qr => hasher.Equal pr.1 qr.1 = false)
  | .branch p bb l r sz =>
    bb = 2 ^ lowBitIdx bb ∧ lowBitIdx bb < 64 ∧ p < bb ∧
    l ≠ .nil ∧ r ≠ .nil ∧
    (∀ h ∈ hashKeys l, matchKey p bb h = true ∧ zeroBit h bb = true) ∧
    (∀ h ∈ hashKeys r, matchKey p bb h = true ∧ zeroBit h bb = false) ∧
    sz = nodeSize l + nodeSize r ∧ Inv hasher hf l ∧ Inv hasher hf r

instance instDecidableInv (hasher : Hasher K) (hf : K → Nat) :
    ∀ n : node K V, Decidable (Inv hasher hf n)
  | .nil => by unfold Inv; infer_instance
  | .leaf lk vs sz => by unfold Inv; infer_instance
  | .branch p bb l r sz =>
    haveI := instDecidableInv hasher hf l
    haveI := instDecidableInv hasher hf r
    by unfold Inv; infer_instance

theorem inv_nil {hasher : Hasher K} {hf : K → Nat} : Inv (V := V) hasher hf .nil := by
  unfold Inv; trivial

/-! ## Region arithmetic -/

theorem matchKey_two_pow {i p h : Nat} : matchKey p (2 ^ i) h = true ↔ h % 2 ^ i = p := by
  unfold matchKey
  rw [Nat.and_pow_two_sub_one_eq_mod]
  simp

theorem zeroBit_two_pow {h i : Nat} : zeroBit h (2 ^ i) = !h.testBit i := by
  unfold zeroBit
  rw [Nat.and_two_pow]
  rcases hb : h.testBit i with _ | _
  · simp
  · have h2 := Nat.two_pow_pos i
    simp only [Bool.toNat_true, one_mul, Bool.not_true, beq_eq_false_iff_ne, ne_eq]
    omega

theorem mod_two_pow_eq_iff {a b i : Nat} :
    a % 2 ^ i = b % 2 ^ i ↔ ∀ j < i, a.testBit j = b.testBit j := by
  constructor
  · intro h j hj
    have := congrArg (Nat.testBit · j) h
    simpa [Nat.testBit_mod_two_pow, hj] using this
  · intro h
    apply Nat.eq_of_testBit_eq
    intro j
    rw [Nat.testBit_mod_two_pow, Nat.testBit_mod_two_pow]
    by_cases hj : j < i
    · simp [hj, h j hj]
    · simp [hj]

theorem lowBitIdx_two_pow (i : Nat) : lowBitIdx (2 ^ i) = i := by
  induction i with
  | zero => rw [lowBitIdx]; simp
  | succ i ih =>
    have h0 : (2 : Nat) ^ (i + 1) ≠ 0 := by positivity
    have he : (2 : Nat) ^ (i + 1) % 2 = 0 := by
      rw [Nat.pow_succ]
      omega
    rw [lowBitIdx_even h0 he]
    have : (2 : Nat) ^ (i + 1) / 2 = 2 ^ i := by
      rw [Nat.pow_succ]
      omega
    rw [this, ih]

theorem inv_leaf_iff {hasher : Hasher K} {hf : K → Nat} {lk : Nat}
    {vs : List (K × V)} {sz : Nat} :
    Inv hasher hf (.leaf lk vs sz) ↔
      vs ≠ [] ∧ sz = vs.length ∧ lk < 2 ^ 64 ∧ (∀ pr ∈ vs, hf pr.1 = lk) ∧
      vs.Pairwise (fun pr qr => hasher.Equal pr.1 qr.1 = false) := Iff.rfl

theorem inv_branch_iff {hasher : Hasher K} {hf : K → Nat} {p bb : Nat}
    {l r : node K V} {sz : Nat} :
    Inv hasher hf (.branch p bb l r sz) ↔
      bb = 2 ^ lowBitIdx bb ∧ lowBitIdx bb < 64 ∧ p < bb ∧
      l ≠ .nil ∧ r ≠ .nil ∧
      (∀ h ∈ hashKeys l, matchKey p bb h = true ∧ zeroBit h bb = true) ∧
      (∀ h ∈ hashKeys r, matchKey p bb h = true ∧ zeroBit h bb = false) ∧
      sz = nodeSize l + nodeSize r ∧ Inv hasher hf l ∧ Inv hasher hf r := Iff.rfl

theorem mod_agree_mono {a b i j : Nat} (hij : i ≤ j) (h : a % 2 ^ j = b % 2 ^ j) :
    a % 2 ^ i = b % 2 ^ i :=
  mod_two_pow_eq_iff.mpr fun k hk => mod_two_pow_eq_iff.mp h k (lt_of_lt_of_le hk hij)

theorem mod_pow_succ_iff {a b i : Nat} :
    a % 2 ^ (i + 1) = b % 2 ^ (i + 1) ↔
      a % 2 ^ i = b % 2 ^ i ∧ a.testBit i = b.testBit i := by
  rw [mod_two_pow_eq_iff, mod_two_pow_eq_iff]
  constructor
  · intro h
    exact ⟨fun j hj => h j (by omega), h i (by omega)⟩
  · rintro ⟨h1, h2⟩ j hj
    rcases Nat.lt_or_ge j i with hji | hji
    · exact h1 j hji
    · have hj' : j = i := by omega
      subst hj'
      exact h2

/-- When a key misses the prefix region of a branch, the branching bit of the
key against the prefix sits strictly below the branch's bit. -/
theorem lowBitIdx_xor_lt_of_not_match {hash p ib : Nat} (hp : p < 2 ^ ib)
    (hne : hash % 2 ^ ib ≠ p) : lowBitIdx (hash ^^^ p) < ib := by
  by_contra hge
  apply hne
  have : hash % 2 ^ ib = p % 2 ^ ib := by
    rw [mod_two_pow_eq_iff]
    intro j hj
    exact testBit_lt_branching (by omega)
  rw [this, Nat.mod_eq_of_lt hp]

theorem hashKeys_lt {hasher : Hasher K} {hf : K → Nat} {n : node K V}
    (hi : Inv hasher hf n) : ∀ h ∈ hashKeys n, h < 2 ^ 64 := by
  induction n with
  | nil => simp [hashKeys]
  | leaf lk vs sz =>
    rw [inv_leaf_iff] at hi
    simp only [hashKeys, List.mem_singleton]
    rintro h rfl
    exact hi.2.2.1
  | branch p bb l r sz ihl ihr =>
    rw [inv_branch_iff] at hi
    intro h hm
    rw [hashKeys, List.mem_append] at hm
    rcases hm with hm | hm
    · exact ihl hi.2.2.2.2.2.2.2.2.1 h hm
    · exact ihr hi.2.2.2.2.2.2.2.2.2 h hm

theorem exists_mem_hashKeys {hasher : Hasher K} {hf : K → Nat} {n : node K V}
    (hi : Inv hasher hf n) (hne : n ≠ .nil) : ∃ h, h ∈ hashKeys n := by
  induction n with
  | nil => exact absurd rfl hne
  | leaf lk vs sz => exact ⟨lk, by simp [hashKeys]⟩
  | branch p bb l r sz ihl ihr =>
    rw [inv_branch_iff] at hi
    obtain ⟨h, hm⟩ := ihl hi.2.2.2.2.2.2.2.2.1 hi.2.2.2.1
    exact ⟨h, by rw [hashKeys, List.mem_append]; exact Or.inl hm⟩

theorem nodeSize_eq_entries {hasher : Hasher K} {hf : K → Nat} {n : node K V}
    (hi : Inv hasher hf n) : nodeSize n = (entries n).length := by
  induction n with
  | nil => simp [nodeSize, entries]
  | leaf lk vs sz =>
    rw [inv_leaf_iff] at hi
    simp [nodeSize, entries, hi.2.1]
  | branch p bb l r sz ihl ihr =>
    rw [inv_branch_iff] at hi
    have h1 := ihl hi.2.2.2.2.2.2.2.2.1
    have h2 := ihr hi.2.2.2.2.2.2.2.2.2
    show sz = (entries l ++ entries r).length
    rw [List.length_append, ← h1, ← h2]
    exact hi.2.2.2.2.2.2.2.1

theorem pairwise_bucketOf {hasher : Hasher K} {hf : K → Nat} {n : node K V}
    (hi : Inv hasher hf n) (h : Nat) :
    (bucketOf n h).Pairwise (fun pr qr => hasher.Equal pr.1 qr.1 = false) := by
  induction n with
  | nil => simp [bucketOf]
  | leaf lk vs sz =>
    rw [inv_leaf_iff] at hi
    rw [bucketOf]
    split
    · exact hi.2.2.2.2
    · simp
  | branch p bb l r sz ihl ihr =>
    rw [inv_branch_iff] at hi
    rw [bucketOf]
    split
    · split
      · exact ihl hi.2.2.2.2.2.2.2.2.1
      · exact ihr hi.2.2.2.2.2.2.2.2.2
    · simp

theorem hf_mem_bucketOf {hasher : Hasher K} {hf : K → Nat} {n : node K V}
    (hi : Inv hasher hf n) {h : Nat} {pr : K × V} (hm : pr ∈ bucketOf n h) :
    hf pr.1 = h := by
  induction n with
  | nil => simp [bucketOf] at hm
  | leaf lk vs sz =>
    rw [inv_leaf_iff] at hi
    rw [bucketOf] at hm
    split at hm
    · rename_i he
      rw [← he]
      exact hi.2.2.2.1 pr hm
    · simp at hm
  | branch p bb l r sz ihl ihr =>
    rw [inv_branch_iff] at hi
    rw [bucketOf] at hm
    split at hm
    · split at hm
      · exact ihl hi.2.2.2.2.2.2.2.2.1 hm
      · exact ihr hi.2.2.2.2.2.2.2.2.2 hm
    · simp at hm

theorem mem_entries_of_mem_bucketOf {n : node K V} {h : Nat} {pr : K × V}
    (hm : pr ∈ bucketOf n h) : pr ∈ entries n := by
  induction n with
  | nil => simp [bucketOf] at hm
  | leaf lk vs sz =>
    rw [bucketOf] at hm
    rw [entries]
    split at hm
    · exact hm
    · simp at hm
  | branch p bb l r sz ihl ihr =>
    rw [bucketOf] at hm
    rw [entries, List.mem_append]
    split at hm
    · split at hm
      · exact Or.inl (ihl hm)
      · exact Or.inr (ihr hm)
    · simp at hm

theorem mem_bucketOf_of_mem_entries {hasher : Hasher K} {hf : K → Nat} {n : node K V}
    (hi : Inv hasher hf n) {pr : K × V} (hm : pr ∈ entries n) :
    pr ∈ bucketOf n (hf pr.1) := by
  induction n with
  | nil => simp [entries] at hm
  | leaf lk vs sz =>
    rw [inv_leaf_iff] at hi
    rw [entries] at hm
    rw [bucketOf, if_pos (hi.2.2.2.1 pr hm).symm]
    exact hm
  | branch p bb l r sz ihl ihr =>
    rw [inv_branch_iff] at hi
    rw [entries, List.mem_append] at hm
    rw [bucketOf]
    rcases hm with hm | hm
    · have hb := ihl hi.2.2.2.2.2.2.2.2.1 hm
      have hk : hf pr.1 ∈ hashKeys l :=
        mem_hashKeys_of_bucketOf_ne_nil (by intro hc; rw [hc] at hb; simp at hb)
      have := hi.2.2.2.2.2.1 _ hk
      rw [if_pos this.1, if_pos this.2]
      exact hb
    · have hb := ihr hi.2.2.2.2.2.2.2.2.2 hm
      have hk : hf pr.1 ∈ hashKeys r :=
        mem_hashKeys_of_bucketOf_ne_nil (by intro hc; rw [hc] at hb; simp at hb)
      have := hi.2.2.2.2.2.2.1 _ hk
      rw [if_pos this.1, if_neg (by simp [this.2])]
      exact hb

theorem xor_ne_zero_of_ne {a b : Nat} (h : a ≠ b) : a ^^^ b ≠ 0 := by
  intro hc
  apply h
  apply Nat.eq_of_testBit_eq
  intro j
  have := congrArg (Nat.testBit · j) hc
  simpa [Nat.testBit_xor, bne_eq_false_iff_eq] using this

/-- Closed form of `join`: a branch at the branching bit of the two prefixes,
with `t0` on the side given by `p0`'s bit. -/
theorem join_eq {t0 t1 : node K V} {p0 p1 : Nat} (hne : p0 ≠ p1)
    (h0 : p0 < 2 ^ 64) (h1 : p1 < 2 ^ 64) :
    join p0 p1 t0 t1 =
      (if !p0.testBit (lowBitIdx (p0 ^^^ p1)) then
        node.branch (p0 % 2 ^ lowBitIdx (p0 ^^^ p1)) (2 ^ lowBitIdx (p0 ^^^ p1))
          t0 t1 (nodeSize t0 + nodeSize t1)
      else
        node.branch (p0 % 2 ^ lowBitIdx (p0 ^^^ p1)) (2 ^ lowBitIdx (p0 ^^^ p1))
          t1 t0 (nodeSize t0 + nodeSize t1)) := by
  have hbb : branchingBit p0 p1 = 2 ^ lowBitIdx (p0 ^^^ p1) := branchingBit_eq hne h0 h1
  simp only [join]
  rw [hbb, Nat.and_pow_two_sub_one_eq_mod, zeroBit_two_pow]

/-- Routing through `join`: provided each side's support agrees with its
prefix through the branching bit, the joined bucket is the concatenation of
the two buckets (at most one of which is non-empty at any hash). -/
theorem bucketOf_join {s t : node K V} {p0 p1 : Nat} (hne : p0 ≠ p1)
    (h0 : p0 < 2 ^ 64) (h1 : p1 < 2 ^ 64)
    (ht0 : ∀ h ∈ hashKeys s,
      h % 2 ^ (lowBitIdx (p0 ^^^ p1) + 1) = p0 % 2 ^ (lowBitIdx (p0 ^^^ p1) + 1))
    (ht1 : ∀ h ∈ hashKeys t,
      h % 2 ^ (lowBitIdx (p0 ^^^ p1) + 1) = p1 % 2 ^ (lowBitIdx (p0 ^^^ p1) + 1)) :
    ∀ h, bucketOf (join p0 p1 s t) h = bucketOf s h ++ bucketOf t h := by
  intro h
  have hd : p0 ^^^ p1 ≠ 0 := xor_ne_zero_of_ne hne
  have hdis : p0.testBit (lowBitIdx (p0 ^^^ p1)) ≠ p1.testBit (lowBitIdx (p0 ^^^ p1)) :=
    testBit_at_branching hd
  have hagree : p0 % 2 ^ lowBitIdx (p0 ^^^ p1) = p1 % 2 ^ lowBitIdx (p0 ^^^ p1) :=
    mod_two_pow_eq_iff.mpr fun j hj => testBit_lt_branching hj
  have e0 : ¬(h % 2 ^ (lowBitIdx (p0 ^^^ p1) + 1) = p0 % 2 ^ (lowBitIdx (p0 ^^^ p1) + 1)) →
      bucketOf s h = [] := by
    intro hno
    by_contra hc
    exact hno (ht0 h (mem_hashKeys_of_bucketOf_ne_nil hc))
  have e1 : ¬(h % 2 ^ (lowBitIdx (p0 ^^^ p1) + 1) = p1 % 2 ^ (lowBitIdx (p0 ^^^ p1) + 1)) →
      bucketOf t h = [] := by
    intro hno
    by_contra hc
    exact hno (ht1 h (mem_hashKeys_of_bucketOf_ne_nil hc))
  rw [join_eq hne h0 h1]
  set i := lowBitIdx (p0 ^^^ p1) with hidef
  by_cases hm : h % 2 ^ i = p0 % 2 ^ i
  · by_cases hsame : h.testBit i = p0.testBit i
    · -- h sits on s's side; t's bucket is empty there
      have ho1 : bucketOf t h = [] := by
        apply e1
        rw [mod_pow_succ_iff]
        rintro ⟨hm1, hb1⟩
        exact hdis (hsame.symm.trans hb1)
      rw [ho1, List.append_nil]
      rcases hp0 : p0.testBit i with _ | _
      · have hb : h.testBit i = false := by rw [hsame, hp0]
        rw [if_pos (by rfl)]
        rw [bucketOf, if_pos (by rw [matchKey_two_pow]; exact hm),
          if_pos (by rw [zeroBit_two_pow, hb]; rfl)]
      · have hb : h.testBit i = true := by rw [hsame, hp0]
        rw [if_neg (by simp)]
        rw [bucketOf, if_pos (by rw [matchKey_two_pow]; exact hm),
          if_neg (by rw [zeroBit_two_pow, hb]; simp)]
    · -- h sits on t's side; s's bucket is empty there
      have ho0 : bucketOf s h = [] := by
        apply e0
        rw [mod_pow_succ_iff]
        rintro ⟨hm0, hb0⟩
        exact hsame hb0
      rw [ho0, List.nil_append]
      rcases hp0 : p0.testBit i with _ | _
      · have hb : h.testBit i = true := by
          rcases hx : h.testBit i with _ | _
          · exact absurd (hx.trans hp0.symm) hsame
          · rfl
        rw [if_pos (by rfl)]
        rw [bucketOf, if_pos (by rw [matchKey_two_pow]; exact hm),
          if_neg (by rw [zeroBit_two_pow, hb]; simp)]
      · have hb : h.testBit i = false := by
          rcases hx : h.testBit i with _ | _
          · rfl
          · exact absurd (hx.trans hp0.symm) hsame
        rw [if_neg (by simp)]
        rw [bucketOf, if_pos (by rw [matchKey_two_pow]; exact hm),
          if_pos (by rw [zeroBit_two_pow, hb]; rfl)]
  · -- h misses the region entirely
    have ho0 : bucketOf s h = [] := by
      apply e0
      intro hc
      exact hm (mod_agree_mono (Nat.le_succ i) hc)
    have ho1 : bucketOf t h = [] := by
      apply e1
      intro hc
      apply hm
      rw [hagree]
      exact mod_agree_mono (Nat.le_succ i) hc
    rw [ho0, ho1, List.append_nil]
    rcases hp0 : p0.testBit i with _ | _
    · rw [if_pos (by rfl), bucketOf,
        if_neg (by rw [matchKey_two_pow]; exact hm)]
    · rw [if_neg (by simp), bucketOf,
        if_neg (by rw [matchKey_two_pow]; exact hm)]

/-- `join` preserves the invariant when both sides are invariant, non-nil,
and supported within their prefix regions through the branching bit. -/
theorem inv_join {hasher : Hasher K} {hf : K → Nat} {t0 t1 : node K V} {p0 p1 : Nat}
    (hne : p0 ≠ p1) (h0 : p0 < 2 ^ 64) (h1 : p1 < 2 ^ 64)
    (hi0 : Inv hasher hf t0) (hi1 : Inv hasher hf t1)
    (hn0 : t0 ≠ .nil) (hn1 : t1 ≠ .nil)
    (ht0 : ∀ h ∈ hashKeys t0,
      h % 2 ^ (lowBitIdx (p0 ^^^ p1) + 1) = p0 % 2 ^ (lowBitIdx (p0 ^^^ p1) + 1))
    (ht1 : ∀ h ∈ hashKeys t1,
      h % 2 ^ (lowBitIdx (p0 ^^^ p1) + 1) = p1 % 2 ^ (lowBitIdx (p0 ^^^ p1) + 1)) :
    Inv hasher hf (join p0 p1 t0 t1) := by
  have hd : p0 ^^^ p1 ≠ 0 := xor_ne_zero_of_ne hne
  have hdis : p0.testBit (lowBitIdx (p0 ^^^ p1)) ≠ p1.testBit (lowBitIdx (p0 ^^^ p1)) :=
    testBit_at_branching hd
  have hlt64 : lowBitIdx (p0 ^^^ p1) < 64 := lowBitIdx_xor_lt hne h0 h1
  rw [join_eq hne h0 h1]
  set i := lowBitIdx (p0 ^^^ p1) with hidef
  have hsup0 : ∀ h ∈ hashKeys t0,
      matchKey (p0 % 2 ^ i) (2 ^ i) h = true ∧ zeroBit h (2 ^ i) = !p0.testBit i := by
    intro h hmem
    have hh := (mod_pow_succ_iff).mp (ht0 h hmem)
    exact ⟨matchKey_two_pow.mpr hh.1, by rw [zeroBit_two_pow, hh.2]⟩
  have hsup1 : ∀ h ∈ hashKeys t1,
      matchKey (p0 % 2 ^ i) (2 ^ i) h = true ∧ zeroBit h (2 ^ i) = !p1.testBit i := by
    intro h hmem
    have hh := (mod_pow_succ_iff).mp (ht1 h hmem)
    refine ⟨matchKey_two_pow.mpr ?_, by rw [zeroBit_two_pow, hh.2]⟩
    rw [hh.1]
    exact (mod_two_pow_eq_iff.mpr fun j hj => testBit_lt_branching hj).symm
  rcases hp0 : p0.testBit i with _ | _
  · have hp1 : p1.testBit i = true := by
      rcases hx : p1.testBit i with _ | _
      · exact absurd (hp0.trans hx.symm) hdis
      · rfl
    rw [if_pos (by rfl)]
    rw [inv_branch_iff]
    refine ⟨by rw [lowBitIdx_two_pow], by rw [lowBitIdx_two_pow]; exact hlt64,
      Nat.mod_lt _ (Nat.two_pow_pos i), hn0, hn1, ?_, ?_, rfl, hi0, hi1⟩
    · intro h hmem
      have := hsup0 h hmem
      rw [hp0] at this
      exact this
    · intro h hmem
      have := hsup1 h hmem
      rw [hp1] at this
      exact ⟨this.1, this.2⟩
  · have hp1 : p1.testBit i = false := by
      rcases hx : p1.testBit i with _ | _
      · rfl
      · exact absurd (hp0.trans hx.symm) hdis
    rw [if_neg (by simp)]
    rw [inv_branch_iff]
    refine ⟨by rw [lowBitIdx_two_pow], by rw [lowBitIdx_two_pow]; exact hlt64,
      Nat.mod_lt _ (Nat.two_pow_pos i), hn1, hn0, ?_, ?_, Nat.add_comm _ _, hi1, hi0⟩
    · intro h hmem
      have := hsup1 h hmem
      rw [hp1] at this
      exact this
    · intro h hmem
      have := hsup0 h hmem
      rw [hp0] at this
      exact ⟨this.1, this.2⟩

/-! ## Contracts: well-behaved hashers and valid merge functions -/

/-- The `Hasher` contract plus the (already bit-reversed) hash function `hf`
it induces: `Equal` is an equivalence, equal keys hash equally, and hashes
fit in 64 bits. -/
structure HProps (hasher : Hasher K) (hf : K → Nat) : Prop where
  refl : ∀ a, hasher.Equal a a = true
  symm : ∀ a b, hasher.Equal a b = true → hasher.Equal b a = true
  trans : ∀ a b c, hasher.Equal a b = true → hasher.Equal b c = true → hasher.Equal a c = true
  congr : ∀ a b, hasher.Equal a b = true → hf a = hf b
  lt : ∀ a, hf a < 2 ^ 64

/-- The `MergeFunc` contract: commutative, idempotent, and the eq flag
only reports equal values. -/
structure ValidF (f : MergeFunc V) : Prop where
  comm : ∀ x y, f x y = f y x
  idem : ∀ x, f x x = (x, true)
  eqT : ∀ x y, (f x y).2 = true → x = y

theorem HProps.ne_symm {hasher : Hasher K} {hf : K → Nat} (hp : HProps hasher hf)
    {a b : K} (h : hasher.Equal a b = false) : hasher.Equal b a = false := by
  rcases hx : hasher.Equal b a with _ | _
  · rfl
  · rw [hp.symm b a hx] at h; exact absurd h (by simp)

/-! ## insertPairs and the bucket update -/

/-- The bucket produced by `insert`'s leaf case (update or append). -/
def bucketIns (hasher : Hasher K) (key : K) (value : V) (f : Option (MergeFunc V))
    (vs : List (K × V)) : List (K × V) :=
  match insertPairs hasher key value f vs with
  | some (nvs, _) => nvs
  | none => vs ++ [(key, value)]

theorem insertPairs_none_iff {hasher : Hasher K} {key : K} {value : V}
    {f : Option (MergeFunc V)} {vs : List (K × V)} :
    insertPairs hasher key value f vs = none ↔
      ∀ pr ∈ vs, hasher.Equal key pr.1 = false := by
  induction vs with
  | nil => simp [insertPairs]
  | cons hd tl ih =>
    obtain ⟨k', v'⟩ := hd
    simp only [insertPairs]
    rcases he : hasher.Equal key k' with _ | _
    · rw [if_neg (by simp)]
      rcases hrec : insertPairs hasher key value f tl with _ | ⟨nvs, c⟩
      · constructor
        · intro _ pr hpr
          rcases List.mem_cons.mp hpr with h1 | h1
          · rw [h1]; exact he
          · exact (ih.mp hrec) pr h1
        · intro _; rfl
      · constructor
        · intro hc; exact absurd hc (by simp)
        · intro hall
          have h2 := ih.mpr fun pr hpr => hall pr (List.mem_cons_of_mem _ hpr)
          rw [hrec] at h2
          exact absurd h2 (by simp)
    · rw [if_pos rfl]
      constructor
      · intro hc
        rcases f with _ | fn
        · dsimp only at hc
          exact absurd hc (by simp)
        · dsimp only at hc
          rcases hflag : (fn value v').2 with _ | _ <;> rw [hflag] at hc <;> simp at hc
      · intro hall
        have h2 := hall (k', v') (List.mem_cons_self _ _)
        rw [he] at h2
        exact absurd h2 (by simp)

theorem insertPairs_keys {hasher : Hasher K} {key : K} {value : V}
    {f : Option (MergeFunc V)} {vs nvs : List (K × V)} {c : Bool}
    (h : insertPairs hasher key value f vs = some (nvs, c)) :
    nvs.map Prod.fst = vs.map Prod.fst := by
  induction vs generalizing nvs c with
  | nil => simp [insertPairs] at h
  | cons hd tl ih =>
    obtain ⟨k', v'⟩ := hd
    simp only [insertPairs] at h
    rcases he : hasher.Equal key k' with _ | _
    · rw [he, if_neg (by simp)] at h
      rcases hrec : insertPairs hasher key value f tl with _ | ⟨nvs', c'⟩
      · rw [hrec] at h; simp at h
      · rw [hrec] at h
        obtain ⟨h1, h2⟩ : (k', v') :: nvs' = nvs ∧ c' = c := by simpa using h
        rw [← h1]
        simp [ih hrec]
    · rw [he, if_pos rfl] at h
      rcases f with _ | fn
      · dsimp only at h
        obtain ⟨h1, h2⟩ : (k', value) :: tl = nvs ∧ c = true := by simpa using h
        rw [← h1]
        simp
      · dsimp only at h
        rcases hflag : (fn value v').2 with _ | _ <;> rw [hflag] at h
        · rw [if_neg (by simp)] at h
          obtain ⟨h1, h2⟩ : (k', (fn value v').1) :: tl = nvs ∧ c = true := by simpa using h
          rw [← h1]; simp
        · rw [if_pos rfl] at h
          obtain ⟨h1, h2⟩ : (k', v') :: tl = nvs ∧ c = false := by simpa using h
          rw [← h1]

theorem insertPairs_false_eq {hasher : Hasher K} {key : K} {value : V}
    {f : Option (MergeFunc V)} {vs nvs : List (K × V)}
    (h : insertPairs hasher key value f vs = some (nvs, false)) : nvs = vs := by
  induction vs generalizing nvs with
  | nil => simp [insertPairs] at h
  | cons hd tl ih =>
    obtain ⟨k', v'⟩ := hd
    simp only [insertPairs] at h
    rcases he : hasher.Equal key k' with _ | _
    · rw [he, if_neg (by simp)] at h
      rcases hrec : insertPairs hasher key value f tl with _ | ⟨nvs', c'⟩
      · rw [hrec] at h; simp at h
      · rw [hrec] at h
        obtain ⟨h1, h2⟩ : (k', v') :: nvs' = nvs ∧ c' = false := by simpa using h
        subst h2
        rw [← h1, ih hrec]
    · rw [he, if_pos rfl] at h
      rcases f with _ | fn
      · dsimp only at h
        simp at h
      · dsimp only at h
        rcases hflag : (fn value v').2 with _ | _ <;> rw [hflag] at h
        · rw [if_neg (by simp)] at h
          simp at h
        · rw [if_pos rfl] at h
          obtain rfl : (k', v') :: tl = nvs := by simpa using h
          rfl

/-- A `changed = false` scan found a stored pair `Equal` to the key whose
value the merge function reported equal. -/
theorem insertPairs_false_found {hasher : Hasher K} {key : K} {value : V}
    {f : Option (MergeFunc V)} {vs nvs : List (K × V)}
    (h : insertPairs hasher key value f vs = some (nvs, false)) :
    ∃ fn pr, f = some fn ∧ pr ∈ vs ∧ hasher.Equal key pr.1 = true ∧
      (fn value pr.2).2 = true := by
  induction vs generalizing nvs with
  | nil => simp [insertPairs] at h
  | cons hd tl ih =>
    obtain ⟨k', v'⟩ := hd
    simp only [insertPairs] at h
    rcases he : hasher.Equal key k' with _ | _
    · rw [he, if_neg (by simp)] at h
      rcases hrec : insertPairs hasher key value f tl with _ | ⟨nvs', c'⟩
      · rw [hrec] at h; simp at h
      · rw [hrec] at h
        obtain ⟨h1, h2⟩ : (k', v') :: nvs' = nvs ∧ c' = false := by simpa using h
        subst h2
        obtain ⟨fn, pr, hfn, hpr, heq, hflag⟩ := ih hrec
        exact ⟨fn, pr, hfn, List.mem_cons_of_mem _ hpr, heq, hflag⟩
    · rw [he, if_pos rfl] at h
      rcases f with _ | fn
      · dsimp only at h
        simp at h
      · dsimp only at h
        rcases hflag : (fn value v').2 with _ | _ <;> rw [hflag] at h
        · rw [if_neg (by simp)] at h
          simp at h
        · exact ⟨fn, (k', v'), rfl, List.mem_cons_self _ _, he, hflag⟩

theorem bucketIns_cons_not_equal {hasher : Hasher K} {key k' : K} {value v' : V}
    {f : Option (MergeFunc V)} {rest : List (K × V)}
    (he : hasher.Equal key k' = false) :
    bucketIns hasher key value f ((k', v') :: rest) =
      (k', v') :: bucketIns hasher key value f rest := by
  unfold bucketIns
  simp only [insertPairs, he, Bool.false_eq_true, if_false]
  rcases hrec : insertPairs hasher key value f rest with _ | ⟨nvs, c⟩ <;> simp

/-! ## insert: structure lemmas -/

theorem join_ne_nil {t0 t1 : node K V} {p0 p1 : Nat} : join p0 p1 t0 t1 ≠ .nil := by
  simp only [join]
  split <;> simp

theorem mem_hashKeys_join {t0 t1 : node K V} {p0 p1 h : Nat} :
    h ∈ hashKeys (join p0 p1 t0 t1) ↔ h ∈ hashKeys t0 ∨ h ∈ hashKeys t1 := by
  simp only [join]
  split <;> simp [hashKeys] <;> tauto

/-- `insert` never returns nil. -/
theorem insert_ne_nil {hasher : Hasher K} {n : node K V} {hash : Nat} {key : K}
    {value : V} {f : Option (MergeFunc V)} :
    (insert n hash key value hasher f).1 ≠ .nil := by
  cases n with
  | nil => simp [insert]
  | leaf lk vs sz =>
    simp only [insert]
    by_cases hlk : lk = hash
    · rw [if_pos hlk]
      rcases hip : insertPairs hasher key value f vs with _ | ⟨nvs, c⟩
      · simp
      · cases c <;> simp
    · rw [if_neg hlk]
      exact join_ne_nil
  | branch p bb l r sz =>
    simp only [insert]
    by_cases hm : matchKey p bb hash = true
    · rw [if_pos hm]
      by_cases hz : zeroBit hash bb = true
      · rw [if_pos hz]
        rcases hflag : (insert l hash key value hasher f).2 with _ | _ <;>
          simp [hflag]
      · rw [if_neg hz]
        rcases hflag : (insert r hash key value hasher f).2 with _ | _ <;>
          simp [hflag]
    · rw [if_neg hm]
      exact join_ne_nil

/-- A `changed = false` insert returns the input node. -/
theorem insert_flag_false {hasher : Hasher K} {n : node K V} {hash : Nat} {key : K}
    {value : V} {f : Option (MergeFunc V)}
    (h : (insert n hash key value hasher f).2 = false) :
    (insert n hash key value hasher f).1 = n := by
  cases n with
  | nil => simp [insert] at h
  | leaf lk vs sz =>
    simp only [insert] at h ⊢
    by_cases hlk : lk = hash
    · rw [if_pos hlk] at h ⊢
      rcases hip : insertPairs hasher key value f vs with _ | ⟨nvs, c⟩
      · rw [hip] at h; simp at h
      · rw [hip] at h
        cases c
        · simp
        · simp at h
    · rw [if_neg hlk] at h
      simp at h
  | branch p bb l r sz =>
    simp only [insert] at h ⊢
    by_cases hm : matchKey p bb hash = true
    · rw [if_pos hm] at h ⊢
      by_cases hz : zeroBit hash bb = true
      · rw [if_pos hz] at h ⊢
        rcases hflag : (insert l hash key value hasher f).2 with _ | _
        · rfl
        · rw [hflag] at h
          simp at h
      · rw [if_neg hz] at h ⊢
        rcases hflag : (insert r hash key value hasher f).2 with _ | _
        · rfl
        · rw [hflag] at h
          simp at h
    · rw [if_neg hm] at h
      simp at h

/-- The support of an inserted tree only adds the inserted hash. -/
theorem mem_hashKeys_insert {hasher : Hasher K} {n : node K V} {hash : Nat} {key : K}
    {value : V} {f : Option (MergeFunc V)} {h : Nat}
    (hm : h ∈ hashKeys (insert n hash key value hasher f).1) :
    h = hash ∨ h ∈ hashKeys n := by
  induction n with
  | nil =>
    simp only [insert, hashKeys, List.mem_singleton] at hm
    exact Or.inl hm
  | leaf lk vs sz =>
    simp only [insert] at hm
    by_cases hlk : lk = hash
    · rw [if_pos hlk] at hm
      rcases hip : insertPairs hasher key value f vs with _ | ⟨nvs, c⟩
      · rw [hip] at hm
        simp only [hashKeys, List.mem_singleton] at hm
        exact Or.inl (hm.trans hlk)
      · rw [hip] at hm
        cases c <;> simp only [hashKeys, List.mem_singleton] at hm <;>
          exact Or.inr (by simp [hashKeys, hm])
    · rw [if_neg hlk] at hm
      rcases mem_hashKeys_join.mp hm with h1 | h1
      · simp only [hashKeys, List.mem_singleton] at h1
        exact Or.inl h1
      · exact Or.inr h1
  | branch p bb l r sz ihl ihr =>
    simp only [insert] at hm
    by_cases hmk : matchKey p bb hash = true
    · rw [if_pos hmk] at hm
      by_cases hz : zeroBit hash bb = true
      · rw [if_pos hz] at hm
        rcases hflag : (insert l hash key value hasher f).2 with _ | _
        · rw [hflag] at hm
          simp only [if_neg (by simp : ¬(false = true))] at hm
          exact Or.inr hm
        · rw [hflag] at hm
          simp only [if_pos rfl, hashKeys, List.mem_append] at hm
          rcases hm with h1 | h1
          · rcases ihl h1 with h2 | h2
            · exact Or.inl h2
            · exact Or.inr (by simp [hashKeys, h2])
          · exact Or.inr (by simp [hashKeys, h1])
      · rw [if_neg hz] at hm
        rcases hflag : (insert r hash key value hasher f).2 with _ | _
        · rw [hflag] at hm
          simp only [if_neg (by simp : ¬(false = true))] at hm
          exact Or.inr hm
        · rw [hflag] at hm
          simp only [if_pos rfl, hashKeys, List.mem_append] at hm
          rcases hm with h1 | h1
          · exact Or.inr (by simp [hashKeys, h1])
          · rcases ihr h1 with h2 | h2
            · exact Or.inl h2
            · exact Or.inr (by simp [hashKeys, h2])
    · rw [if_neg hmk] at hm
      rcases mem_hashKeys_join.mp hm with h1 | h1
      · simp only [hashKeys, List.mem_singleton] at h1
        exact Or.inl h1
      · exact Or.inr h1

theorem bucketOf_nil {h : Nat} : bucketOf (.nil : node K V) h = [] := rfl

theorem bucketOf_leaf_self {lk : Nat} {vs : List (K × V)} {sz : Nat} :
    bucketOf (.leaf lk vs sz) lk = vs := by
  rw [bucketOf, if_pos rfl]

theorem bucketOf_leaf_ne {lk h : Nat} {vs : List (K × V)} {sz : Nat} (hne : lk ≠ h) :
    bucketOf (.leaf lk vs sz) h = [] := by
  rw [bucketOf, if_neg hne]

theorem bucketOf_branch_left {p bb h : Nat} {l r : node K V} {sz : Nat}
    (hm : matchKey p bb h = true) (hz : zeroBit h bb = true) :
    bucketOf (.branch p bb l r sz) h = bucketOf l h := by
  rw [bucketOf, if_pos hm, if_pos hz]

theorem bucketOf_branch_right {p bb h : Nat} {l r : node K V} {sz : Nat}
    (hm : matchKey p bb h = true) (hz : zeroBit h bb = false) :
    bucketOf (.branch p bb l r sz) h = bucketOf r h := by
  rw [bucketOf, if_pos hm, if_neg (by simp [hz])]

theorem bucketOf_branch_not {p bb h : Nat} {l r : node K V} {sz : Nat}
    (hm : matchKey p bb h = false) :
    bucketOf (.branch p bb l r sz) h = [] := by
  rw [bucketOf, if_neg (by simp [hm])]

theorem bucketIns_of_ip_some {hasher : Hasher K} {key : K} {value : V}
    {f : Option (MergeFunc V)} {vs nvs : List (K × V)} {c : Bool}
    (hip : insertPairs hasher key value f vs = some (nvs, c)) :
    bucketIns hasher key value f vs = nvs := by
  rw [bucketIns, hip]

theorem bucketIns_of_ip_none {hasher : Hasher K} {key : K} {value : V}
    {f : Option (MergeFunc V)} {u : List (K × V)}
    (hip : insertPairs hasher key value f u = none) :
    bucketIns hasher key value f u = u ++ [(key, value)] := by
  rw [bucketIns, hip]

/-- `insert` updates exactly the bucket at the inserted hash. -/
theorem bucketOf_insert {hasher : Hasher K} {hf : K → Nat} {n : node K V}
    (hi : Inv hasher hf n) {hash : Nat} (hlt : hash < 2 ^ 64)
    {key : K} {value : V} {f : Option (MergeFunc V)} :
    ∀ h, bucketOf (insert n hash key value hasher f).1 h =
      if h = hash then bucketIns hasher key value f (bucketOf n hash)
      else bucketOf n h := by
  induction n with
  | nil =>
    intro h
    by_cases hh : h = hash
    · subst hh
      simp [insert, bucketOf, bucketIns, insertPairs]
    · simp only [insert, bucketOf_nil]
      rw [bucketOf_leaf_ne (fun hc => hh hc.symm), if_neg hh]
  | leaf lk vs sz =>
    intro h
    obtain ⟨hvne, hsz, hlk64, hhf, hpw⟩ := inv_leaf_iff.mp hi
    simp only [insert]
    by_cases hlkh : lk = hash
    · rw [if_pos hlkh]
      have hbself : bucketOf (node.leaf lk vs sz) hash = vs := by
        rw [← hlkh]; exact bucketOf_leaf_self
      rcases hip : insertPairs hasher key value f vs with _ | ⟨nvs, c⟩
      · dsimp only
        by_cases hh : h = hash
        · subst hh
          rw [if_pos rfl, hbself, bucketIns_of_ip_none hip, ← hlkh, bucketOf_leaf_self]
        · have hlkne : lk ≠ h := fun hc => hh (hc.symm.trans hlkh)
          rw [if_neg hh, bucketOf_leaf_ne hlkne, bucketOf_leaf_ne hlkne]
      · cases c
        · have hnvs := insertPairs_false_eq hip
          subst hnvs
          dsimp only
          simp only [Bool.false_eq_true, if_false]
          by_cases hh : h = hash
          · subst hh
            rw [if_pos rfl, hbself, bucketIns_of_ip_some hip]
          · rw [if_neg hh]
        · dsimp only
          simp only [if_true]
          by_cases hh : h = hash
          · subst hh
            rw [if_pos rfl, hbself, bucketIns_of_ip_some hip, ← hlkh, bucketOf_leaf_self]
          · have hlkne : lk ≠ h := fun hc => hh (hc.symm.trans hlkh)
            rw [if_neg hh, bucketOf_leaf_ne hlkne, bucketOf_leaf_ne hlkne]
    · rw [if_neg hlkh]
      have hne : hash ≠ lk := fun hc => hlkh hc.symm
      have hjoin := bucketOf_join (s := (.leaf hash [(key, value)] 1 : node K V))
        (t := (.leaf lk vs sz : node K V)) hne hlt hlk64
        (by intro h' hm'
            simp only [hashKeys, List.mem_singleton] at hm'
            rw [hm'])
        (by intro h' hm'
            simp only [hashKeys, List.mem_singleton] at hm'
            rw [hm'])
      rw [hjoin h]
      by_cases hh : h = hash
      · subst hh
        rw [if_pos rfl, bucketOf_leaf_self, bucketOf_leaf_ne hlkh]
        simp [bucketIns, insertPairs]
      · rw [if_neg hh, bucketOf_leaf_ne (fun hc => hh hc.symm), List.nil_append]
  | branch p bb l r sz ihl ihr =>
    intro h
    obtain ⟨hbb, hib, hplt, hln, hrn, hsl, hsr, hszb, hil, hir⟩ := inv_branch_iff.mp hi
    simp only [insert]
    by_cases hm : matchKey p bb hash = true
    · rw [if_pos hm]
      by_cases hz : zeroBit hash bb = true
      · rw [if_pos hz]
        rcases hflag : (insert l hash key value hasher f).2 with _ | _
        · have heq : (insert l hash key value hasher f).1 = l := insert_flag_false hflag
          show bucketOf (node.branch p bb l r sz) h = _
          by_cases hh : h = hash
          · subst hh
            rw [if_pos rfl, bucketOf_branch_left hm hz]
            have hx := ihl hil h
            rw [if_pos rfl, heq] at hx
            exact hx
          · rw [if_neg hh]
        · show bucketOf (node.branch p bb (insert l hash key value hasher f).1 r _) h = _
          by_cases hh : h = hash
          · subst hh
            rw [if_pos rfl, bucketOf_branch_left hm hz, bucketOf_branch_left hm hz]
            have hx := ihl hil h
            rw [if_pos rfl] at hx
            exact hx
          · rw [if_neg hh]
            by_cases hmk : matchKey p bb h = true
            · by_cases hzh : zeroBit h bb = true
              · rw [bucketOf_branch_left hmk hzh, bucketOf_branch_left hmk hzh]
                have hx := ihl hil h
                rw [if_neg hh] at hx
                exact hx
              · rw [bucketOf_branch_right hmk (by simpa using hzh),
                  bucketOf_branch_right hmk (by simpa using hzh)]
            · rw [bucketOf_branch_not (by simpa using hmk),
                bucketOf_branch_not (by simpa using hmk)]
      · rw [if_neg hz]
        rcases hflag : (insert r hash key value hasher f).2 with _ | _
        · have heq : (insert r hash key value hasher f).1 = r := insert_flag_false hflag
          show bucketOf (node.branch p bb l r sz) h = _
          by_cases hh : h = hash
          · subst hh
            rw [if_pos rfl, bucketOf_branch_right hm (by simpa using hz)]
            have hx := ihr hir h
            rw [if_pos rfl, heq] at hx
            exact hx
          · rw [if_neg hh]
        · show bucketOf (node.branch p bb l (insert r hash key value hasher f).1 _) h = _
          by_cases hh : h = hash
          · subst hh
            rw [if_pos rfl, bucketOf_branch_right hm (by simpa using hz),
              bucketOf_branch_right hm (by simpa using hz)]
            have hx := ihr hir h
            rw [if_pos rfl] at hx
            exact hx
          · rw [if_neg hh]
            by_cases hmk : matchKey p bb h = true
            · by_cases hzh : zeroBit h bb = true
              · rw [bucketOf_branch_left hmk hzh, bucketOf_branch_left hmk hzh]
              · rw [bucketOf_branch_right hmk (by simpa using hzh),
                  bucketOf_branch_right hmk (by simpa using hzh)]
                have hx := ihr hir h
                rw [if_neg hh] at hx
                exact hx
            · rw [bucketOf_branch_not (by simpa using hmk),
                bucketOf_branch_not (by simpa using hmk)]
    · rw [if_neg hm]
      have hplt2 : p < 2 ^ lowBitIdx bb := by rw [← hbb]; exact hplt
      have hp64 : p < 2 ^ 64 :=
        lt_of_lt_of_le hplt2 (Nat.pow_le_pow_right (by omega) (le_of_lt hib))
      have hmod : ¬(hash % 2 ^ lowBitIdx bb = p) := by
        intro hc
        rw [hbb] at hm
        exact hm (matchKey_two_pow.mpr hc)
      have hne : hash ≠ p := by
        intro hc
        subst hc
        exact hmod (Nat.mod_eq_of_lt hplt2)
      have hlow : lowBitIdx (hash ^^^ p) < lowBitIdx bb :=
        lowBitIdx_xor_lt_of_not_match hplt2 hmod
      have hsup : ∀ h' ∈ hashKeys (node.branch p bb l r sz),
          h' % 2 ^ (lowBitIdx (hash ^^^ p) + 1) = p % 2 ^ (lowBitIdx (hash ^^^ p) + 1) := by
        intro h' hm'
        rw [hashKeys, List.mem_append] at hm'
        have hmk : matchKey p bb h' = true := by
          rcases hm' with hm' | hm'
          · exact (hsl h' hm').1
          · exact (hsr h' hm').1
        rw [hbb] at hmk
        have h1 : h' % 2 ^ lowBitIdx bb = p % 2 ^ lowBitIdx bb := by
          rw [matchKey_two_pow.mp hmk, Nat.mod_eq_of_lt hplt2]
        exact mod_agree_mono (by omega) h1
      have hjoin := bucketOf_join (s := (.leaf hash [(key, value)] 1 : node K V))
        (t := (.branch p bb l r sz : node K V)) hne hlt hp64
        (by intro h' hm'
            simp only [hashKeys, List.mem_singleton] at hm'
            rw [hm'])
        hsup
      rw [hjoin h]
      by_cases hh : h = hash
      · subst hh
        rw [if_pos rfl, bucketOf_leaf_self, bucketOf_branch_not (by simpa using hm)]
        simp [bucketIns, insertPairs]
      · rw [if_neg hh, bucketOf_leaf_ne (fun hc => hh hc.symm), List.nil_append]

/-- `insert` preserves the invariant. -/
theorem inv_insert {hasher : Hasher K} {hf : K → Nat} (hp : HProps hasher hf)
    {n : node K V} (hi : Inv hasher hf n) {hash : Nat} {key : K}
    (hk : hash = hf key) {value : V} {f : Option (MergeFunc V)} :
    Inv hasher hf (insert n hash key value hasher f).1 := by
  have hlt : hash < 2 ^ 64 := by rw [hk]; exact hp.lt key
  induction n with
  | nil =>
    simp only [insert]
    rw [inv_leaf_iff]
    exact ⟨by simp, by simp, hlt, by simp [hk], by simp⟩
  | leaf lk vs sz =>
    obtain ⟨hvne, hsz, hlk64, hhf, hpw⟩ := inv_leaf_iff.mp hi
    simp only [insert]
    by_cases hlkh : lk = hash
    · rw [if_pos hlkh]
      rcases hip : insertPairs hasher key value f vs with _ | ⟨nvs, c⟩
      · dsimp only
        rw [inv_leaf_iff]
        refine ⟨by simp, by simp [hsz], hlk64, ?_, ?_⟩
        · intro pr hm
          rcases List.mem_append.mp hm with hm | hm
          · exact hhf pr hm
          · simp only [List.mem_singleton] at hm
            rw [hm]
            exact hk.symm.trans hlkh.symm
        · rw [List.pairwise_append]
          refine ⟨hpw, by simp, ?_⟩
          intro a ha b hb
          simp only [List.mem_singleton] at hb
          subst hb
          exact hp.ne_symm (insertPairs_none_iff.mp hip a ha)
      · cases c
        · simp only [Bool.false_eq_true, if_false]
          exact hi
        · simp only [if_true]
          rw [inv_leaf_iff]
          have hkeys := insertPairs_keys hip
          have hlen : nvs.length = vs.length := by
            have := congrArg List.length hkeys
            simpa using this
          refine ⟨?_, by rw [hsz, hlen], hlk64, ?_, ?_⟩
          · intro hc
            rw [hc] at hlen
            exact hvne (List.eq_nil_of_length_eq_zero hlen.symm)
          · intro pr hm
            have hm2 : pr.1 ∈ nvs.map Prod.fst := List.mem_map_of_mem _ hm
            rw [hkeys] at hm2
            obtain ⟨qr, hq, hq2⟩ := List.mem_map.mp hm2
            rw [← hq2]
            exact hhf qr hq
          · have h1 : (vs.map Prod.fst).Pairwise (fun a b => hasher.Equal a b = false) :=
              (List.pairwise_map).mpr hpw
            rw [← hkeys] at h1
            exact (List.pairwise_map).mp h1
    · rw [if_neg hlkh]
      have hne : hash ≠ lk := fun hc => hlkh hc.symm
      refine inv_join hne hlt hlk64 ?_ hi (by simp) (by simp) ?_ ?_
      · rw [inv_leaf_iff]
        exact ⟨by simp, by simp, hlt, by simp [hk], by simp⟩
      · intro h' hm'
        simp only [hashKeys, List.mem_singleton] at hm'
        rw [hm']
      · intro h' hm'
        simp only [hashKeys, List.mem_singleton] at hm'
        rw [hm']
  | branch p bb l r sz ihl ihr =>
    obtain ⟨hbb, hib, hplt, hln, hrn, hsl, hsr, hszb, hil, hir⟩ := inv_branch_iff.mp hi
    simp only [insert]
    by_cases hm : matchKey p bb hash = true
    · rw [if_pos hm]
      by_cases hz : zeroBit hash bb = true
      · rw [if_pos hz]
        rcases hflag : (insert l hash key value hasher f).2 with _ | _
        · simp only [Bool.false_eq_true, if_false]
          exact hi
        · simp only [if_true]
          rw [inv_branch_iff]
          refine ⟨hbb, hib, hplt, insert_ne_nil, hrn, ?_, hsr, rfl, ihl hil, hir⟩
          intro h' hm'
          rcases mem_hashKeys_insert hm' with h1 | h1
          · subst h1
            exact ⟨hm, hz⟩
          · exact hsl h' h1
      · rw [if_neg hz]
        rcases hflag : (insert r hash key value hasher f).2 with _ | _
        · simp only [Bool.false_eq_true, if_false]
          exact hi
        · simp only [if_true]
          rw [inv_branch_iff]
          refine ⟨hbb, hib, hplt, hln, insert_ne_nil, hsl, ?_, rfl, hil, ihr hir⟩
          intro h' hm'
          rcases mem_hashKeys_insert hm' with h1 | h1
          · subst h1
            exact ⟨hm, by simpa using hz⟩
          · exact hsr h' h1
    · rw [if_neg hm]
      have hplt2 : p < 2 ^ lowBitIdx bb := by rw [← hbb]; exact hplt
      have hp64 : p < 2 ^ 64 :=
        lt_of_lt_of_le hplt2 (Nat.pow_le_pow_right (by omega) (le_of_lt hib))
      have hmod : ¬(hash % 2 ^ lowBitIdx bb = p) := by
        intro hc
        rw [hbb] at hm
        exact hm (matchKey_two_pow.mpr hc)
      have hne : hash ≠ p := by
        intro hc
        subst hc
        exact hmod (Nat.mod_eq_of_lt hplt2)
      have hlow : lowBitIdx (hash ^^^ p) < lowBitIdx bb :=
        lowBitIdx_xor_lt_of_not_match hplt2 hmod
      refine inv_join hne hlt hp64 ?_ hi (by simp) (by simp) ?_ ?_
      · rw [inv_leaf_iff]
        exact ⟨by simp, by simp, hlt, by simp [hk], by simp⟩
      · intro h' hm'
        simp only [hashKeys, List.mem_singleton] at hm'
        rw [hm']
      · intro h' hm'
        rw [hashKeys, List.mem_append] at hm'
        have hmk : matchKey p bb h' = true := by
          rcases hm' with hm' | hm'
          · exact (hsl h' hm').1
          · exact (hsr h' hm').1
        rw [hbb] at hmk
        have h1 : h' % 2 ^ lowBitIdx bb = p % 2 ^ lowBitIdx bb := by
          rw [matchKey_two_pow.mp hmk, Nat.mod_eq_of_lt hplt2]
        exact mod_agree_mono (by omega) h1

theorem findBucket_cons_pos {hasher : Hasher K} {k k' : K} {v' : V}
    {tl : List (K × V)} (h : hasher.Equal k k' = true) :
    findBucket hasher k ((k', v') :: tl) = some v' := by
  simp [findBucket, List.find?_cons_of_pos, h]

theorem findBucket_cons_neg {hasher : Hasher K} {k k' : K} {v' : V}
    {tl : List (K × V)} (h : hasher.Equal k k' = false) :
    findBucket hasher k ((k', v') :: tl) = findBucket hasher k tl := by
  simp [findBucket, List.find?_cons_of_neg, h]

/-- `findBucket` after a plain (`f = nil`) bucket update. -/
theorem findBucket_bucketIns_none {hasher : Hasher K} {hf : K → Nat}
    (hp : HProps hasher hf) {key k : K} {value : V} {vs : List (K × V)} :
    findBucket hasher k (bucketIns hasher key value none vs) =
      if hasher.Equal k key = true then some value else findBucket hasher k vs := by
  induction vs with
  | nil =>
    rw [bucketIns_of_ip_none (u := []) rfl]
    rcases he : hasher.Equal k key with _ | _ <;> simp [findBucket, he]
  | cons hd tl ih =>
    obtain ⟨k', v'⟩ := hd
    rcases he' : hasher.Equal key k' with _ | _
    · rw [bucketIns_cons_not_equal he']
      rcases hk' : hasher.Equal k k' with _ | _
      · rw [findBucket_cons_neg hk', findBucket_cons_neg hk', ih]
      · have hkk : hasher.Equal k key = false := by
          rcases hx : hasher.Equal k key with _ | _
          · rfl
          · have h2 := hp.trans _ _ _ (hp.symm _ _ hx) hk'
            rw [he'] at h2
            exact absurd h2 (by simp)
        rw [findBucket_cons_pos hk', hkk, if_neg (by simp), findBucket_cons_pos hk']
    · have hbi : bucketIns hasher key value none ((k', v') :: tl) = (k', value) :: tl :=
        bucketIns_of_ip_some (c := true) (by simp [insertPairs, he'])
      rw [hbi]
      rcases hk' : hasher.Equal k k' with _ | _
      · have hkk : hasher.Equal k key = false := by
          rcases hx : hasher.Equal k key with _ | _
          · rfl
          · have h2 := hp.trans _ _ _ hx he'
            rw [hk'] at h2
            exact absurd h2 (by simp)
        rw [findBucket_cons_neg hk', hkk, if_neg (by simp), findBucket_cons_neg hk']
      · have hkk : hasher.Equal k key = true := hp.trans _ _ _ hk' (hp.symm _ _ he')
        rw [findBucket_cons_pos hk', hkk, if_pos rfl]

/-- `findBucket` after an insert-or-merge bucket update with a valid merge
function. -/
theorem findBucket_bucketIns_some {hasher : Hasher K} {hf : K → Nat}
    (hp : HProps hasher hf) {fn : MergeFunc V} (hv : ValidF fn)
    {key k : K} {value : V} {vs : List (K × V)} :
    findBucket hasher k (bucketIns hasher key value (some fn) vs) =
      if hasher.Equal k key = true then
        some (match findBucket hasher key vs with
          | some w => (fn value w).1
          | none => value)
      else findBucket hasher k vs := by
  induction vs with
  | nil =>
    rw [bucketIns_of_ip_none (u := []) rfl]
    rcases he : hasher.Equal k key with _ | _ <;> simp [findBucket, he]
  | cons hd tl ih =>
    obtain ⟨k', v'⟩ := hd
    rcases he' : hasher.Equal key k' with _ | _
    · rw [bucketIns_cons_not_equal he', findBucket_cons_neg he']
      rcases hk' : hasher.Equal k k' with _ | _
      · rw [findBucket_cons_neg hk', findBucket_cons_neg hk', ih]
      · have hkk : hasher.Equal k key = false := by
          rcases hx : hasher.Equal k key with _ | _
          · rfl
          · have h2 := hp.trans _ _ _ (hp.symm _ _ hx) hk'
            rw [he'] at h2
            exact absurd h2 (by simp)
        rw [findBucket_cons_pos hk', hkk, if_neg (by simp), findBucket_cons_pos hk']
    · rw [findBucket_cons_pos he']
      rcases hflag : (fn value v').2 with _ | _
      · have hbi : bucketIns hasher key value (some fn) ((k', v') :: tl) =
            (k', (fn value v').1) :: tl :=
          bucketIns_of_ip_some (c := true) (by simp [insertPairs, he', hflag])
        rw [hbi]
        rcases hk' : hasher.Equal k k' with _ | _
        · have hkk : hasher.Equal k key = false := by
            rcases hx : hasher.Equal k key with _ | _
            · rfl
            · have h2 := hp.trans _ _ _ hx he'
              rw [hk'] at h2
              exact absurd h2 (by simp)
          rw [findBucket_cons_neg hk', hkk, if_neg (by simp), findBucket_cons_neg hk']
        · have hkk : hasher.Equal k key = true := hp.trans _ _ _ hk' (hp.symm _ _ he')
          rw [findBucket_cons_pos hk', hkk, if_pos rfl]
      · have hbi : bucketIns hasher key value (some fn) ((k', v') :: tl) =
            (k', v') :: tl :=
          bucketIns_of_ip_some (c := false) (by simp [insertPairs, he', hflag])
        rw [hbi]
        rcases hk' : hasher.Equal k k' with _ | _
        · have hkk : hasher.Equal k key = false := by
            rcases hx : hasher.Equal k key with _ | _
            · rfl
            · have h2 := hp.trans _ _ _ hx he'
              rw [hk'] at h2
              exact absurd h2 (by simp)
          rw [findBucket_cons_neg hk', hkk, if_neg (by simp)]
        · have hkk : hasher.Equal k key = true := hp.trans _ _ _ hk' (hp.symm _ _ he')
          rw [findBucket_cons_pos hk', hkk, if_pos rfl]
          dsimp only
          have hvv : value = v' := hv.eqT _ _ hflag
          rw [hvv, hv.idem v']

/-- Lookup after a plain insert: the inserted key maps to the new value,
every other key is untouched. -/
theorem lookup_insert_none {hasher : Hasher K} {hf : K → Nat} (hp : HProps hasher hf)
    {n : node K V} (hi : Inv hasher hf n) {q : K} {w : V} (k : K) :
    lookup (insert n (hf q) q w hasher none).1 (hf k) k hasher =
      if hasher.Equal k q = true then some w
      else lookup n (hf k) k hasher := by
  rw [lookup_eq_findBucket, bucketOf_insert hi (hp.lt q) (hf k)]
  by_cases hh : hf k = hf q
  · rw [if_pos hh, findBucket_bucketIns_none hp]
    by_cases he : hasher.Equal k q = true
    · rw [if_pos he, if_pos he]
    · rw [if_neg he, if_neg he, lookup_eq_findBucket, hh]
  · have he : hasher.Equal k q = false := by
      rcases hx : hasher.Equal k q with _ | _
      · rfl
      · exact absurd (hp.congr _ _ hx) hh
    rw [if_neg hh, if_neg (by simp [he]), lookup_eq_findBucket]

/-- Lookup after insert-or-merge with a valid merge function. -/
theorem lookup_insert_some {hasher : Hasher K} {hf : K → Nat} (hp : HProps hasher hf)
    {n : node K V} (hi : Inv hasher hf n) {key : K} {value : V}
    {fn : MergeFunc V} (hv : ValidF fn) (k : K) :
    lookup (insert n (hf key) key value hasher (some fn)).1 (hf k) k hasher =
      if hasher.Equal k key = true then
        some (match lookup n (hf key) key hasher with
          | some w => (fn value w).1
          | none => value)
      else lookup n (hf k) k hasher := by
  rw [lookup_eq_findBucket, bucketOf_insert hi (hp.lt key) (hf k)]
  by_cases hh : hf k = hf key
  · rw [if_pos hh, findBucket_bucketIns_some hp hv]
    by_cases he : hasher.Equal k key = true
    · rw [if_pos he, if_pos he, lookup_eq_findBucket]
    · rw [if_neg he, if_neg he, lookup_eq_findBucket, hh]
  · have he : hasher.Equal k key = false := by
      rcases hx : hasher.Equal k key with _ | _
      · rfl
      · exact absurd (hp.congr _ _ hx) hh
    rw [if_neg hh, if_neg (by simp [he]), lookup_eq_findBucket]

/-! ## remove: bucket update -/

/-- The bucket produced by `remove`'s leaf case. -/
def bucketRem (hasher : Hasher K) (key : K) (vs : List (K × V)) : List (K × V) :=
  match removePairs hasher key vs with
  | some nvs => nvs
  | none => vs

theorem removePairs_none_iff {hasher : Hasher K} {key : K} {vs : List (K × V)} :
    removePairs hasher key vs = none ↔ ∀ pr ∈ vs, hasher.Equal key pr.1 = false := by
  induction vs with
  | nil => simp [removePairs]
  | cons hd tl ih =>
    obtain ⟨k', v'⟩ := hd
    simp only [removePairs]
    rcases he : hasher.Equal key k' with _ | _
    · rw [if_neg (by simp)]
      rcases hrec : removePairs hasher key tl with _ | nvs
      · constructor
        · intro _ pr hpr
          rcases List.mem_cons.mp hpr with h1 | h1
          · rw [h1]; exact he
          · exact (ih.mp hrec) pr h1
        · intro _; rfl
      · constructor
        · intro hc; exact absurd hc (by simp)
        · intro hall
          have h2 := ih.mpr fun pr hpr => hall pr (List.mem_cons_of_mem _ hpr)
          rw [hrec] at h2
          exact absurd h2 (by simp)
    · rw [if_pos rfl]
      constructor
      · intro hc; exact absurd hc (by simp)
      · intro hall
        have h2 := hall (k', v') (List.mem_cons_self _ _)
        rw [he] at h2
        exact absurd h2 (by simp)

theorem removePairs_sublist {hasher : Hasher K} {key : K} {vs nvs : List (K × V)}
    (h : removePairs hasher key vs = some nvs) : nvs.Sublist vs := by
  induction vs generalizing nvs with
  | nil => simp [removePairs] at h
  | cons hd tl ih =>
    obtain ⟨k', v'⟩ := hd
    simp only [removePairs] at h
    rcases he : hasher.Equal key k' with _ | _
    · rw [he, if_neg (by simp)] at h
      rcases hrec : removePairs hasher key tl with _ | nvs'
      · rw [hrec] at h; simp at h
      · rw [hrec] at h
        obtain rfl : (k', v') :: nvs' = nvs := by simpa using h
        exact List.Sublist.cons₂ _ (ih hrec)
    · rw [he, if_pos rfl] at h
      obtain rfl : tl = nvs := by simpa using h
      exact List.sublist_cons_self _ _

theorem removePairs_length {hasher : Hasher K} {key : K} {vs nvs : List (K × V)}
    (h : removePairs hasher key vs = some nvs) : vs.length = nvs.length + 1 := by
  induction vs generalizing nvs with
  | nil => simp [removePairs] at h
  | cons hd tl ih =>
    obtain ⟨k', v'⟩ := hd
    simp only [removePairs] at h
    rcases he : hasher.Equal key k' with _ | _
    · rw [he, if_neg (by simp)] at h
      rcases hrec : removePairs hasher key tl with _ | nvs'
      · rw [hrec] at h; simp at h
      · rw [hrec] at h
        obtain rfl : (k', v') :: nvs' = nvs := by simpa using h
        simp [ih hrec]
    · rw [he, if_pos rfl] at h
      obtain rfl : tl = nvs := by simpa using h
      simp

theorem bucketRem_of_some {hasher : Hasher K} {key : K} {vs nvs : List (K × V)}
    (hrp : removePairs hasher key vs = some nvs) : bucketRem hasher key vs = nvs := by
  rw [bucketRem, hrp]

theorem bucketRem_of_none {hasher : Hasher K} {key : K} {vs : List (K × V)}
    (hrp : removePairs hasher key vs = none) : bucketRem hasher key vs = vs := by
  rw [bucketRem, hrp]

theorem bucketRem_cons_not_equal {hasher : Hasher K} {key k' : K} {v' : V}
    {rest : List (K × V)} (he : hasher.Equal key k' = false) :
    bucketRem hasher key ((k', v') :: rest) = (k', v') :: bucketRem hasher key rest := by
  unfold bucketRem
  simp only [removePairs, he, Bool.false_eq_true, if_false]
  rcases hrec : removePairs hasher key rest with _ | nvs <;> simp

theorem findBucket_eq_none {hasher : Hasher K} {k : K} {vs : List (K × V)}
    (hall : ∀ pr ∈ vs, hasher.Equal k pr.1 = false) :
    findBucket hasher k vs = none := by
  induction vs with
  | nil => rfl
  | cons hd tl ih =>
    obtain ⟨k', v'⟩ := hd
    rw [findBucket_cons_neg (hall (k', v') (List.mem_cons_self _ _)),
      ih fun pr hpr => hall pr (List.mem_cons_of_mem _ hpr)]

/-- `findBucket` after a bucket removal, for a bucket with pairwise distinct
keys: the removed key vanishes, others are untouched. -/
theorem findBucket_bucketRem {hasher : Hasher K} {hf : K → Nat} (hp : HProps hasher hf)
    {key k : K} {vs : List (K × V)}
    (hdist : vs.Pairwise (fun pr qr => hasher.Equal pr.1 qr.1 = false)) :
    findBucket hasher k (bucketRem hasher key vs) =
      if hasher.Equal k key = true then none else findBucket hasher k vs := by
  induction vs with
  | nil =>
    rcases he : hasher.Equal k key with _ | _ <;> simp [bucketRem, removePairs, findBucket, he]
  | cons hd tl ih =>
    obtain ⟨k', v'⟩ := hd
    rw [List.pairwise_cons] at hdist
    rcases he' : hasher.Equal key k' with _ | _
    · rw [bucketRem_cons_not_equal he']
      rcases hk' : hasher.Equal k k' with _ | _
      · rw [findBucket_cons_neg hk', findBucket_cons_neg hk', ih hdist.2]
      · have hkk : hasher.Equal k key = false := by
          rcases hx : hasher.Equal k key with _ | _
          · rfl
          · have h2 := hp.trans _ _ _ (hp.symm _ _ hx) hk'
            rw [he'] at h2
            exact absurd h2 (by simp)
        rw [findBucket_cons_pos hk', hkk, if_neg (by simp), findBucket_cons_pos hk']
    · have hbr : bucketRem hasher key ((k', v') :: tl) = tl := by
        unfold bucketRem
        simp [removePairs, he']
      rw [hbr]
      rcases hk' : hasher.Equal k k' with _ | _
      · have hkk : hasher.Equal k key = false := by
          rcases hx : hasher.Equal k key with _ | _
          · rfl
          · have h2 := hp.trans _ _ _ hx he'
            rw [hk'] at h2
            exact absurd h2 (by simp)
        rw [hkk, if_neg (by simp), findBucket_cons_neg hk']
      · have hkk : hasher.Equal k key = true := hp.trans _ _ _ hk' (hp.symm _ _ he')
        rw [hkk, if_pos rfl]
        apply findBucket_eq_none
        intro pr hpr
        have h3 := hdist.1 pr hpr
        rcases hx : hasher.Equal k pr.1 with _ | _
        · rfl
        · have h4 := hp.trans _ _ _ (hp.symm _ _ hk') hx
          rw [h3] at h4
          exact absurd h4 (by simp)

theorem br_eq {p bb : Nat} {l r : node K V} :
    br p bb l r =
      if l = .nil then r
      else if r = .nil then l
      else .branch p bb l r (nodeSize l + nodeSize r) := by
  cases l <;> cases r <;> simp [br]

theorem mem_hashKeys_br {p bb h : Nat} {l r : node K V}
    (hm : h ∈ hashKeys (br p bb l r)) : h ∈ hashKeys l ∨ h ∈ hashKeys r := by
  rw [br_eq] at hm
  by_cases hl : l = .nil
  · rw [if_pos hl] at hm; exact Or.inr hm
  · rw [if_neg hl] at hm
    by_cases hr : r = .nil
    · rw [if_pos hr] at hm; exact Or.inl hm
    · rw [if_neg hr] at hm
      rw [hashKeys, List.mem_append] at hm
      exact hm

/-- `br` preserves the invariant when its children are invariant and
supported on the correct sides. -/
theorem inv_br {hasher : Hasher K} {hf : K → Nat} {p bb : Nat} {l r : node K V}
    (hbb : bb = 2 ^ lowBitIdx bb) (hib : lowBitIdx bb < 64) (hplt : p < bb)
    (hil : Inv hasher hf l) (hir : Inv hasher hf r)
    (hsl : ∀ h ∈ hashKeys l, matchKey p bb h = true ∧ zeroBit h bb = true)
    (hsr : ∀ h ∈ hashKeys r, matchKey p bb h = true ∧ zeroBit h bb = false) :
    Inv hasher hf (br p bb l r) := by
  rw [br_eq]
  by_cases hl : l = .nil
  · rw [if_pos hl]; exact hir
  · rw [if_neg hl]
    by_cases hr : r = .nil
    · rw [if_pos hr]; exact hil
    · rw [if_neg hr]
      rw [inv_branch_iff]
      exact ⟨hbb, hib, hplt, hl, hr, hsl, hsr, rfl, hil, hir⟩

/-- `br` has the same buckets as the corresponding branch node, provided the
children are supported on the correct sides. -/
theorem bucketOf_br {p bb : Nat} {l r : node K V} {z : Nat}
    (hsl : ∀ h ∈ hashKeys l, matchKey p bb h = true ∧ zeroBit h bb = true)
    (hsr : ∀ h ∈ hashKeys r, matchKey p bb h = true ∧ zeroBit h bb = false) :
    ∀ h, bucketOf (br p bb l r) h = bucketOf (.branch p bb l r z) h := by
  intro h
  have hel : (matchKey p bb h = true → zeroBit h bb = false) → bucketOf l h = [] := by
    intro hc
    by_contra hne
    have hk := mem_hashKeys_of_bucketOf_ne_nil hne
    by_cases hmk : matchKey p bb h = true
    · rw [(hsl h hk).2] at hc
      have := hc hmk
      exact absurd this (by simp)
    · exact hmk (hsl h hk).1
  have her : (matchKey p bb h = true → zeroBit h bb = true) → bucketOf r h = [] := by
    intro hc
    by_contra hne
    have hk := mem_hashKeys_of_bucketOf_ne_nil hne
    by_cases hmk : matchKey p bb h = true
    · have h2 := hc hmk
      rw [(hsr h hk).2] at h2
      exact absurd h2 (by simp)
    · exact hmk (hsr h hk).1
  rw [br_eq]
  by_cases hl : l = .nil
  · rw [if_pos hl]
    subst hl
    by_cases hmk : matchKey p bb h = true
    · by_cases hz : zeroBit h bb = true
      · rw [bucketOf_branch_left hmk hz, bucketOf_nil]
        exact her fun _ => hz
      · rw [bucketOf_branch_right hmk (by simpa using hz)]
    · rw [bucketOf_branch_not (by simpa using hmk)]
      exact her fun hc => absurd hc hmk
  · rw [if_neg hl]
    by_cases hr : r = .nil
    · rw [if_pos hr]
      subst hr
      by_cases hmk : matchKey p bb h = true
      · by_cases hz : zeroBit h bb = true
        · rw [bucketOf_branch_left hmk hz]
        · rw [bucketOf_branch_right hmk (by simpa using hz), bucketOf_nil]
          exact hel fun _ => by simpa using hz
      · rw [bucketOf_branch_not (by simpa using hmk)]
        exact hel fun hc => absurd hc hmk
    · rw [if_neg hr]
      rfl

theorem mem_hashKeys_remove {hasher : Hasher K} {n : node K V} {hash : Nat} {key : K}
    {h : Nat} (hm : h ∈ hashKeys (remove n hash key hasher)) : h ∈ hashKeys n := by
  induction n with
  | nil => simpa [remove] using hm
  | leaf lk vs sz =>
    simp only [remove] at hm
    by_cases hlk : lk = hash
    · rw [if_pos hlk] at hm
      rcases hrp : removePairs hasher key vs with _ | nvs
      · rw [hrp] at hm
        exact hm
      · rw [hrp] at hm
        dsimp only at hm
        by_cases hlen : vs.length = 1
        · rw [if_pos hlen] at hm
          simp [hashKeys] at hm
        · rw [if_neg hlen] at hm
          exact hm
    · rw [if_neg hlk] at hm
      exact hm
  | branch p bb l r sz ihl ihr =>
    simp only [remove] at hm
    by_cases hmk : matchKey p bb hash = true
    · rw [if_pos hmk] at hm
      by_cases hz : zeroBit hash bb = true
      · rw [if_pos hz] at hm
        by_cases heq : remove l hash key hasher = l
        · rw [if_pos heq] at hm
          exact hm
        · rw [if_neg heq] at hm
          rcases mem_hashKeys_br hm with h1 | h1
          · rw [hashKeys, List.mem_append]
            exact Or.inl (ihl h1)
          · rw [hashKeys, List.mem_append]
            exact Or.inr h1
      · rw [if_neg hz] at hm
        by_cases heq : remove r hash key hasher = r
        · rw [if_pos heq] at hm
          exact hm
        · rw [if_neg heq] at hm
          rcases mem_hashKeys_br hm with h1 | h1
          · rw [hashKeys, List.mem_append]
            exact Or.inl h1
          · rw [hashKeys, List.mem_append]
            exact Or.inr (ihr h1)
    · rw [if_neg hmk] at hm
      exact hm

/-- `remove` preserves the invariant. -/
theorem inv_remove {hasher : Hasher K} {hf : K → Nat} {n : node K V}
    (hi : Inv hasher hf n) {hash : Nat} {key : K} :
    Inv hasher hf (remove n hash key hasher) := by
  induction n with
  | nil => exact hi
  | leaf lk vs sz =>
    obtain ⟨hvne, hsz, hlk64, hhf, hpw⟩ := inv_leaf_iff.mp hi
    simp only [remove]
    by_cases hlk : lk = hash
    · rw [if_pos hlk]
      rcases hrp : removePairs hasher key vs with _ | nvs
      · exact hi
      · dsimp only
        by_cases hlen : vs.length = 1
        · rw [if_pos hlen]
          exact inv_nil
        · rw [if_neg hlen]
          rw [inv_leaf_iff]
          have hlen2 := removePairs_length hrp
          have hsub := removePairs_sublist hrp
          refine ⟨?_, by omega, hlk64, ?_, ?_⟩
          · intro hc
            rw [hc] at hlen2
            simp at hlen2
            exact hlen (by omega)
          · intro pr hm
            exact hhf pr (hsub.subset hm)
          · exact hpw.sublist hsub
    · rw [if_neg hlk]
      exact hi
  | branch p bb l r sz ihl ihr =>
    obtain ⟨hbb, hib, hplt, hln, hrn, hsl, hsr, hszb, hil, hir⟩ := inv_branch_iff.mp hi
    simp only [remove]
    by_cases hmk : matchKey p bb hash = true
    · rw [if_pos hmk]
      by_cases hz : zeroBit hash bb = true
      · rw [if_pos hz]
        by_cases heq : remove l hash key hasher = l
        · rw [if_pos heq]
          exact hi
        · rw [if_neg heq]
          refine inv_br hbb hib hplt (ihl hil) hir ?_ hsr
          intro h hm
          exact hsl h (mem_hashKeys_remove hm)
      · rw [if_neg hz]
        by_cases heq : remove r hash key hasher = r
        · rw [if_pos heq]
          exact hi
        · rw [if_neg heq]
          refine inv_br hbb hib hplt hil (ihr hir) hsl ?_
          intro h hm
          exact hsr h (mem_hashKeys_remove hm)
    · rw [if_neg hmk]
      exact hi

/-- `remove` updates exactly the bucket at the removed hash. -/
theorem bucketOf_remove {hasher : Hasher K} {hf : K → Nat} {n : node K V}
    (hi : Inv hasher hf n) {hash : Nat} {key : K} :
    ∀ h, bucketOf (remove n hash key hasher) h =
      if h = hash then bucketRem hasher key (bucketOf n hash)
      else bucketOf n h := by
  induction n with
  | nil =>
    intro h
    simp only [remove, bucketOf_nil]
    by_cases hh : h = hash <;> simp [hh, bucketRem, removePairs]
  | leaf lk vs sz =>
    intro h
    obtain ⟨hvne, hsz, hlk64, hhf, hpw⟩ := inv_leaf_iff.mp hi
    simp only [remove]
    by_cases hlk : lk = hash
    · rw [if_pos hlk]
      have hbself : bucketOf (node.leaf lk vs sz) hash = vs := by
        rw [← hlk]; exact bucketOf_leaf_self
      rcases hrp : removePairs hasher key vs with _ | nvs
      · by_cases hh : h = hash
        · subst hh
          rw [if_pos rfl, hbself, bucketRem_of_none hrp]
        · rw [if_neg hh]
      · dsimp only
        by_cases hlen : vs.length = 1
        · rw [if_pos hlen]
          by_cases hh : h = hash
          · subst hh
            rw [if_pos rfl, bucketOf_nil, hbself, bucketRem_of_some hrp]
            have hl2 := removePairs_length hrp
            rw [hlen] at hl2
            exact (List.length_eq_zero.mp (by omega)).symm
          · have hlkne : lk ≠ h := fun hc => hh (hc.symm.trans hlk)
            rw [if_neg hh, bucketOf_nil, bucketOf_leaf_ne hlkne]
        · rw [if_neg hlen]
          by_cases hh : h = hash
          · subst hh
            rw [if_pos rfl, hbself, bucketRem_of_some hrp, ← hlk, bucketOf_leaf_self]
          · have hlkne : lk ≠ h := fun hc => hh (hc.symm.trans hlk)
            rw [if_neg hh, bucketOf_leaf_ne hlkne, bucketOf_leaf_ne hlkne]
    · rw [if_neg hlk]
      by_cases hh : h = hash
      · subst hh
        rw [if_pos rfl, bucketOf_leaf_ne hlk, bucketRem_of_none (by rw [removePairs_none_iff]; simp)]
      · rw [if_neg hh]
  | branch p bb l r sz ihl ihr =>
    intro h
    obtain ⟨hbb, hib, hplt, hln, hrn, hsl, hsr, hszb, hil, hir⟩ := inv_branch_iff.mp hi
    simp only [remove]
    by_cases hmk : matchKey p bb hash = true
    · rw [if_pos hmk]
      by_cases hz : zeroBit hash bb = true
      · rw [if_pos hz]
        by_cases heq : remove l hash key hasher = l
        · rw [if_pos heq]
          by_cases hh : h = hash
          · subst hh
            rw [if_pos rfl, bucketOf_branch_left hmk hz]
            have hx := ihl hil h
            rw [if_pos rfl, heq] at hx
            exact hx
          · rw [if_neg hh]
        · rw [if_neg heq]
          have hsl2 : ∀ h' ∈ hashKeys (remove l hash key hasher),
              matchKey p bb h' = true ∧ zeroBit h' bb = true :=
            fun h' hm => hsl h' (mem_hashKeys_remove hm)
          rw [bucketOf_br (z := sz) hsl2 hsr h]
          by_cases hh : h = hash
          · subst hh
            rw [if_pos rfl, bucketOf_branch_left hmk hz, bucketOf_branch_left hmk hz]
            have hx := ihl hil h
            rw [if_pos rfl] at hx
            exact hx
          · rw [if_neg hh]
            by_cases hmk2 : matchKey p bb h = true
            · by_cases hz2 : zeroBit h bb = true
              · rw [bucketOf_branch_left hmk2 hz2, bucketOf_branch_left hmk2 hz2]
                have hx := ihl hil h
                rw [if_neg hh] at hx
                exact hx
              · rw [bucketOf_branch_right hmk2 (by simpa using hz2),
                  bucketOf_branch_right hmk2 (by simpa using hz2)]
            · rw [bucketOf_branch_not (by simpa using hmk2),
                bucketOf_branch_not (by simpa using hmk2)]
      · rw [if_neg hz]
        by_cases heq : remove r hash key hasher = r
        · rw [if_pos heq]
          by_cases hh : h = hash
          · subst hh
            rw [if_pos rfl, bucketOf_branch_right hmk (by simpa using hz)]
            have hx := ihr hir h
            rw [if_pos rfl, heq] at hx
            exact hx
          · rw [if_neg hh]
        · rw [if_neg heq]
          have hsr2 : ∀ h' ∈ hashKeys (remove r hash key hasher),
              matchKey p bb h' = true ∧ zeroBit h' bb = false :=
            fun h' hm => hsr h' (mem_hashKeys_remove hm)
          rw [bucketOf_br (z := sz) hsl hsr2 h]
          by_cases hh : h = hash
          · subst hh
            rw [if_pos rfl, bucketOf_branch_right hmk (by simpa using hz),
              bucketOf_branch_right hmk (by simpa using hz)]
            have hx := ihr hir h
            rw [if_pos rfl] at hx
            exact hx
          · rw [if_neg hh]
            by_cases hmk2 : matchKey p bb h = true
            · by_cases hz2 : zeroBit h bb = true
              · rw [bucketOf_branch_left hmk2 hz2, bucketOf_branch_left hmk2 hz2]
              · rw [bucketOf_branch_right hmk2 (by simpa using hz2),
                  bucketOf_branch_right hmk2 (by simpa using hz2)]
                have hx := ihr hir h
                rw [if_neg hh] at hx
                exact hx
            · rw [bucketOf_branch_not (by simpa using hmk2),
                bucketOf_branch_not (by simpa using hmk2)]
    · rw [if_neg hmk]
      by_cases hh : h = hash
      · subst hh
        rw [if_pos rfl, bucketOf_branch_not (by simpa using hmk), bucketRem]
        simp [removePairs]
      · rw [if_neg hh]

/-- Lookup after remove: the removed key is gone, others are untouched. -/
theorem lookup_remove {hasher : Hasher K} {hf : K → Nat} (hp : HProps hasher hf)
    {n : node K V} (hi : Inv hasher hf n) (key k : K) :
    lookup (remove n (hf key) key hasher) (hf k) k hasher =
      if hasher.Equal k key = true then none
      else lookup n (hf k) k hasher := by
  rw [lookup_eq_findBucket, bucketOf_remove hi (hf k)]
  by_cases hh : hf k = hf key
  · rw [if_pos hh, findBucket_bucketRem hp (pairwise_bucketOf hi (hf key))]
    by_cases he : hasher.Equal k key = true
    · rw [if_pos he, if_pos he]
    · rw [if_neg he, if_neg he, lookup_eq_findBucket, hh]
  · have he : hasher.Equal k key = false := by
      rcases hx : hasher.Equal k key with _ | _
      · rfl
      · exact absurd (hp.congr _ _ hx) hh
    rw [if_neg hh, if_neg (by simp [he]), lookup_eq_findBucket]

/-! ## The tree-level contract -/

/-- The bit-reversed hash function a tree uses on nodes. -/
def hfOf (hasher : Hasher K) : K → Nat := fun k => reverse64 (hasher.Hash k)

theorem Tree.hash_eq {t : Tree K V} {key : K} : t.hash key = hfOf t.hasher key := rfl

theorem revBits_lt (w x : Nat) : revBits w x < 2 ^ w := by
  induction w generalizing x with
  | zero => simp [revBits]
  | succ w ih =>
    have h1 := ih (x / 2)
    have h2 : x % 2 ≤ 1 := by omega
    have h3 : 2 ^ w * (x % 2) ≤ 2 ^ w := by
      have hx : x % 2 = 0 ∨ x % 2 = 1 := by omega
      rcases hx with h | h <;> simp [h]
    have h4 : 2 ^ (w + 1) = 2 ^ w + 2 ^ w := by rw [Nat.pow_succ]; ring
    rw [revBits]
    omega

/-- The `Hasher` contract from the spec: `Equal` is an equivalence and equal
keys produce equal hash values. -/
structure HasherOK (hasher : Hasher K) : Prop where
  refl : ∀ a, hasher.Equal a a = true
  symm : ∀ a b, hasher.Equal a b = true → hasher.Equal b a = true
  trans : ∀ a b c, hasher.Equal a b = true → hasher.Equal b c = true → hasher.Equal a c = true
  hashCongr : ∀ a b, hasher.Equal a b = true → hasher.Hash a = hasher.Hash b

theorem HasherOK.hprops {hasher : Hasher K} (ho : HasherOK hasher) :
    HProps hasher (hfOf hasher) :=
  ⟨ho.refl, ho.symm, ho.trans,
    fun a b h => by unfold hfOf; rw [ho.hashCongr a b h],
    fun a => revBits_lt 64 _⟩

/-- Invariant of a whole tree value. -/
def TreeInv (t : Tree K V) : Prop := Inv t.hasher (hfOf t.hasher) t.root

/-! ## Histories of inserts and removals (spec §8, property 1) -/

/-- A single map operation. -/
inductive Op (K V : Type) where
  | ins (key : K) (value : V)
  | rem (key : K)

/-- Apply one operation to a tree. -/
def applyOp (t : Tree K V) : Op K V → Tree K V
  | .ins k v => t.Insert k v
  | .rem k => t.Remove k

/-- Run a whole history. -/
def runOps (t : Tree K V) (ops : List (Op K V)) : Tree K V := ops.foldl applyOp t

/-- Reference semantics of one operation on a map-as-function: an insert
makes the key (up to `Equal`) map to the new value; a removal erases it. -/
def refStep (hasher : Hasher K) (m : K → Option V) : Op K V → K → Option V
  | .ins k' v', k => if hasher.Equal k k' = true then some v' else m k
  | .rem k', k => if hasher.Equal k k' = true then none else m k

/-- Reference semantics of a history, starting from the empty map. -/
def refRun (hasher : Hasher K) (ops : List (Op K V)) : K → Option V :=
  ops.foldl (refStep hasher) (fun _ => none)

theorem runOps_general {hasher : Hasher K} (ho : HasherOK hasher)
    (ops : List (Op K V)) :
    ∀ (t : Tree K V) (m : K → Option V), t.hasher = hasher →
      Inv hasher (hfOf hasher) t.root → (∀ k, t.Lookup k = m k) →
      (runOps t ops).hasher = hasher ∧
      Inv hasher (hfOf hasher) (runOps t ops).root ∧
      ∀ k, (runOps t ops).Lookup k = ops.foldl (refStep hasher) m k := by
  induction ops with
  | nil => exact fun t m h1 h2 h3 => ⟨h1, h2, h3⟩
  | cons op rest ih =>
    intro t m h1 h2 h3
    subst h1
    rcases op with ⟨key, value⟩ | ⟨key⟩
    · exact ih (t.Insert key value) _ rfl
        (inv_insert ho.hprops h2 rfl)
        (fun k => by
          show lookup _ (hfOf t.hasher k) k t.hasher = _
          rw [Tree.Insert, Tree.InsertOrMerge]
          have := lookup_insert_none (n := t.root) ho.hprops h2 (q := key) (w := value) k
          rw [Tree.hash_eq, this, refStep]
          by_cases he : t.hasher.Equal k key = true
          · rw [if_pos he, if_pos he]
          · rw [if_neg he, if_neg he]
            exact h3 k)
    · exact ih (t.Remove key) _ rfl
        (inv_remove h2)
        (fun k => by
          show lookup _ (hfOf t.hasher k) k t.hasher = _
          rw [Tree.Remove]
          have := lookup_remove (n := t.root) ho.hprops h2 key k
          rw [Tree.hash_eq, this, refStep]
          by_cases he : t.hasher.Equal k key = true
          · rw [if_pos he, if_pos he]
          · rw [if_neg he, if_neg he]
            exact h3 k)

/-- The full history lemma: a tree built from the empty tree answers lookups
exactly like the reference map semantics of the history. -/
theorem runOps_lookup {hasher : Hasher K} (ho : HasherOK hasher)
    (ops : List (Op K V)) (k : K) :
    (runOps (New hasher) ops).Lookup k = refRun hasher ops k :=
  ((runOps_general ho ops (New hasher) (fun _ => none) rfl inv_nil
    (fun _ => rfl)).2.2 k)

/-! ## merge: evaluation lemmas -/

set_option maxHeartbeats 1600000 in
theorem merge_self {hasher : Hasher K} {f : MergeFunc V} (a : node K V) :
    merge a a hasher f = (a, true) := by
  rw [merge.eq_def]
  simp

set_option maxHeartbeats 1600000 in
theorem merge_nil_left {hasher : Hasher K} {f : MergeFunc V} {b : node K V}
    (h : b ≠ .nil) : merge .nil b hasher f = (b, false) := by
  rw [merge.eq_def, if_neg (fun hc => h hc.symm)]
  cases b with
  | nil => exact absurd rfl h
  | leaf lk vs sz => rfl
  | branch p bb l r sz => rfl

set_option maxHeartbeats 1600000 in
theorem merge_nil_right {hasher : Hasher K} {f : MergeFunc V} {a : node K V}
    (h : a ≠ .nil) : merge a .nil hasher f = (a, false) := by
  rw [merge.eq_def, if_neg h]
  cases a with
  | nil => exact absurd rfl h
  | leaf lk vs sz => rfl
  | branch p bb l r sz => rfl

set_option maxHeartbeats 1600000 in
theorem merge_leaf_left {hasher : Hasher K} {f : MergeFunc V} {lk : Nat}
    {vs : List (K × V)} {sz : Nat} {b : node K V}
    (hne : (.leaf lk vs sz : node K V) ≠ b) (hb : b ≠ .nil) :
    merge (.leaf lk vs sz) b hasher f =
      mergeLeafStep hasher f (.leaf lk vs sz) lk vs b := by
  rw [merge.eq_def, if_neg hne]
  cases b with
  | nil => exact absurd rfl hb
  | leaf lk' vs' sz' => rfl
  | branch p bb l r sz' => rfl

set_option maxHeartbeats 1600000 in
theorem merge_leaf_right {hasher : Hasher K} {f : MergeFunc V} {lk : Nat}
    {vs : List (K × V)} {sz : Nat} {p bb : Nat} {l r : node K V} {szb : Nat} :
    merge (.branch p bb l r szb) (.leaf lk vs sz) hasher f =
      mergeLeafStep hasher f (.branch p bb l r szb) lk vs
        (.branch p bb l r szb) := by
  rw [merge.eq_def, if_neg (by simp)]

set_option maxHeartbeats 1600000 in
theorem merge_branch {hasher : Hasher K} {f : MergeFunc V} {p1 b1 : Nat}
    {l1 r1 : node K V} {s1 : Nat} {p2 b2 : Nat} {l2 r2 : node K V} {s2 : Nat}
    (hne : (.branch p1 b1 l1 r1 s1 : node K V) ≠ .branch p2 b2 l2 r2 s2) :
    merge (.branch p1 b1 l1 r1 s1) (.branch p2 b2 l2 r2 s2) hasher f =
      (if b1 = b2 ∧ p1 = p2 then
        let lres := merge l1 l2 hasher f
        let rres := merge r1 r2 hasher f
        if lres.2 && rres.2 then ((.branch p1 b1 l1 r1 s1 : node K V), true)
        else if (lres.2 || lres.1 = l1) && (rres.2 || rres.1 = r1) then
          ((.branch p1 b1 l1 r1 s1 : node K V), false)
        else if (lres.2 || lres.1 = l2) && (rres.2 || rres.1 = r2) then
          ((.branch p2 b2 l2 r2 s2 : node K V), false)
        else ((.branch p1 b1 lres.1 rres.1 (nodeSize lres.1 + nodeSize rres.1) : node K V), false)
      else if b1 > b2 then
        if b2 < b1 ∧ matchKey p2 b2 p1 = true then
          if zeroBit p1 b2 then
            let res := merge l2 (.branch p1 b1 l1 r1 s1) hasher f
            if res.1 = l2 then ((.branch p2 b2 l2 r2 s2 : node K V), false)
            else ((.branch p2 b2 res.1 r2 (nodeSize res.1 + nodeSize r2) : node K V), false)
          else
            let res := merge r2 (.branch p1 b1 l1 r1 s1) hasher f
            if res.1 = r2 then ((.branch p2 b2 l2 r2 s2 : node K V), false)
            else ((.branch p2 b2 l2 res.1 (nodeSize l2 + nodeSize res.1) : node K V), false)
        else (join p2 p1 (.branch p2 b2 l2 r2 s2) (.branch p1 b1 l1 r1 s1), false)
      else
        if b1 < b2 ∧ matchKey p1 b1 p2 = true then
          if zeroBit p2 b1 then
            let res := merge l1 (.branch p2 b2 l2 r2 s2) hasher f
            if res.1 = l1 then ((.branch p1 b1 l1 r1 s1 : node K V), false)
            else ((.branch p1 b1 res.1 r1 (nodeSize res.1 + nodeSize r1) : node K V), false)
          else
            let res := merge r1 (.branch p2 b2 l2 r2 s2) hasher f
            if res.1 = r1 then ((.branch p1 b1 l1 r1 s1 : node K V), false)
            else ((.branch p1 b1 l1 res.1 (nodeSize l1 + nodeSize res.1) : node K V), false)
        else (join p1 p2 (.branch p1 b1 l1 r1 s1) (.branch p2 b2 l2 r2 s2), false)) := by
  rw [merge.eq_def, if_neg hne]

/-! ## merge: leaf-fold lemmas -/

theorem mergeLeafFold_ne_nil {hasher : Hasher K} {f : MergeFunc V} {lk : Nat}
    {vs : List (K × V)} {other : node K V} (h : other ≠ .nil) :
    (mergeLeafFold hasher f lk vs other).1 ≠ .nil := by
  induction vs generalizing other with
  | nil => exact h
  | cons pr rest ih => exact ih insert_ne_nil

theorem mergeLeafFold_unchanged {hasher : Hasher K} {f : MergeFunc V} {lk : Nat}
    {vs : List (K × V)} {other : node K V}
    (h : (mergeLeafFold hasher f lk vs other).2 = true) :
    (mergeLeafFold hasher f lk vs other).1 = other ∧
      ∀ pr ∈ vs, (insert other lk pr.1 pr.2 hasher (some f)).2 = false := by
  induction vs generalizing other with
  | nil => exact ⟨rfl, by simp⟩
  | cons pr rest ih =>
    rw [mergeLeafFold] at h ⊢
    rcases hflag : (insert other lk pr.1 pr.2 hasher (some f)).2 with _ | _
    · have heq := insert_flag_false hflag
      rw [hflag] at h
      simp only [Bool.not_false, Bool.true_and] at h
      rw [heq] at h ⊢
      obtain ⟨h1, h2⟩ := ih h
      refine ⟨h1, ?_⟩
      intro qr hq
      rcases List.mem_cons.mp hq with hq | hq
      · rw [hq]; exact hflag
      · exact h2 qr hq
    · rw [hflag] at h
      simp at h

theorem mem_hashKeys_mergeLeafFold {hasher : Hasher K} {f : MergeFunc V} {lk : Nat}
    {vs : List (K × V)} {other : node K V} {h : Nat}
    (hm : h ∈ hashKeys (mergeLeafFold hasher f lk vs other).1) :
    h = lk ∨ h ∈ hashKeys other := by
  induction vs generalizing other with
  | nil => exact Or.inr hm
  | cons pr rest ih =>
    rw [mergeLeafFold] at hm
    rcases ih hm with h1 | h1
    · exact Or.inl h1
    · rcases mem_hashKeys_insert h1 with h2 | h2
      · exact Or.inl h2
      · exact Or.inr h2

theorem inv_mergeLeafFold {hasher : Hasher K} {hf : K → Nat} (hp : HProps hasher hf)
    {f : MergeFunc V} {lk : Nat} {vs : List (K × V)} {other : node K V}
    (hio : Inv hasher hf other) (hvs : ∀ pr ∈ vs, hf pr.1 = lk) :
    Inv hasher hf (mergeLeafFold hasher f lk vs other).1 := by
  induction vs generalizing other with
  | nil => exact hio
  | cons pr rest ih =>
    rw [mergeLeafFold]
    exact ih
      (inv_insert hp hio (hvs pr (List.mem_cons_self _ _)).symm)
      (fun qr hq => hvs qr (List.mem_cons_of_mem _ hq))

theorem findBucket_congr {hasher : Hasher K} {hf : K → Nat} (hp : HProps hasher hf)
    {k k' : K} (he : hasher.Equal k k' = true) (vs : List (K × V)) :
    findBucket hasher k vs = findBucket hasher k' vs := by
  induction vs with
  | nil => rfl
  | cons pr tl ih =>
    obtain ⟨q, v⟩ := pr
    rcases hx : hasher.Equal k q with _ | _
    · have hx' : hasher.Equal k' q = false := by
        rcases hy : hasher.Equal k' q with _ | _
        · rfl
        · have := hp.trans _ _ _ he hy
          rw [hx] at this
          exact absurd this (by simp)
      rw [findBucket_cons_neg hx, findBucket_cons_neg hx', ih]
    · have hx' : hasher.Equal k' q = true := hp.trans _ _ _ (hp.symm _ _ he) hx
      rw [findBucket_cons_pos hx, findBucket_cons_pos hx']

theorem lookup_congr {hasher : Hasher K} {hf : K → Nat} (hp : HProps hasher hf)
    {n : node K V} {k k' : K} (he : hasher.Equal k k' = true) :
    lookup n (hf k) k hasher = lookup n (hf k') k' hasher := by
  rw [lookup_eq_findBucket, lookup_eq_findBucket, hp.congr k k' he,
    findBucket_congr hp he]

/-- The keywise union of two optional values, merging collisions with `f`. -/
def mergeOpt (f : MergeFunc V) : Option V → Option V → Option V
  | some va, some vb => some (f va vb).1
  | some va, none => some va
  | none, ob => ob

theorem mergeOpt_comm {f : MergeFunc V} (hv : ValidF f) (x y : Option V) :
    mergeOpt f x y = mergeOpt f y x := by
  rcases x with _ | vx <;> rcases y with _ | vy <;> simp [mergeOpt]
  rw [hv.comm]

theorem mergeOpt_self {f : MergeFunc V} (hv : ValidF f) (x : Option V) :
    mergeOpt f x x = x := by
  rcases x with _ | vx
  · rfl
  · show some (f vx vx).1 = some vx
    rw [hv.idem vx]

/-- Lookup through the leaf fold of `merge`: the fold unions the leaf's
bucket into `other`, merging collisions with `f`. -/
theorem lookup_mergeLeafFold {hasher : Hasher K} {hf : K → Nat} (hp : HProps hasher hf)
    {f : MergeFunc V} (hv : ValidF f) {lk : Nat} {vs : List (K × V)}
    {other : node K V} (hio : Inv hasher hf other)
    (hvs : ∀ pr ∈ vs, hf pr.1 = lk)
    (hdist : vs.Pairwise (fun pr qr => hasher.Equal pr.1 qr.1 = false)) :
    ∀ k, lookup (mergeLeafFold hasher f lk vs other).1 (hf k) k hasher =
      mergeOpt f (findBucket hasher k vs) (lookup other (hf k) k hasher) := by
  induction vs generalizing other with
  | nil => intro k; rfl
  | cons pr rest ih =>
    intro k
    rw [mergeLeafFold]
    dsimp only
    have hk1 : hf pr.1 = lk := hvs pr (List.mem_cons_self _ _)
    have hins : Inv hasher hf (insert other lk pr.1 pr.2 hasher (some f)).1 :=
      inv_insert hp hio hk1.symm
    rw [ih hins (fun qr hq => hvs qr (List.mem_cons_of_mem _ hq)) hdist.of_cons k,
      ← hk1, lookup_insert_some hp hio hv k]
    rcases he : hasher.Equal k pr.1 with _ | _
    · rw [findBucket_cons_neg he, if_neg (by simp)]
    · rw [findBucket_cons_pos he]
      have hrest : findBucket hasher k rest = none := by
        apply findBucket_eq_none
        intro qr hq
        have hd := (List.pairwise_cons.mp hdist).1 qr hq
        rcases hx : hasher.Equal k qr.1 with _ | _
        · rfl
        · have := hp.trans _ _ _ (hp.symm _ _ he) hx
          rw [hd] at this
          exact absurd this (by simp)
      rw [hrest, if_pos rfl,
        show lookup other (hf pr.1) pr.1 hasher = lookup other (hf k) k hasher from
          (lookup_congr hp he).symm]
      rcases hlo : lookup other (hf k) k hasher with _ | w
      · rfl
      · rfl

theorem findBucket_eq_none_iff {hasher : Hasher K} {k : K} {vs : List (K × V)} :
    findBucket hasher k vs = none ↔ ∀ p ∈ vs, hasher.Equal k p.1 = false := by
  unfold findBucket
  rw [Option.map_eq_none', List.find?_eq_none]
  constructor
  · intro h p hp
    have := h p hp
    simpa using this
  · intro h p hp
    simp [h p hp]

theorem findBucket_eq_some_iff {hasher : Hasher K} {hf : K → Nat}
    (hp : HProps hasher hf) {k : K} {vs : List (K × V)} {v : V}
    (hdist : vs.Pairwise (fun pr qr => hasher.Equal pr.1 qr.1 = false)) :
    findBucket hasher k vs = some v ↔
      ∃ p ∈ vs, hasher.Equal k p.1 = true ∧ p.2 = v := by
  induction vs with
  | nil => simp [findBucket]
  | cons pr tl ih =>
    obtain ⟨q, v'⟩ := pr
    rw [List.pairwise_cons] at hdist
    rcases he : hasher.Equal k q with _ | _
    · rw [findBucket_cons_neg he, ih hdist.2]
      constructor
      · rintro ⟨p, hpm, hpe, hpv⟩
        exact ⟨p, List.mem_cons_of_mem _ hpm, hpe, hpv⟩
      · rintro ⟨p, hpm, hpe, hpv⟩
        rcases List.mem_cons.mp hpm with h1 | h1
        · rw [h1] at hpe
          rw [he] at hpe
          exact absurd hpe (by simp)
        · exact ⟨p, h1, hpe, hpv⟩
    · rw [findBucket_cons_pos he]
      constructor
      · intro h
        have hv' : v' = v := by simpa using h
        exact ⟨(q, v'), List.mem_cons_self _ _, he, hv'⟩
      · rintro ⟨p, hpm, hpe, hpv⟩
        rcases List.mem_cons.mp hpm with h1 | h1
        · rw [h1] at hpv
          have hvv : v' = v := by simpa using hpv
          rw [hvv]
        · have hd := hdist.1 p h1
          have := hp.trans _ _ _ (hp.symm _ _ he) hpe
          rw [hd] at this
          exact absurd this (by simp)

/-- Two duplicate-free buckets of equal length where every pair of the first
has an `Equal`-keyed, equal-valued partner in the second have the same
`findBucket` behaviour. -/
theorem findBucket_ext {hasher : Hasher K} {hf : K → Nat} (hp : HProps hasher hf)
    {vsa vsb : List (K × V)}
    (hda : vsa.Pairwise (fun pr qr => hasher.Equal pr.1 qr.1 = false))
    (hdb : vsb.Pairwise (fun pr qr => hasher.Equal pr.1 qr.1 = false))
    (hlen : vsa.length = vsb.length)
    (hcov : ∀ p ∈ vsa, ∃ q ∈ vsb, hasher.Equal p.1 q.1 = true ∧ p.2 = q.2) :
    ∀ k, findBucket hasher k vsa = findBucket hasher k vsb := by
  have hchoice : ∀ i : Fin vsa.length, ∃ j : Fin vsb.length,
      hasher.Equal (vsa.get i).1 (vsb.get j).1 = true ∧
        (vsa.get i).2 = (vsb.get j).2 := by
    intro i
    obtain ⟨q, hq, he, hval⟩ := hcov (vsa.get i) (by
      have := List.get_mem vsa i.1 i.2
      simpa using this)
    obtain ⟨j, hj⟩ := List.mem_iff_get.mp hq
    exact ⟨j, by rw [hj]; exact he, by rw [hj]; exact hval⟩
  choose φ hφ1 hφ2 using hchoice
  have hinj : Function.Injective φ := by
    intro i1 i2 h12
    by_contra hne
    have e1 := hφ1 i1
    have e2 := hφ1 i2
    rw [h12] at e1
    have heq : hasher.Equal (vsa.get i1).1 (vsa.get i2).1 = true :=
      hp.trans _ _ _ e1 (hp.symm _ _ e2)
    have hpg := List.pairwise_iff_get.mp hda
    rcases Nat.lt_or_ge i1.1 i2.1 with h | h
    · have hx := hpg i1 i2 h
      rw [heq] at hx
      exact absurd hx (by simp)
    · have hlt : i2.1 < i1.1 := by
        rcases Nat.lt_or_ge i2.1 i1.1 with h2 | h2
        · exact h2
        · exact absurd (Fin.ext (by omega)) hne
      have hx := hpg i2 i1 hlt
      rw [hp.symm _ _ heq] at hx
      exact absurd hx (by simp)
  have hsurj : ∀ j : Fin vsb.length, ∃ i, φ i = j := by
    have hcard : Fintype.card (Fin vsa.length) = Fintype.card (Fin vsb.length) := by
      simp [hlen]
    exact fun j =>
      ((Fintype.bijective_iff_injective_and_card φ).mpr ⟨hinj, hcard⟩).2 j
  intro k
  rcases hfa : findBucket hasher k vsa with _ | v
  · symm
    rw [findBucket_eq_none_iff] at hfa ⊢
    intro q hq
    obtain ⟨j, hj⟩ := List.mem_iff_get.mp hq
    obtain ⟨i, hi⟩ := hsurj j
    rcases hx : hasher.Equal k q.1 with _ | _
    · rfl
    · have e1 := hφ1 i
      rw [hi, hj] at e1
      have h2 : hasher.Equal k (vsa.get i).1 = true :=
        hp.trans _ _ _ hx (hp.symm _ _ e1)
      have hnone := hfa (vsa.get i) (by
        have := List.get_mem vsa i.1 i.2
        simpa using this)
      rw [hnone] at h2
      exact absurd h2 (by simp)
  · rw [findBucket_eq_some_iff hp hda] at hfa
    obtain ⟨p, hpmem, hpe, hpv⟩ := hfa
    symm
    rw [findBucket_eq_some_iff hp hdb]
    obtain ⟨q, hq, he, hval⟩ := hcov p hpmem
    exact ⟨q, hq, hp.trans _ _ _ hpe he, by rw [← hval, hpv]⟩

/-! ## merge: structural lemmas -/

theorem mergeLeafStep_ne_nil {hasher : Hasher K} {f : MergeFunc V}
    {aOrig : node K V} {lk : Nat} {vs : List (K × V)} {other : node K V}
    (ha : aOrig ≠ .nil) (ho : other ≠ .nil) :
    (mergeLeafStep hasher f aOrig lk vs other).1 ≠ .nil := by
  simp only [mergeLeafStep]
  rcases hres : (mergeLeafFold hasher f lk vs other).1 with _ | ⟨olk, ovs, osz⟩ |
    ⟨p, bb, l, r, sz⟩
  · exact absurd hres (mergeLeafFold_ne_nil ho)
  · dsimp only
    split
    · exact ha
    · simp
  · simp

theorem mem_hashKeys_mergeLeafStep {hasher : Hasher K} {f : MergeFunc V}
    {aOrig : node K V} {lk : Nat} {vs : List (K × V)} {other : node K V} {h : Nat}
    (hm : h ∈ hashKeys (mergeLeafStep hasher f aOrig lk vs other).1) :
    h ∈ hashKeys aOrig ∨ h = lk ∨ h ∈ hashKeys other := by
  simp only [mergeLeafStep] at hm
  rcases hres : (mergeLeafFold hasher f lk vs other).1 with _ | ⟨olk, ovs, osz⟩ |
    ⟨p, bb, l, r, sz⟩
  all_goals rw [hres] at hm
  · dsimp only at hm
    simp [hashKeys] at hm
  · dsimp only at hm
    split at hm
    · exact Or.inl hm
    · right
      rw [← hres] at hm
      exact mem_hashKeys_mergeLeafFold hm
  · dsimp only at hm
    right
    rw [← hres] at hm
    exact mem_hashKeys_mergeLeafFold hm

theorem inv_mergeLeafStep {hasher : Hasher K} {hf : K → Nat} (hp : HProps hasher hf)
    {f : MergeFunc V} {aOrig : node K V} {lk : Nat} {vs : List (K × V)}
    {other : node K V} (hia : Inv hasher hf aOrig) (hio : Inv hasher hf other)
    (hvs : ∀ pr ∈ vs, hf pr.1 = lk) :
    Inv hasher hf (mergeLeafStep hasher f aOrig lk vs other).1 := by
  have hfold := inv_mergeLeafFold (f := f) hp hio hvs
  simp only [mergeLeafStep]
  rcases hres : (mergeLeafFold hasher f lk vs other).1 with _ | ⟨olk, ovs, osz⟩ |
    ⟨p, bb, l, r, sz⟩
  · exact inv_nil
  · dsimp only
    split
    · exact hia
    · rw [← hres]
      exact hfold
  · dsimp only
    rw [← hres]
    exact hfold

theorem hashKeys_branch_match {hasher : Hasher K} {hf : K → Nat} {p bb : Nat}
    {l r : node K V} {sz : Nat} (hi : Inv hasher hf (.branch p bb l r sz)) :
    ∀ h ∈ hashKeys (.branch p bb l r sz : node K V), matchKey p bb h = true := by
  obtain ⟨_, _, _, _, _, hsl, hsr, _, _, _⟩ := inv_branch_iff.mp hi
  intro h hm
  simp only [hashKeys, List.mem_append] at hm
  rcases hm with hm | hm
  · exact (hsl h hm).1
  · exact (hsr h hm).1

theorem hashKeys_branch_mod {hasher : Hasher K} {hf : K → Nat} {p bb : Nat}
    {l r : node K V} {sz : Nat} (hi : Inv hasher hf (.branch p bb l r sz)) :
    ∀ h ∈ hashKeys (.branch p bb l r sz : node K V), h % 2 ^ lowBitIdx bb = p := by
  intro h hm
  have hmk := hashKeys_branch_match hi h hm
  rw [(inv_branch_iff.mp hi).1] at hmk
  exact matchKey_two_pow.mp hmk

/-- Routing of a contained subtree: keys matching the contained branch's
prefix `p1` at a coarser bit `b1` also match the container's prefix `p2` at
its finer bit `b2`, and land on `p1`'s side. -/
theorem support_of_contained {p1 b1 p2 b2 h : Nat}
    (hb1 : b1 = 2 ^ lowBitIdx b1) (hb2 : b2 = 2 ^ lowBitIdx b2)
    (hlt : b2 < b1) (hp1 : p1 < b1) (hm : matchKey p2 b2 p1 = true)
    (hh : matchKey p1 b1 h = true) :
    matchKey p2 b2 h = true ∧ zeroBit h b2 = zeroBit p1 b2 := by
  have hji : lowBitIdx b2 < lowBitIdx b1 := by
    have hpow : (2 : Nat) ^ lowBitIdx b2 < 2 ^ lowBitIdx b1 := by
      rw [← hb1, ← hb2]
      exact hlt
    exact (Nat.pow_lt_pow_iff_right (by norm_num)).mp hpow
  rw [hb1] at hh hp1
  rw [hb2] at hm ⊢
  have hmod : h % 2 ^ lowBitIdx b1 = p1 := matchKey_two_pow.mp hh
  have hmj : p1 % 2 ^ lowBitIdx b2 = p2 := matchKey_two_pow.mp hm
  have hagree : h % 2 ^ lowBitIdx b1 = p1 % 2 ^ lowBitIdx b1 := by
    rw [hmod, Nat.mod_eq_of_lt hp1]
  constructor
  · rw [matchKey_two_pow, ← hmj]
    exact mod_agree_mono (le_of_lt hji) hagree
  · rw [zeroBit_two_pow, zeroBit_two_pow,
      mod_two_pow_eq_iff.mp hagree (lowBitIdx b2) hji]

/-- When two prefixes disagree modulo `2 ^ m`, the branching bit of their
xor sits strictly below `m`. -/
theorem join_support_prep {p1 p2 m : Nat}
    (hne : p1 % 2 ^ m ≠ p2 % 2 ^ m) :
    p1 ≠ p2 ∧ lowBitIdx (p1 ^^^ p2) + 1 ≤ m := by
  have hpne : p1 ≠ p2 := fun hc => hne (by rw [hc])
  refine ⟨hpne, ?_⟩
  by_contra hgt
  push_neg at hgt
  apply hne
  rw [mod_two_pow_eq_iff]
  intro k hk
  exact testBit_lt_branching (by omega)

theorem merge_ne_nil {hasher : Hasher K} {f : MergeFunc V} (a b : node K V)
    (ha : a ≠ .nil) (hb : b ≠ .nil) : (merge a b hasher f).1 ≠ .nil := by
  by_cases hab : a = b
  · subst hab
    rw [merge_self]
    exact ha
  cases a with
  | nil => exact absurd rfl ha
  | leaf lk vs sz =>
    rw [merge_leaf_left hab hb]
    exact mergeLeafStep_ne_nil (by simp) hb
  | branch p1 b1 l1 r1 s1 =>
    cases b with
    | nil => exact absurd rfl hb
    | leaf lk vs sz =>
      rw [merge_leaf_right]
      exact mergeLeafStep_ne_nil (by simp) (by simp)
    | branch p2 b2 l2 r2 s2 =>
      rw [merge_branch hab]
      split
      · dsimp only
        split
        · simp
        · split
          · simp
          · split
            · simp
            · simp
      · split
        · split
          · split
            · dsimp only
              split
              · simp
              · simp
            · dsimp only
              split
              · simp
              · simp
          · exact join_ne_nil
        · split
          · split
            · dsimp only
              split
              · simp
              · simp
            · dsimp only
              split
              · simp
              · simp
          · exact join_ne_nil

theorem mem_hashKeys_merge_aux {hasher : Hasher K} {f : MergeFunc V} :
    ∀ (N : Nat) (a b : node K V), sizeOf a + sizeOf b ≤ N → ∀ (h : Nat),
      h ∈ hashKeys (merge a b hasher f).1 → h ∈ hashKeys a ∨ h ∈ hashKeys b := by
  intro N
  induction N using Nat.strong_induction_on with
  | _ N ih =>
  intro a b hN h hm
  by_cases hab : a = b
  · subst hab
    rw [merge_self] at hm
    exact Or.inl hm
  cases a with
  | nil =>
    have hb : b ≠ .nil := fun hc => hab (by rw [hc])
    rw [merge_nil_left hb] at hm
    exact Or.inr hm
  | leaf lk vs sz =>
    by_cases hb : b = .nil
    · subst hb
      rw [merge_nil_right (by simp)] at hm
      exact Or.inl hm
    · rw [merge_leaf_left hab hb] at hm
      rcases mem_hashKeys_mergeLeafStep hm with h1 | h1 | h1
      · exact Or.inl h1
      · left
        simp [hashKeys, h1]
      · exact Or.inr h1
  | branch p1 b1 l1 r1 s1 =>
    cases b with
    | nil =>
      rw [merge_nil_right (by simp)] at hm
      exact Or.inl hm
    | leaf lk vs sz =>
      rw [merge_leaf_right] at hm
      rcases mem_hashKeys_mergeLeafStep hm with h1 | h1 | h1
      · exact Or.inl h1
      · right
        simp [hashKeys, h1]
      · exact Or.inl h1
    | branch p2 b2 l2 r2 s2 =>
      rw [merge_branch hab] at hm
      split at hm
      · dsimp only at hm
        split at hm
        · exact Or.inl hm
        · split at hm
          · exact Or.inl hm
          · split at hm
            · exact Or.inr hm
            · simp only [hashKeys, List.mem_append] at hm
              rcases hm with hm | hm
              · rcases ih (sizeOf l1 + sizeOf l2) (by simp only [node.branch.sizeOf_spec] at hN ⊢; omega) l1 l2 le_rfl h hm with h1 | h1
                · left
                  simp [hashKeys, h1]
                · right
                  simp [hashKeys, h1]
              · rcases ih (sizeOf r1 + sizeOf r2) (by simp only [node.branch.sizeOf_spec] at hN ⊢; omega) r1 r2 le_rfl h hm with h1 | h1
                · left
                  simp [hashKeys, h1]
                · right
                  simp [hashKeys, h1]
      · split at hm
        · split at hm
          · split at hm
            · dsimp only at hm
              split at hm
              · exact Or.inr hm
              · simp only [hashKeys, List.mem_append] at hm
                rcases hm with hm | hm
                · rcases ih (sizeOf l2 + sizeOf (node.branch p1 b1 l1 r1 s1)) (by simp only [node.branch.sizeOf_spec] at hN ⊢; omega) l2 (node.branch p1 b1 l1 r1 s1) le_rfl h hm with h1 | h1
                  · right
                    simp [hashKeys, h1]
                  · exact Or.inl h1
                · right
                  simp [hashKeys, hm]
            · dsimp only at hm
              split at hm
              · exact Or.inr hm
              · simp only [hashKeys, List.mem_append] at hm
                rcases hm with hm | hm
                · right
                  simp [hashKeys, hm]
                · rcases ih (sizeOf r2 + sizeOf (node.branch p1 b1 l1 r1 s1)) (by simp only [node.branch.sizeOf_spec] at hN ⊢; omega) r2 (node.branch p1 b1 l1 r1 s1) le_rfl h hm with h1 | h1
                  · right
                    simp [hashKeys, h1]
                  · exact Or.inl h1
          · rcases mem_hashKeys_join.mp hm with h1 | h1
            · exact Or.inr h1
            · exact Or.inl h1
        · split at hm
          · split at hm
            · dsimp only at hm
              split at hm
              · exact Or.inl hm
              · simp only [hashKeys, List.mem_append] at hm
                rcases hm with hm | hm
                · rcases ih (sizeOf l1 + sizeOf (node.branch p2 b2 l2 r2 s2)) (by simp only [node.branch.sizeOf_spec] at hN ⊢; omega) l1 (node.branch p2 b2 l2 r2 s2) le_rfl h hm with h1 | h1
                  · left
                    simp [hashKeys, h1]
                  · exact Or.inr h1
                · left
                  simp [hashKeys, hm]
            · dsimp only at hm
              split at hm
              · exact Or.inl hm
              · simp only [hashKeys, List.mem_append] at hm
                rcases hm with hm | hm
                · left
                  simp [hashKeys, hm]
                · rcases ih (sizeOf r1 + sizeOf (node.branch p2 b2 l2 r2 s2)) (by simp only [node.branch.sizeOf_spec] at hN ⊢; omega) r1 (node.branch p2 b2 l2 r2 s2) le_rfl h hm with h1 | h1
                  · left
                    simp [hashKeys, h1]
                  · exact Or.inr h1
          · rcases mem_hashKeys_join.mp hm with h1 | h1
            · exact Or.inl h1
            · exact Or.inr h1
theorem mem_hashKeys_merge {hasher : Hasher K} {f : MergeFunc V}
    {a b : node K V} {h : Nat} (hm : h ∈ hashKeys (merge a b hasher f).1) :
    h ∈ hashKeys a ∨ h ∈ hashKeys b :=
  mem_hashKeys_merge_aux (sizeOf a + sizeOf b) a b le_rfl h hm

theorem inv_merge_aux {hasher : Hasher K} {hf : K → Nat} (hp : HProps hasher hf)
    {f : MergeFunc V} :
    ∀ (N : Nat) (a b : node K V), sizeOf a + sizeOf b ≤ N →
      Inv hasher hf a → Inv hasher hf b → Inv hasher hf (merge a b hasher f).1 := by
  intro N
  induction N using Nat.strong_induction_on with
  | _ N ih =>
  intro a b hN hia hib
  by_cases hab : a = b
  · subst hab
    rw [merge_self]
    exact hia
  cases a with
  | nil =>
    have hb : b ≠ .nil := fun hc => hab (by rw [hc])
    rw [merge_nil_left hb]
    exact hib
  | leaf lk vs sz =>
    by_cases hb : b = .nil
    · subst hb
      rw [merge_nil_right (by simp)]
      exact hia
    · rw [merge_leaf_left hab hb]
      exact inv_mergeLeafStep hp hia hib (inv_leaf_iff.mp hia).2.2.2.1
  | branch p1 b1 l1 r1 s1 =>
    cases b with
    | nil =>
      rw [merge_nil_right (by simp)]
      exact hia
    | leaf lk vs sz =>
      rw [merge_leaf_right]
      exact inv_mergeLeafStep hp hia hia (inv_leaf_iff.mp hib).2.2.2.1
    | branch p2 b2 l2 r2 s2 =>
      obtain ⟨hbb1, hib1, hplt1, hln1, hrn1, hsl1, hsr1, hszb1, hil1, hir1⟩ :=
        inv_branch_iff.mp hia
      obtain ⟨hbb2, hib2, hplt2, hln2, hrn2, hsl2, hsr2, hszb2, hil2, hir2⟩ :=
        inv_branch_iff.mp hib
      have hplt1h : p1 < 2 ^ lowBitIdx b1 := by
        rw [← hbb1]
        exact hplt1
      have hplt2h : p2 < 2 ^ lowBitIdx b2 := by
        rw [← hbb2]
        exact hplt2
      have hp1m : p1 % 2 ^ lowBitIdx b1 = p1 := Nat.mod_eq_of_lt hplt1h
      have hp2m : p2 % 2 ^ lowBitIdx b2 = p2 := Nat.mod_eq_of_lt hplt2h
      rw [merge_branch hab]
      split
      · rename_i hc
        obtain ⟨hbeq, hpeq⟩ := hc
        subst hbeq
        subst hpeq
        dsimp only
        split
        · exact hia
        · split
          · exact hia
          · split
            · exact hib
            · rw [inv_branch_iff]
              refine ⟨hbb1, hib1, hplt1,
                merge_ne_nil l1 l2 hln1 hln2, merge_ne_nil r1 r2 hrn1 hrn2,
                ?_, ?_, rfl,
                ih (sizeOf l1 + sizeOf l2)
                  (by simp only [node.branch.sizeOf_spec] at hN; omega)
                  l1 l2 le_rfl hil1 hil2,
                ih (sizeOf r1 + sizeOf r2)
                  (by simp only [node.branch.sizeOf_spec] at hN; omega)
                  r1 r2 le_rfl hir1 hir2⟩
              · intro h hm
                rcases mem_hashKeys_merge hm with h1 | h1
                · exact hsl1 h h1
                · exact hsl2 h h1
              · intro h hm
                rcases mem_hashKeys_merge hm with h1 | h1
                · exact hsr1 h h1
                · exact hsr2 h h1
      · rename_i hc1
        split
        · rename_i hgt
          split
          · rename_i hcont
            split
            · rename_i hz
              dsimp only
              split
              · exact hib
              · rw [inv_branch_iff]
                refine ⟨hbb2, hib2, hplt2,
                  merge_ne_nil l2 (node.branch p1 b1 l1 r1 s1) hln2 (by simp), hrn2,
                  ?_, hsr2, rfl,
                  ih (sizeOf l2 + sizeOf (node.branch p1 b1 l1 r1 s1))
                    (by simp only [node.branch.sizeOf_spec] at hN ⊢; omega)
                    l2 (node.branch p1 b1 l1 r1 s1) le_rfl hil2 hia,
                  hir2⟩
                intro h hm
                rcases mem_hashKeys_merge hm with h1 | h1
                · exact hsl2 h h1
                · have hsc := support_of_contained hbb1 hbb2 hcont.1 hplt1 hcont.2
                    (hashKeys_branch_match hia h h1)
                  exact ⟨hsc.1, hsc.2.trans hz⟩
            · rename_i hz
              dsimp only
              split
              · exact hib
              · rw [inv_branch_iff]
                refine ⟨hbb2, hib2, hplt2, hln2,
                  merge_ne_nil r2 (node.branch p1 b1 l1 r1 s1) hrn2 (by simp),
                  hsl2, ?_, rfl, hil2,
                  ih (sizeOf r2 + sizeOf (node.branch p1 b1 l1 r1 s1))
                    (by simp only [node.branch.sizeOf_spec] at hN ⊢; omega)
                    r2 (node.branch p1 b1 l1 r1 s1) le_rfl hir2 hia⟩
                intro h hm
                rcases mem_hashKeys_merge hm with h1 | h1
                · exact hsr2 h h1
                · have hsc := support_of_contained hbb1 hbb2 hcont.1 hplt1 hcont.2
                    (hashKeys_branch_match hia h h1)
                  refine ⟨hsc.1, ?_⟩
                  rw [hsc.2]
                  simpa using hz
          · rename_i hnc
            have hnm : ¬ matchKey p2 b2 p1 = true := fun hmk => hnc ⟨hgt, hmk⟩
            have hmodne : p1 % 2 ^ lowBitIdx b2 ≠ p2 % 2 ^ lowBitIdx b2 := by
              intro hcc
              apply hnm
              rw [hbb2, matchKey_two_pow, hcc, hp2m]
            have hprep := join_support_prep (fun hcc => hmodne hcc.symm)
            have hj21 : lowBitIdx b2 ≤ lowBitIdx b1 := by
              have hpow : (2 : Nat) ^ lowBitIdx b2 ≤ 2 ^ lowBitIdx b1 := by
                rw [← hbb1, ← hbb2]
                omega
              exact (Nat.pow_le_pow_iff_right (by norm_num)).mp hpow
            refine inv_join hprep.1
              (lt_of_lt_of_le hplt2h
                (Nat.pow_le_pow_right (by norm_num) (le_of_lt hib2)))
              (lt_of_lt_of_le hplt1h
                (Nat.pow_le_pow_right (by norm_num) (le_of_lt hib1)))
              hib hia (by simp) (by simp) ?_ ?_
            · intro h hm
              have h2 := hashKeys_branch_mod hib h hm
              exact mod_agree_mono hprep.2 (h2.trans hp2m.symm)
            · intro h hm
              have h2 := hashKeys_branch_mod hia h hm
              exact mod_agree_mono (le_trans hprep.2 hj21) (h2.trans hp1m.symm)
        · rename_i hle
          split
          · rename_i hcont
            split
            · rename_i hz
              dsimp only
              split
              · exact hia
              · rw [inv_branch_iff]
                refine ⟨hbb1, hib1, hplt1,
                  merge_ne_nil l1 (node.branch p2 b2 l2 r2 s2) hln1 (by simp), hrn1,
                  ?_, hsr1, rfl,
                  ih (sizeOf l1 + sizeOf (node.branch p2 b2 l2 r2 s2))
                    (by simp only [node.branch.sizeOf_spec] at hN ⊢; omega)
                    l1 (node.branch p2 b2 l2 r2 s2) le_rfl hil1 hib,
                  hir1⟩
                intro h hm
                rcases mem_hashKeys_merge hm with h1 | h1
                · exact hsl1 h h1
                · have hsc := support_of_contained hbb2 hbb1 hcont.1 hplt2 hcont.2
                    (hashKeys_branch_match hib h h1)
                  exact ⟨hsc.1, hsc.2.trans hz⟩
            · rename_i hz
              dsimp only
              split
              · exact hia
              · rw [inv_branch_iff]
                refine ⟨hbb1, hib1, hplt1, hln1,
                  merge_ne_nil r1 (node.branch p2 b2 l2 r2 s2) hrn1 (by simp),
                  hsl1, ?_, rfl, hil1,
                  ih (sizeOf r1 + sizeOf (node.branch p2 b2 l2 r2 s2))
                    (by simp only [node.branch.sizeOf_spec] at hN ⊢; omega)
                    r1 (node.branch p2 b2 l2 r2 s2) le_rfl hir1 hib⟩
                intro h hm
                rcases mem_hashKeys_merge hm with h1 | h1
                · exact hsr1 h h1
                · have hsc := support_of_contained hbb2 hbb1 hcont.1 hplt2 hcont.2
                    (hashKeys_branch_match hib h h1)
                  refine ⟨hsc.1, ?_⟩
                  rw [hsc.2]
                  simpa using hz
          · rename_i hnc
            have hble : b1 ≤ b2 := Nat.le_of_not_lt hle
            have hmodne : p1 % 2 ^ lowBitIdx b1 ≠ p2 % 2 ^ lowBitIdx b1 := by
              rcases Nat.eq_or_lt_of_le hble with heq | hlt
              · intro hcc
                have hp2b1 : p2 < 2 ^ lowBitIdx b1 := by
                  rw [← hbb1, heq]
                  exact hplt2
                rw [Nat.mod_eq_of_lt hplt1h, Nat.mod_eq_of_lt hp2b1] at hcc
                exact hc1 ⟨heq, hcc⟩
              · have hnm : ¬ matchKey p1 b1 p2 = true := fun hmk => hnc ⟨hlt, hmk⟩
                intro hcc
                apply hnm
                rw [hbb1, matchKey_two_pow, ← hcc, hp1m]
            have hprep := join_support_prep hmodne
            have hj12 : lowBitIdx b1 ≤ lowBitIdx b2 := by
              have hpow : (2 : Nat) ^ lowBitIdx b1 ≤ 2 ^ lowBitIdx b2 := by
                rw [← hbb1, ← hbb2]
                omega
              exact (Nat.pow_le_pow_iff_right (by norm_num)).mp hpow
            refine inv_join hprep.1
              (lt_of_lt_of_le hplt1h
                (Nat.pow_le_pow_right (by norm_num) (le_of_lt hib1)))
              (lt_of_lt_of_le hplt2h
                (Nat.pow_le_pow_right (by norm_num) (le_of_lt hib2)))
              hia hib (by simp) (by simp) ?_ ?_
            · intro h hm
              have h2 := hashKeys_branch_mod hia h hm
              exact mod_agree_mono hprep.2 (h2.trans hp1m.symm)
            · intro h hm
              have h2 := hashKeys_branch_mod hib h hm
              exact mod_agree_mono (le_trans hprep.2 hj12) (h2.trans hp2m.symm)

theorem inv_merge {hasher : Hasher K} {hf : K → Nat} (hp : HProps hasher hf)
    {f : MergeFunc V} {a b : node K V} (hia : Inv hasher hf a)
    (hib : Inv hasher hf b) : Inv hasher hf (merge a b hasher f).1 :=
  inv_merge_aux hp (sizeOf a + sizeOf b) a b le_rfl hia hib

/-! ## merge: flag soundness -/

theorem mergeLeafStep_flag_true {hasher : Hasher K} {f : MergeFunc V}
    {aOrig : node K V} {lk : Nat} {vs : List (K × V)} {other : node K V}
    (hfl : (mergeLeafStep hasher f aOrig lk vs other).2 = true) :
    (mergeLeafFold hasher f lk vs other).2 = true ∧
      ∃ olk ovs osz, other = node.leaf olk ovs osz ∧ vs.length = ovs.length := by
  simp only [mergeLeafStep] at hfl
  rcases hres : (mergeLeafFold hasher f lk vs other).1 with _ | ⟨olk, ovs, osz⟩ |
    ⟨p, bb, l, r, sz⟩
  all_goals rw [hres] at hfl
  · dsimp only at hfl
    simp at hfl
  · dsimp only at hfl
    split at hfl
    · rename_i hcond
      simp only [Bool.and_eq_true, beq_iff_eq] at hcond
      have hunch := mergeLeafFold_unchanged hcond.1
      exact ⟨hcond.1, olk, ovs, osz, by rw [← hunch.1, hres], hcond.2⟩
    · simp at hfl
  · dsimp only at hfl
    simp at hfl

theorem mergeLeafStep_flag_true_fst {hasher : Hasher K} {f : MergeFunc V}
    {aOrig : node K V} {lk : Nat} {vs : List (K × V)} {other : node K V}
    (hfl : (mergeLeafStep hasher f aOrig lk vs other).2 = true) :
    (mergeLeafStep hasher f aOrig lk vs other).1 = aOrig := by
  obtain ⟨hfold, olk, ovs, osz, hbleaf, hlen⟩ := mergeLeafStep_flag_true hfl
  subst hbleaf
  have hunch := (mergeLeafFold_unchanged hfold).1
  simp only [mergeLeafStep]
  rw [hunch]
  dsimp only
  rw [if_pos (by rw [hfold, hlen]; simp)]

theorem mergeLeafStep_fst_of_flag_false {hasher : Hasher K} {f : MergeFunc V}
    {aOrig : node K V} {lk : Nat} {vs : List (K × V)} {other : node K V}
    (hfl : (mergeLeafStep hasher f aOrig lk vs other).2 = false) :
    (mergeLeafStep hasher f aOrig lk vs other).1 =
      (mergeLeafFold hasher f lk vs other).1 := by
  simp only [mergeLeafStep] at hfl ⊢
  split
  · rename_i olk ovs osz heq
    rw [heq] at hfl
    dsimp only at hfl ⊢
    split at hfl
    · simp at hfl
    · rename_i hcond
      rw [if_neg hcond, heq]
  · rfl

theorem merge_flag_true_fst {hasher : Hasher K} {f : MergeFunc V} {a b : node K V}
    (hfl : (merge a b hasher f).2 = true) : (merge a b hasher f).1 = a := by
  by_cases hab : a = b
  · subst hab
    rw [merge_self]
  cases a with
  | nil =>
    have hb : b ≠ .nil := fun hc => hab (by rw [hc])
    rw [merge_nil_left hb] at hfl
    simp at hfl
  | leaf lk vs sz =>
    by_cases hb : b = .nil
    · subst hb
      rw [merge_nil_right (by simp)] at hfl
      simp at hfl
    · rw [merge_leaf_left hab hb] at hfl ⊢
      exact mergeLeafStep_flag_true_fst hfl
  | branch p1 b1 l1 r1 s1 =>
    cases b with
    | nil =>
      rw [merge_nil_right (by simp)] at hfl
      simp at hfl
    | leaf lk vs sz =>
      rw [merge_leaf_right] at hfl ⊢
      exact mergeLeafStep_flag_true_fst hfl
    | branch p2 b2 l2 r2 s2 =>
      rw [merge_branch hab] at hfl ⊢
      split at hfl
      · rename_i hc1
        dsimp only at hfl
        split at hfl
        · rename_i hcond2
          rw [if_pos hc1]
          dsimp only
          rw [if_pos hcond2]
        · split at hfl
          · simp at hfl
          · split at hfl
            · simp at hfl
            · simp at hfl
      · split at hfl
        · split at hfl
          · split at hfl
            · dsimp only at hfl
              split at hfl
              · simp at hfl
              · simp at hfl
            · dsimp only at hfl
              split at hfl
              · simp at hfl
              · simp at hfl
          · simp at hfl
        · split at hfl
          · split at hfl
            · dsimp only at hfl
              split at hfl
              · simp at hfl
              · simp at hfl
            · dsimp only at hfl
              split at hfl
              · simp at hfl
              · simp at hfl
          · simp at hfl

theorem insertPairs_flag_false {hasher : Hasher K} {key : K} {value : V}
    {fn : MergeFunc V} {vs nvs : List (K × V)}
    (h : insertPairs hasher key value (some fn) vs = some (nvs, false)) :
    ∃ w, findBucket hasher key vs = some w ∧ (fn value w).2 = true := by
  induction vs generalizing nvs with
  | nil => simp [insertPairs] at h
  | cons pr rest ih =>
    obtain ⟨k', v'⟩ := pr
    rw [insertPairs] at h
    by_cases he : hasher.Equal key k' = true
    · rw [if_pos he] at h
      dsimp only at h
      split at h
      · rename_i hres
        exact ⟨v', findBucket_cons_pos he, hres⟩
      · simp at h
    · rw [if_neg he] at h
      have he' : hasher.Equal key k' = false := by
        rcases hx : hasher.Equal key k' with _ | _
        · rfl
        · exact absurd hx he
      rcases hrec : insertPairs hasher key value (some fn) rest with _ | ⟨nvs', ch⟩
      · rw [hrec] at h
        simp at h
      · rw [hrec] at h
        dsimp only at h
        obtain ⟨h1, h2⟩ : (k', v') :: nvs' = nvs ∧ ch = false := by simpa using h
        subst h2
        obtain ⟨w, hw1, hw2⟩ := ih hrec
        refine ⟨w, ?_, hw2⟩
        rw [findBucket_cons_neg he']
        exact hw1

theorem insert_flag_false_lookup {hasher : Hasher K} {hash : Nat} {key : K}
    {value : V} {fn : MergeFunc V} {n : node K V}
    (h : (insert n hash key value hasher (some fn)).2 = false) :
    ∃ w, lookup n hash key hasher = some w ∧ (fn value w).2 = true := by
  induction n with
  | nil => simp [insert] at h
  | leaf lk vs sz =>
    rw [insert] at h
    by_cases hlk : lk = hash
    · rw [if_pos hlk] at h
      rcases hip : insertPairs hasher key value (some fn) vs with _ | ⟨nvs, ch⟩
      · rw [hip] at h
        simp at h
      · rw [hip] at h
        dsimp only at h
        split at h
        · simp at h
        · rename_i hch
          have hch' : ch = false := by simpa using hch
          rw [hch'] at hip
          obtain ⟨w, hw1, hw2⟩ := insertPairs_flag_false hip
          refine ⟨w, ?_, hw2⟩
          simp only [lookup]
          rw [if_pos hlk]
          exact hw1
    · rw [if_neg hlk] at h
      simp at h
  | branch p bb l r sz ihl ihr =>
    rw [insert] at h
    by_cases hm : matchKey p bb hash = true
    · rw [if_pos hm] at h
      by_cases hz : zeroBit hash bb = true
      · rw [if_pos hz] at h
        dsimp only at h
        split at h
        · simp at h
        · rename_i hres
          have hres' : (insert l hash key value hasher (some fn)).2 = false := by
            simpa using hres
          obtain ⟨w, hw1, hw2⟩ := ihl hres'
          refine ⟨w, ?_, hw2⟩
          simp only [lookup]
          rw [if_pos hm, if_pos hz]
          exact hw1
      · rw [if_neg hz] at h
        dsimp only at h
        split at h
        · simp at h
        · rename_i hres
          have hres' : (insert r hash key value hasher (some fn)).2 = false := by
            simpa using hres
          obtain ⟨w, hw1, hw2⟩ := ihr hres'
          refine ⟨w, ?_, hw2⟩
          simp only [lookup]
          rw [if_pos hm, if_neg hz]
          exact hw1
    · rw [if_neg hm] at h
      simp at h

theorem merge_flag_sound_aux {hasher : Hasher K} {hf : K → Nat}
    (hp : HProps hasher hf) {f : MergeFunc V} (hv : ValidF f) :
    ∀ (N : Nat) (a b : node K V), sizeOf a + sizeOf b ≤ N →
      Inv hasher hf a → Inv hasher hf b → (merge a b hasher f).2 = true →
      ∀ k : K, lookup a (hf k) k hasher = lookup b (hf k) k hasher := by
  intro N
  induction N using Nat.strong_induction_on with
  | _ N ih =>
  intro a b hN hia hib hfl
  by_cases hab : a = b
  · subst hab
    intro k
    rfl
  cases a with
  | nil =>
    have hb : b ≠ .nil := fun hc => hab (by rw [hc])
    rw [merge_nil_left hb] at hfl
    simp at hfl
  | leaf lk vs sz =>
    by_cases hb : b = .nil
    · subst hb
      rw [merge_nil_right (by simp)] at hfl
      simp at hfl
    · rw [merge_leaf_left hab hb] at hfl
      obtain ⟨hfold, olk, ovs, osz, hbleaf, hlen⟩ := mergeLeafStep_flag_true hfl
      subst hbleaf
      obtain ⟨hune, hins⟩ := mergeLeafFold_unchanged hfold
      obtain ⟨hvne, hsz, hlk64, hvh, hvd⟩ := inv_leaf_iff.mp hia
      obtain ⟨hone, hosz2, holk64, hoh, hod⟩ := inv_leaf_iff.mp hib
      obtain ⟨pr0, hpr0⟩ := List.exists_mem_of_ne_nil vs hvne
      obtain ⟨w0, hw01, hw02⟩ := insert_flag_false_lookup (hins pr0 hpr0)
      have holk : olk = lk := by
        by_contra hne
        simp only [lookup] at hw01
        rw [if_neg hne] at hw01
        exact absurd hw01 (by simp)
      subst holk
      have hcov : ∀ p ∈ vs, ∃ q ∈ ovs, hasher.Equal p.1 q.1 = true ∧ p.2 = q.2 := by
        intro p hpm
        obtain ⟨w, hw1, hw2⟩ := insert_flag_false_lookup (hins p hpm)
        have hw : p.2 = w := hv.eqT _ _ hw2
        rw [lookup_eq_findBucket, bucketOf_leaf_self] at hw1
        have hfb : findBucket hasher p.1 ovs = some w := hw1
        rw [findBucket_eq_some_iff hp hod] at hfb
        obtain ⟨q, hq, he, hqv⟩ := hfb
        exact ⟨q, hq, he, by rw [hw, ← hqv]⟩
      have hext := findBucket_ext hp hvd hod hlen hcov
      intro k
      rw [lookup_eq_findBucket, lookup_eq_findBucket]
      by_cases hlkk : olk = hf k
      · rw [← hlkk, bucketOf_leaf_self, bucketOf_leaf_self]
        exact hext k
      · rw [bucketOf_leaf_ne hlkk, bucketOf_leaf_ne hlkk]
  | branch p1 b1 l1 r1 s1 =>
    cases b with
    | nil =>
      rw [merge_nil_right (by simp)] at hfl
      simp at hfl
    | leaf lk vs sz =>
      rw [merge_leaf_right] at hfl
      obtain ⟨_, olk, ovs, osz, habs, _⟩ := mergeLeafStep_flag_true hfl
      exact absurd habs (by simp)
    | branch p2 b2 l2 r2 s2 =>
      obtain ⟨hbb1, hib1, hplt1, hln1, hrn1, hsl1, hsr1, hszb1, hil1, hir1⟩ :=
        inv_branch_iff.mp hia
      obtain ⟨hbb2, hib2, hplt2, hln2, hrn2, hsl2, hsr2, hszb2, hil2, hir2⟩ :=
        inv_branch_iff.mp hib
      rw [merge_branch hab] at hfl
      split at hfl
      · rename_i hc1
        obtain ⟨hbeq, hpeq⟩ := hc1
        subst hbeq
        subst hpeq
        dsimp only at hfl
        split at hfl
        · rename_i hcond2
          simp only [Bool.and_eq_true] at hcond2
          have ihl := ih (sizeOf l1 + sizeOf l2)
            (by simp only [node.branch.sizeOf_spec] at hN; omega)
            l1 l2 le_rfl hil1 hil2 hcond2.1
          have ihr := ih (sizeOf r1 + sizeOf r2)
            (by simp only [node.branch.sizeOf_spec] at hN; omega)
            r1 r2 le_rfl hir1 hir2 hcond2.2
          intro k
          simp only [lookup]
          by_cases hm : matchKey p1 b1 (hf k) = true
          · rw [if_pos hm, if_pos hm]
            by_cases hz : zeroBit (hf k) b1 = true
            · rw [if_pos hz, if_pos hz]
              exact ihl k
            · rw [if_neg hz, if_neg hz]
              exact ihr k
          · rw [if_neg hm, if_neg hm]
        · split at hfl
          · simp at hfl
          · split at hfl
            · simp at hfl
            · simp at hfl
      · split at hfl
        · split at hfl
          · split at hfl
            · dsimp only at hfl
              split at hfl
              · simp at hfl
              · simp at hfl
            · dsimp only at hfl
              split at hfl
              · simp at hfl
              · simp at hfl
          · simp at hfl
        · split at hfl
          · split at hfl
            · dsimp only at hfl
              split at hfl
              · simp at hfl
              · simp at hfl
            · dsimp only at hfl
              split at hfl
              · simp at hfl
              · simp at hfl
          · simp at hfl

theorem merge_flag_sound {hasher : Hasher K} {hf : K → Nat}
    (hp : HProps hasher hf) {f : MergeFunc V} (hv : ValidF f) {a b : node K V}
    (hia : Inv hasher hf a) (hib : Inv hasher hf b)
    (hfl : (merge a b hasher f).2 = true) :
    ∀ k : K, lookup a (hf k) k hasher = lookup b (hf k) k hasher :=
  merge_flag_sound_aux hp hv (sizeOf a + sizeOf b) a b le_rfl hia hib hfl

/-! ## merge: lookup characterization -/

theorem lookup_branch_pos {hasher : Hasher K} {p bb h : Nat} {l r : node K V}
    {sz : Nat} {k : K} (hm : matchKey p bb h = true) (hz : zeroBit h bb = true) :
    lookup (.branch p bb l r sz) h k hasher = lookup l h k hasher := by
  simp only [lookup]
  rw [if_pos hm, if_pos hz]

theorem lookup_branch_neg {hasher : Hasher K} {p bb h : Nat} {l r : node K V}
    {sz : Nat} {k : K} (hm : matchKey p bb h = true) (hz : zeroBit h bb = false) :
    lookup (.branch p bb l r sz) h k hasher = lookup r h k hasher := by
  simp only [lookup]
  rw [if_pos hm, if_neg (by simp [hz])]

theorem lookup_branch_not {hasher : Hasher K} {p bb h : Nat} {l r : node K V}
    {sz : Nat} {k : K} (hm : matchKey p bb h = false) :
    lookup (.branch p bb l r sz) h k hasher = none := by
  simp only [lookup]
  rw [if_neg (by simp [hm])]

theorem lookup_eq_none_of_not_mem {hasher : Hasher K} {n : node K V} {h : Nat}
    {k : K} (hm : h ∉ hashKeys n) : lookup n h k hasher = none := by
  rw [lookup_eq_findBucket]
  rcases hb : bucketOf n h with _ | ⟨pr, rest⟩
  · rfl
  · exact absurd (mem_hashKeys_of_bucketOf_ne_nil (by rw [hb]; simp)) hm

theorem findBucket_none_of_hash {hasher : Hasher K} {hf : K → Nat}
    (hp : HProps hasher hf) {vs : List (K × V)} {lk : Nat} {k : K}
    (hvs : ∀ pr ∈ vs, hf pr.1 = lk) (hne : hf k ≠ lk) :
    findBucket hasher k vs = none := by
  rw [findBucket_eq_none_iff]
  intro p hpm
  rcases hx : hasher.Equal k p.1 with _ | _
  · rfl
  · exact absurd ((hp.congr _ _ hx).trans (hvs p hpm)) hne

theorem branch_support_mod {hasher : Hasher K} {hf : K → Nat} {p bb : Nat}
    {l r : node K V} {sz : Nat} (hi : Inv hasher hf (.branch p bb l r sz))
    {m : Nat} (hm : m ≤ lowBitIdx bb) :
    ∀ h ∈ hashKeys (.branch p bb l r sz : node K V), h % 2 ^ m = p % 2 ^ m := by
  obtain ⟨hbb, _, hplt, _, _, _, _, _, _, _⟩ := inv_branch_iff.mp hi
  have hplth : p < 2 ^ lowBitIdx bb := by
    rw [← hbb]
    exact hplt
  intro h hmem
  exact mod_agree_mono hm
    ((hashKeys_branch_mod hi h hmem).trans (Nat.mod_eq_of_lt hplth).symm)

theorem mod_branching_succ_ne {pA pB : Nat} (hne : pA ≠ pB) :
    pA % 2 ^ (lowBitIdx (pA ^^^ pB) + 1) ≠
      pB % 2 ^ (lowBitIdx (pA ^^^ pB) + 1) := by
  intro hc
  exact testBit_at_branching (xor_ne_zero_of_ne hne) (mod_pow_succ_iff.mp hc).2

theorem lookup_merge_aux {hasher : Hasher K} {hf : K → Nat} (hp : HProps hasher hf)
    {f : MergeFunc V} (hv : ValidF f) :
    ∀ (N : Nat) (a b : node K V), sizeOf a + sizeOf b ≤ N →
      Inv hasher hf a → Inv hasher hf b → ∀ k : K,
      lookup (merge a b hasher f).1 (hf k) k hasher =
        mergeOpt f (lookup a (hf k) k hasher) (lookup b (hf k) k hasher) := by
  intro N
  induction N using Nat.strong_induction_on with
  | _ N ih =>
  intro a b hN hia hib
  by_cases hfl : (merge a b hasher f).2 = true
  · have h1 := merge_flag_true_fst hfl
    have h2 := merge_flag_sound hp hv hia hib hfl
    intro k
    rw [h1, h2 k]
    exact (mergeOpt_self hv _).symm
  by_cases hab : a = b
  · subst hab
    rw [merge_self] at hfl
    simp at hfl
  cases a with
  | nil =>
    have hb : b ≠ .nil := fun hc => hab (by rw [hc])
    intro k
    rw [merge_nil_left hb]
    rfl
  | leaf lk vs sz =>
    by_cases hb : b = .nil
    · subst hb
      intro k
      rw [merge_nil_right (by simp)]
      rcases hla : lookup (node.leaf lk vs sz) (hf k) k hasher with _ | va
      · rfl
      · rfl
    · rw [merge_leaf_left hab hb] at hfl
      have hflf : (mergeLeafStep hasher f (node.leaf lk vs sz) lk vs b).2 = false := by
        simpa using hfl
      intro k
      rw [merge_leaf_left hab hb, mergeLeafStep_fst_of_flag_false hflf]
      obtain ⟨hvne, hsz, hlk64, hvh, hvd⟩ := inv_leaf_iff.mp hia
      rw [lookup_mergeLeafFold hp hv hib hvh hvd k]
      by_cases hlkk : lk = hf k
      · have hleq : lookup (node.leaf lk vs sz) (hf k) k hasher =
            findBucket hasher k vs := by
          rw [lookup_eq_findBucket, ← hlkk, bucketOf_leaf_self]
        rw [hleq]
      · have h1 : lookup (node.leaf lk vs sz) (hf k) k hasher = none := by
          rw [lookup_eq_findBucket, bucketOf_leaf_ne hlkk]
          rfl
        have h2 : findBucket hasher k vs = none :=
          findBucket_none_of_hash hp hvh (fun hc => hlkk hc.symm)
        rw [h1, h2]
  | branch p1 b1 l1 r1 s1 =>
    cases b with
    | nil =>
      intro k
      rw [merge_nil_right (by simp)]
      rcases hla : lookup (node.branch p1 b1 l1 r1 s1) (hf k) k hasher with _ | va
      · rfl
      · rfl
    | leaf lk vs sz =>
      rw [merge_leaf_right] at hfl
      have hflf : (mergeLeafStep hasher f (node.branch p1 b1 l1 r1 s1) lk vs
          (node.branch p1 b1 l1 r1 s1)).2 = false := by
        simpa using hfl
      intro k
      rw [merge_leaf_right, mergeLeafStep_fst_of_flag_false hflf]
      obtain ⟨hvne, hsz, hlk64, hvh, hvd⟩ := inv_leaf_iff.mp hib
      rw [lookup_mergeLeafFold hp hv hia hvh hvd k, mergeOpt_comm hv]
      by_cases hlkk : lk = hf k
      · have hleq : lookup (node.leaf lk vs sz) (hf k) k hasher =
            findBucket hasher k vs := by
          rw [lookup_eq_findBucket, ← hlkk, bucketOf_leaf_self]
        rw [hleq]
      · have h1 : lookup (node.leaf lk vs sz) (hf k) k hasher = none := by
          rw [lookup_eq_findBucket, bucketOf_leaf_ne hlkk]
          rfl
        have h2 : findBucket hasher k vs = none :=
          findBucket_none_of_hash hp hvh (fun hc => hlkk hc.symm)
        rw [h1, h2]
    | branch p2 b2 l2 r2 s2 =>
      obtain ⟨hbb1, hib1, hplt1, hln1, hrn1, hsl1, hsr1, hszb1, hil1, hir1⟩ :=
        inv_branch_iff.mp hia
      obtain ⟨hbb2, hib2, hplt2, hln2, hrn2, hsl2, hsr2, hszb2, hil2, hir2⟩ :=
        inv_branch_iff.mp hib
      have hplt1h : p1 < 2 ^ lowBitIdx b1 := by
        rw [← hbb1]
        exact hplt1
      have hplt2h : p2 < 2 ^ lowBitIdx b2 := by
        rw [← hbb2]
        exact hplt2
      have hp1m : p1 % 2 ^ lowBitIdx b1 = p1 := Nat.mod_eq_of_lt hplt1h
      have hp2m : p2 % 2 ^ lowBitIdx b2 = p2 := Nat.mod_eq_of_lt hplt2h
      have hp164 : p1 < 2 ^ 64 :=
        lt_of_lt_of_le hplt1h (Nat.pow_le_pow_right (by norm_num) (le_of_lt hib1))
      have hp264 : p2 < 2 ^ 64 :=
        lt_of_lt_of_le hplt2h (Nat.pow_le_pow_right (by norm_num) (le_of_lt hib2))
      have hfl2 : (merge (node.branch p1 b1 l1 r1 s1) (node.branch p2 b2 l2 r2 s2)
          hasher f).2 = false := by
        simpa using hfl
      rw [merge_branch hab] at hfl2
      intro k
      rw [merge_branch hab]
      split
      · rename_i hc1
        obtain ⟨hbeq, hpeq⟩ := hc1
        subst hbeq
        subst hpeq
        rw [if_pos ⟨rfl, rfl⟩] at hfl2
        dsimp only at hfl2 ⊢
        have ihl := ih (sizeOf l1 + sizeOf l2)
          (by simp only [node.branch.sizeOf_spec] at hN; omega)
          l1 l2 le_rfl hil1 hil2
        have ihr := ih (sizeOf r1 + sizeOf r2)
          (by simp only [node.branch.sizeOf_spec] at hN; omega)
          r1 r2 le_rfl hir1 hir2
        split
        · rename_i hcond2
          rw [if_pos hcond2] at hfl2
          simp at hfl2
        · split
          · rename_i hcond3
            simp only [Bool.and_eq_true, Bool.or_eq_true, decide_eq_true_eq] at hcond3
            have hll : (merge l1 l2 hasher f).1 = l1 := by
              rcases hcond3.1 with h1 | h1
              · exact merge_flag_true_fst h1
              · exact h1
            have hrr : (merge r1 r2 hasher f).1 = r1 := by
              rcases hcond3.2 with h1 | h1
              · exact merge_flag_true_fst h1
              · exact h1
            have hml : mergeOpt f (lookup l1 (hf k) k hasher)
                (lookup l2 (hf k) k hasher) = lookup l1 (hf k) k hasher := by
              rw [← ihl k, hll]
            have hmr : mergeOpt f (lookup r1 (hf k) k hasher)
                (lookup r2 (hf k) k hasher) = lookup r1 (hf k) k hasher := by
              rw [← ihr k, hrr]
            by_cases hm : matchKey p1 b1 (hf k) = true
            · by_cases hz : zeroBit (hf k) b1 = true
              · simp only [lookup_branch_pos hm hz]
                exact hml.symm
              · have hz2 : zeroBit (hf k) b1 = false := by simpa using hz
                simp only [lookup_branch_neg hm hz2]
                exact hmr.symm
            · have hm2 : matchKey p1 b1 (hf k) = false := by simpa using hm
              simp only [lookup_branch_not hm2]
              rfl
          · split
            · rename_i hcond4
              simp only [Bool.and_eq_true, Bool.or_eq_true, decide_eq_true_eq] at hcond4
              have hml : mergeOpt f (lookup l1 (hf k) k hasher)
                  (lookup l2 (hf k) k hasher) = lookup l2 (hf k) k hasher := by
                rcases hcond4.1 with h1 | h1
                · rw [merge_flag_sound hp hv hil1 hil2 h1 k]
                  exact mergeOpt_self hv _
                · rw [← ihl k, h1]
              have hmr : mergeOpt f (lookup r1 (hf k) k hasher)
                  (lookup r2 (hf k) k hasher) = lookup r2 (hf k) k hasher := by
                rcases hcond4.2 with h1 | h1
                · rw [merge_flag_sound hp hv hir1 hir2 h1 k]
                  exact mergeOpt_self hv _
                · rw [← ihr k, h1]
              by_cases hm : matchKey p1 b1 (hf k) = true
              · by_cases hz : zeroBit (hf k) b1 = true
                · simp only [lookup_branch_pos hm hz]
                  exact hml.symm
                · have hz2 : zeroBit (hf k) b1 = false := by simpa using hz
                  simp only [lookup_branch_neg hm hz2]
                  exact hmr.symm
              · have hm2 : matchKey p1 b1 (hf k) = false := by simpa using hm
                simp only [lookup_branch_not hm2]
                rfl
            · by_cases hm : matchKey p1 b1 (hf k) = true
              · by_cases hz : zeroBit (hf k) b1 = true
                · simp only [lookup_branch_pos hm hz]
                  exact ihl k
                · have hz2 : zeroBit (hf k) b1 = false := by simpa using hz
                  simp only [lookup_branch_neg hm hz2]
                  exact ihr k
              · have hm2 : matchKey p1 b1 (hf k) = false := by simpa using hm
                simp only [lookup_branch_not hm2]
                rfl
      · rename_i hc1
        split
        · rename_i hgt
          split
          · rename_i hcont
            have hsupcon : ∀ h ∈ hashKeys (node.branch p1 b1 l1 r1 s1 : node K V),
                matchKey p2 b2 h = true ∧ zeroBit h b2 = zeroBit p1 b2 :=
              fun h hh => support_of_contained hbb1 hbb2 hcont.1 hplt1 hcont.2
                (hashKeys_branch_match hia h hh)
            split
            · rename_i hz
              dsimp only
              have ihres := ih (sizeOf l2 + sizeOf (node.branch p1 b1 l1 r1 s1))
                (by simp only [node.branch.sizeOf_spec] at hN ⊢; omega)
                l2 (node.branch p1 b1 l1 r1 s1) le_rfl hil2 hia
              split
              · rename_i heq
                have hres := ihres k
                rw [heq] at hres
                by_cases hm2 : matchKey p2 b2 (hf k) = true
                · by_cases hz2 : zeroBit (hf k) b2 = true
                  · simp only [lookup_branch_pos hm2 hz2]
                    conv_lhs => rw [hres]
                    exact mergeOpt_comm hv _ _
                  · have hz2f : zeroBit (hf k) b2 = false := by simpa using hz2
                    simp only [lookup_branch_neg hm2 hz2f]
                    have hla : lookup (node.branch p1 b1 l1 r1 s1) (hf k) k hasher =
                        none := by
                      apply lookup_eq_none_of_not_mem
                      intro hmem
                      have hs := (hsupcon (hf k) hmem).2.trans hz
                      rw [hz2f] at hs
                      exact absurd hs (by simp)
                    rw [hla]
                    rfl
                · have hm2f : matchKey p2 b2 (hf k) = false := by simpa using hm2
                  simp only [lookup_branch_not hm2f]
                  have hla : lookup (node.branch p1 b1 l1 r1 s1) (hf k) k hasher =
                      none := by
                    apply lookup_eq_none_of_not_mem
                    intro hmem
                    have hs := (hsupcon (hf k) hmem).1
                    rw [hm2f] at hs
                    exact absurd hs (by simp)
                  rw [hla]
                  rfl
              · by_cases hm2 : matchKey p2 b2 (hf k) = true
                · by_cases hz2 : zeroBit (hf k) b2 = true
                  · simp only [lookup_branch_pos hm2 hz2]
                    rw [ihres k]
                    exact mergeOpt_comm hv _ _
                  · have hz2f : zeroBit (hf k) b2 = false := by simpa using hz2
                    simp only [lookup_branch_neg hm2 hz2f]
                    have hla : lookup (node.branch p1 b1 l1 r1 s1) (hf k) k hasher =
                        none := by
                      apply lookup_eq_none_of_not_mem
                      intro hmem
                      have hs := (hsupcon (hf k) hmem).2.trans hz
                      rw [hz2f] at hs
                      exact absurd hs (by simp)
                    rw [hla]
                    rfl
                · have hm2f : matchKey p2 b2 (hf k) = false := by simpa using hm2
                  simp only [lookup_branch_not hm2f]
                  have hla : lookup (node.branch p1 b1 l1 r1 s1) (hf k) k hasher =
                      none := by
                    apply lookup_eq_none_of_not_mem
                    intro hmem
                    have hs := (hsupcon (hf k) hmem).1
                    rw [hm2f] at hs
                    exact absurd hs (by simp)
                  rw [hla]
                  rfl
            · rename_i hz
              have hzf : zeroBit p1 b2 = false := by simpa using hz
              dsimp only
              have ihres := ih (sizeOf r2 + sizeOf (node.branch p1 b1 l1 r1 s1))
                (by simp only [node.branch.sizeOf_spec] at hN ⊢; omega)
                r2 (node.branch p1 b1 l1 r1 s1) le_rfl hir2 hia
              split
              · rename_i heq
                have hres := ihres k
                rw [heq] at hres
                by_cases hm2 : matchKey p2 b2 (hf k) = true
                · by_cases hz2 : zeroBit (hf k) b2 = true
                  · simp only [lookup_branch_pos hm2 hz2]
                    have hla : lookup (node.branch p1 b1 l1 r1 s1) (hf k) k hasher =
                        none := by
                      apply lookup_eq_none_of_not_mem
                      intro hmem
                      have hs := (hsupcon (hf k) hmem).2.trans hzf
                      rw [hz2] at hs
                      exact absurd hs (by simp)
                    rw [hla]
                    rfl
                  · have hz2f : zeroBit (hf k) b2 = false := by simpa using hz2
                    simp only [lookup_branch_neg hm2 hz2f]
                    conv_lhs => rw [hres]
                    exact mergeOpt_comm hv _ _
                · have hm2f : matchKey p2 b2 (hf k) = false := by simpa using hm2
                  simp only [lookup_branch_not hm2f]
                  have hla : lookup (node.branch p1 b1 l1 r1 s1) (hf k) k hasher =
                      none := by
                    apply lookup_eq_none_of_not_mem
                    intro hmem
                    have hs := (hsupcon (hf k) hmem).1
                    rw [hm2f] at hs
                    exact absurd hs (by simp)
                  rw [hla]
                  rfl
              · by_cases hm2 : matchKey p2 b2 (hf k) = true
                · by_cases hz2 : zeroBit (hf k) b2 = true
                  · simp only [lookup_branch_pos hm2 hz2]
                    have hla : lookup (node.branch p1 b1 l1 r1 s1) (hf k) k hasher =
                        none := by
                      apply lookup_eq_none_of_not_mem
                      intro hmem
                      have hs := (hsupcon (hf k) hmem).2.trans hzf
                      rw [hz2] at hs
                      exact absurd hs (by simp)
                    rw [hla]
                    rfl
                  · have hz2f : zeroBit (hf k) b2 = false := by simpa using hz2
                    simp only [lookup_branch_neg hm2 hz2f]
                    rw [ihres k]
                    exact mergeOpt_comm hv _ _
                · have hm2f : matchKey p2 b2 (hf k) = false := by simpa using hm2
                  simp only [lookup_branch_not hm2f]
                  have hla : lookup (node.branch p1 b1 l1 r1 s1) (hf k) k hasher =
                      none := by
                    apply lookup_eq_none_of_not_mem
                    intro hmem
                    have hs := (hsupcon (hf k) hmem).1
                    rw [hm2f] at hs
                    exact absurd hs (by simp)
                  rw [hla]
                  rfl
          · rename_i hnc
            have hnm : ¬ matchKey p2 b2 p1 = true := fun hmk => hnc ⟨hgt, hmk⟩
            have hmodne : p1 % 2 ^ lowBitIdx b2 ≠ p2 % 2 ^ lowBitIdx b2 := by
              intro hcc
              apply hnm
              rw [hbb2, matchKey_two_pow, hcc, hp2m]
            have hprep := join_support_prep (fun hcc => hmodne hcc.symm)
            have hj21 : lowBitIdx b2 ≤ lowBitIdx b1 := by
              have hpow : (2 : Nat) ^ lowBitIdx b2 ≤ 2 ^ lowBitIdx b1 := by
                rw [← hbb1, ← hbb2]
                omega
              exact (Nat.pow_le_pow_iff_right (by norm_num)).mp hpow
            have ht0 := branch_support_mod hib hprep.2
            have ht1 := branch_support_mod hia (le_trans hprep.2 hj21)
            have hjoin := bucketOf_join (s := (node.branch p2 b2 l2 r2 s2 : node K V))
              (t := (node.branch p1 b1 l1 r1 s1 : node K V)) hprep.1 hp264 hp164
              ht0 ht1
            rw [lookup_eq_findBucket, hjoin (hf k)]
            by_cases hbn : bucketOf (node.branch p2 b2 l2 r2 s2) (hf k) = []
            · rw [hbn, List.nil_append, ← lookup_eq_findBucket]
              have hlb : lookup (node.branch p2 b2 l2 r2 s2) (hf k) k hasher =
                  none := by
                rw [lookup_eq_findBucket, hbn]
                rfl
              rw [hlb]
              rcases hla : lookup (node.branch p1 b1 l1 r1 s1) (hf k) k hasher with
                _ | va
              · rfl
              · rfl
            · have hmem := mem_hashKeys_of_bucketOf_ne_nil hbn
              have han : bucketOf (node.branch p1 b1 l1 r1 s1) (hf k) = [] := by
                by_contra hc
                have hmema := mem_hashKeys_of_bucketOf_ne_nil hc
                exact mod_branching_succ_ne hprep.1
                  ((ht0 (hf k) hmem).symm.trans (ht1 (hf k) hmema))
              rw [han, List.append_nil, ← lookup_eq_findBucket]
              have hla : lookup (node.branch p1 b1 l1 r1 s1) (hf k) k hasher =
                  none := by
                rw [lookup_eq_findBucket, han]
                rfl
              rw [hla]
              rfl
        · rename_i hle
          split
          · rename_i hcont
            have hsupcon : ∀ h ∈ hashKeys (node.branch p2 b2 l2 r2 s2 : node K V),
                matchKey p1 b1 h = true ∧ zeroBit h b1 = zeroBit p2 b1 :=
              fun h hh => support_of_contained hbb2 hbb1 hcont.1 hplt2 hcont.2
                (hashKeys_branch_match hib h hh)
            split
            · rename_i hz
              dsimp only
              have ihres := ih (sizeOf l1 + sizeOf (node.branch p2 b2 l2 r2 s2))
                (by simp only [node.branch.sizeOf_spec] at hN ⊢; omega)
                l1 (node.branch p2 b2 l2 r2 s2) le_rfl hil1 hib
              split
              · rename_i heq
                have hres := ihres k
                rw [heq] at hres
                by_cases hm1 : matchKey p1 b1 (hf k) = true
                · by_cases hz1 : zeroBit (hf k) b1 = true
                  · simp only [lookup_branch_pos hm1 hz1]
                    conv_lhs => rw [hres]
                  · have hz1f : zeroBit (hf k) b1 = false := by simpa using hz1
                    simp only [lookup_branch_neg hm1 hz1f]
                    have hlb : lookup (node.branch p2 b2 l2 r2 s2) (hf k) k hasher =
                        none := by
                      apply lookup_eq_none_of_not_mem
                      intro hmem
                      have hs := (hsupcon (hf k) hmem).2.trans hz
                      rw [hz1f] at hs
                      exact absurd hs (by simp)
                    rw [hlb]
                    rcases hla : lookup r1 (hf k) k hasher with _ | va
                    · rfl
                    · rfl
                · have hm1f : matchKey p1 b1 (hf k) = false := by simpa using hm1
                  simp only [lookup_branch_not hm1f]
                  have hlb : lookup (node.branch p2 b2 l2 r2 s2) (hf k) k hasher =
                      none := by
                    apply lookup_eq_none_of_not_mem
                    intro hmem
                    have hs := (hsupcon (hf k) hmem).1
                    rw [hm1f] at hs
                    exact absurd hs (by simp)
                  rw [hlb]
                  rfl
              · by_cases hm1 : matchKey p1 b1 (hf k) = true
                · by_cases hz1 : zeroBit (hf k) b1 = true
                  · simp only [lookup_branch_pos hm1 hz1]
                    rw [ihres k]
                  · have hz1f : zeroBit (hf k) b1 = false := by simpa using hz1
                    simp only [lookup_branch_neg hm1 hz1f]
                    have hlb : lookup (node.branch p2 b2 l2 r2 s2) (hf k) k hasher =
                        none := by
                      apply lookup_eq_none_of_not_mem
                      intro hmem
                      have hs := (hsupcon (hf k) hmem).2.trans hz
                      rw [hz1f] at hs
                      exact absurd hs (by simp)
                    rw [hlb]
                    rcases hla : lookup r1 (hf k) k hasher with _ | va
                    · rfl
                    · rfl
                · have hm1f : matchKey p1 b1 (hf k) = false := by simpa using hm1
                  simp only [lookup_branch_not hm1f]
                  have hlb : lookup (node.branch p2 b2 l2 r2 s2) (hf k) k hasher =
                      none := by
                    apply lookup_eq_none_of_not_mem
                    intro hmem
                    have hs := (hsupcon (hf k) hmem).1
                    rw [hm1f] at hs
                    exact absurd hs (by simp)
                  rw [hlb]
                  rfl
            · rename_i hz
              have hzf : zeroBit p2 b1 = false := by simpa using hz
              dsimp only
              have ihres := ih (sizeOf r1 + sizeOf (node.branch p2 b2 l2 r2 s2))
                (by simp only [node.branch.sizeOf_spec] at hN ⊢; omega)
                r1 (node.branch p2 b2 l2 r2 s2) le_rfl hir1 hib
              split
              · rename_i heq
                have hres := ihres k
                rw [heq] at hres
                by_cases hm1 : matchKey p1 b1 (hf k) = true
                · by_cases hz1 : zeroBit (hf k) b1 = true
                  · simp only [lookup_branch_pos hm1 hz1]
                    have hlb : lookup (node.branch p2 b2 l2 r2 s2) (hf k) k hasher =
                        none := by
                      apply lookup_eq_none_of_not_mem
                      intro hmem
                      have hs := (hsupcon (hf k) hmem).2.trans hzf
                      rw [hz1] at hs
                      exact absurd hs (by simp)
                    rw [hlb]
                    rcases hla : lookup l1 (hf k) k hasher with _ | va
                    · rfl
                    · rfl
                  · have hz1f : zeroBit (hf k) b1 = false := by simpa using hz1
                    simp only [lookup_branch_neg hm1 hz1f]
                    conv_lhs => rw [hres]
                · have hm1f : matchKey p1 b1 (hf k) = false := by simpa using hm1
                  simp only [lookup_branch_not hm1f]
                  have hlb : lookup (node.branch p2 b2 l2 r2 s2) (hf k) k hasher =
                      none := by
                    apply lookup_eq_none_of_not_mem
                    intro hmem
                    have hs := (hsupcon (hf k) hmem).1
                    rw [hm1f] at hs
                    exact absurd hs (by simp)
                  rw [hlb]
                  rfl
              · by_cases hm1 : matchKey p1 b1 (hf k) = true
                · by_cases hz1 : zeroBit (hf k) b1 = true
                  · simp only [lookup_branch_pos hm1 hz1]
                    have hlb : lookup (node.branch p2 b2 l2 r2 s2) (hf k) k hasher =
                        none := by
                      apply lookup_eq_none_of_not_mem
                      intro hmem
                      have hs := (hsupcon (hf k) hmem).2.trans hzf
                      rw [hz1] at hs
                      exact absurd hs (by simp)
                    rw [hlb]
                    rcases hla : lookup l1 (hf k) k hasher with _ | va
                    · rfl
                    · rfl
                  · have hz1f : zeroBit (hf k) b1 = false := by simpa using hz1
                    simp only [lookup_branch_neg hm1 hz1f]
                    rw [ihres k]
                · have hm1f : matchKey p1 b1 (hf k) = false := by simpa using hm1
                  simp only [lookup_branch_not hm1f]
                  have hlb : lookup (node.branch p2 b2 l2 r2 s2) (hf k) k hasher =
                      none := by
                    apply lookup_eq_none_of_not_mem
                    intro hmem
                    have hs := (hsupcon (hf k) hmem).1
                    rw [hm1f] at hs
                    exact absurd hs (by simp)
                  rw [hlb]
                  rfl
          · rename_i hnc
            have hble : b1 ≤ b2 := Nat.le_of_not_lt hle
            have hmodne : p1 % 2 ^ lowBitIdx b1 ≠ p2 % 2 ^ lowBitIdx b1 := by
              rcases Nat.eq_or_lt_of_le hble with heq | hlt
              · intro hcc
                have hp2b1 : p2 < 2 ^ lowBitIdx b1 := by
                  rw [← hbb1, heq]
                  exact hplt2
                rw [Nat.mod_eq_of_lt hplt1h, Nat.mod_eq_of_lt hp2b1] at hcc
                exact hc1 ⟨heq, hcc⟩
              · have hnm : ¬ matchKey p1 b1 p2 = true := fun hmk => hnc ⟨hlt, hmk⟩
                intro hcc
                apply hnm
                rw [hbb1, matchKey_two_pow, ← hcc, hp1m]
            have hprep := join_support_prep hmodne
            have hj12 : lowBitIdx b1 ≤ lowBitIdx b2 := by
              have hpow : (2 : Nat) ^ lowBitIdx b1 ≤ 2 ^ lowBitIdx b2 := by
                rw [← hbb1, ← hbb2]
                omega
              exact (Nat.pow_le_pow_iff_right (by norm_num)).mp hpow
            have ht0 := branch_support_mod hia hprep.2
            have ht1 := branch_support_mod hib (le_trans hprep.2 hj12)
            have hjoin := bucketOf_join (s := (node.branch p1 b1 l1 r1 s1 : node K V))
              (t := (node.branch p2 b2 l2 r2 s2 : node K V)) hprep.1 hp164 hp264
              ht0 ht1
            rw [lookup_eq_findBucket, hjoin (hf k)]
            by_cases han : bucketOf (node.branch p1 b1 l1 r1 s1) (hf k) = []
            · rw [han, List.nil_append, ← lookup_eq_findBucket]
              have hla : lookup (node.branch p1 b1 l1 r1 s1) (hf k) k hasher =
                  none := by
                rw [lookup_eq_findBucket, han]
                rfl
              rw [hla]
              rfl
            · have hmema := mem_hashKeys_of_bucketOf_ne_nil han
              have hbn : bucketOf (node.branch p2 b2 l2 r2 s2) (hf k) = [] := by
                by_contra hc
                have hmemb := mem_hashKeys_of_bucketOf_ne_nil hc
                exact mod_branching_succ_ne hprep.1
                  ((ht0 (hf k) hmema).symm.trans (ht1 (hf k) hmemb))
              rw [hbn, List.append_nil, ← lookup_eq_findBucket]
              have hlb : lookup (node.branch p2 b2 l2 r2 s2) (hf k) k hasher =
                  none := by
                rw [lookup_eq_findBucket, hbn]
                rfl
              rw [hlb]
              rcases hla : lookup (node.branch p1 b1 l1 r1 s1) (hf k) k hasher with
                _ | va
              · rfl
              · rfl

theorem lookup_merge {hasher : Hasher K} {hf : K → Nat} (hp : HProps hasher hf)
    {f : MergeFunc V} (hv : ValidF f) {a b : node K V} (hia : Inv hasher hf a)
    (hib : Inv hasher hf b) (k : K) :
    lookup (merge a b hasher f).1 (hf k) k hasher =
      mergeOpt f (lookup a (hf k) k hasher) (lookup b (hf k) k hasher) :=
  lookup_merge_aux hp hv (sizeOf a + sizeOf b) a b le_rfl hia hib k

/-! ## merge: superset identity (amended C2) -/

theorem findBucket_self {hasher : Hasher K} {hf : K → Nat} (hp : HProps hasher hf)
    {vs : List (K × V)}
    (hd : vs.Pairwise (fun pr qr => hasher.Equal pr.1 qr.1 = false))
    {q : K × V} (hm : q ∈ vs) : findBucket hasher q.1 vs = some q.2 := by
  induction vs with
  | nil => simp at hm
  | cons pr tl ih =>
    rw [List.pairwise_cons] at hd
    rcases List.mem_cons.mp hm with h1 | h1
    · subst h1
      rw [findBucket_cons_pos (hp.refl _)]
    · have hne : hasher.Equal q.1 pr.1 = false := hp.ne_symm (hd.1 q h1)
      rw [findBucket_cons_neg hne]
      exact ih hd.2 h1

theorem pairwise_distinct_unique {hasher : Hasher K} {hf : K → Nat}
    (hp : HProps hasher hf) {vs : List (K × V)}
    (hd : vs.Pairwise (fun pr qr => hasher.Equal pr.1 qr.1 = false))
    {q q2 : K × V} (hm : q ∈ vs) (hm2 : q2 ∈ vs)
    (he : hasher.Equal q.1 q2.1 = true) : q = q2 := by
  induction vs with
  | nil => simp at hm
  | cons pr tl ih =>
    rw [List.pairwise_cons] at hd
    rcases List.mem_cons.mp hm with h1 | h1 <;> rcases List.mem_cons.mp hm2 with h2 | h2
    · rw [h1, h2]
    · subst h1
      rw [hd.1 q2 h2] at he
      exact absurd he (by simp)
    · subst h2
      rw [hp.ne_symm (hd.1 q h1)] at he
      exact absurd he (by simp)
    · exact ih hd.2 h1 h2

theorem mem_hashKeys_of_lookup_some {hasher : Hasher K} {n : node K V} {h : Nat}
    {k : K} {v : V} (hl : lookup n h k hasher = some v) : h ∈ hashKeys n := by
  apply mem_hashKeys_of_bucketOf_ne_nil
  intro hc
  rw [lookup_eq_findBucket, hc] at hl
  exact absurd hl (by simp [findBucket])

theorem lookup_entry {hasher : Hasher K} {hf : K → Nat} (hp : HProps hasher hf)
    {n : node K V} (hi : Inv hasher hf n) {q : K × V} (hm : q ∈ entries n) :
    lookup n (hf q.1) q.1 hasher = some q.2 := by
  rw [lookup_eq_findBucket]
  exact findBucket_self hp (pairwise_bucketOf hi _) (mem_bucketOf_of_mem_entries hi hm)

theorem exists_key_of_mem_hashKeys {hasher : Hasher K} {hf : K → Nat}
    {n : node K V} (hi : Inv hasher hf n) {h : Nat} (hm : h ∈ hashKeys n) :
    ∃ pr ∈ entries n, hf pr.1 = h := by
  induction n with
  | nil => simp [hashKeys] at hm
  | leaf lk vs sz =>
    obtain ⟨hvne, _, _, hvh, _⟩ := inv_leaf_iff.mp hi
    simp only [hashKeys, List.mem_singleton] at hm
    obtain ⟨pr0, hpr0⟩ := List.exists_mem_of_ne_nil vs hvne
    exact ⟨pr0, hpr0, by rw [hvh pr0 hpr0, hm]⟩
  | branch p bb l r sz ihl ihr =>
    obtain ⟨_, _, _, _, _, _, _, _, hil, hir⟩ := inv_branch_iff.mp hi
    simp only [hashKeys, List.mem_append] at hm
    rcases hm with hm | hm
    · obtain ⟨pr, hpm, hph⟩ := ihl hil hm
      exact ⟨pr, by simp [entries, hpm], hph⟩
    · obtain ⟨pr, hpm, hph⟩ := ihr hir hm
      exact ⟨pr, by simp [entries, hpm], hph⟩

theorem insertPairs_found_eq {hasher : Hasher K} {key : K} {value : V}
    {fn : MergeFunc V} {vs : List (K × V)} {w : V}
    (hf : findBucket hasher key vs = some w) (hfeq : (fn value w).2 = true) :
    insertPairs hasher key value (some fn) vs = some (vs, false) := by
  induction vs with
  | nil => simp [findBucket] at hf
  | cons pr tl ih =>
    obtain ⟨k1, v1⟩ := pr
    rw [insertPairs]
    rcases he : hasher.Equal key k1 with _ | _
    · rw [findBucket_cons_neg he] at hf
      rw [if_neg (by simp [he]), ih hf]
    · rw [findBucket_cons_pos he] at hf
      have hw : v1 = w := by simpa using hf
      subst hw
      rw [if_pos rfl]
      dsimp only
      rw [if_pos hfeq]

theorem insert_unchanged_of_lookup {hasher : Hasher K} {hash : Nat} {key : K}
    {value : V} {fn : MergeFunc V} {n : node K V} {w : V}
    (hl : lookup n hash key hasher = some w) (hfeq : (fn value w).2 = true) :
    insert n hash key value hasher (some fn) = (n, false) := by
  induction n with
  | nil => simp [lookup] at hl
  | leaf lk vs sz =>
    simp only [lookup] at hl
    by_cases hlk : lk = hash
    · rw [if_pos hlk] at hl
      have hfb : findBucket hasher key vs = some w := hl
      rw [insert, if_pos hlk, insertPairs_found_eq hfb hfeq]
      dsimp only
      rw [if_neg (by simp)]
    · rw [if_neg hlk] at hl
      exact absurd hl (by simp)
  | branch p bb l r sz ihl ihr =>
    simp only [lookup] at hl
    by_cases hm : matchKey p bb hash = true
    · rw [if_pos hm] at hl
      by_cases hz : zeroBit hash bb = true
      · rw [if_pos hz] at hl
        rw [insert, if_pos hm, if_pos hz]
        dsimp only
        rw [ihl hl]
        dsimp only
        rw [if_neg (by simp)]
      · rw [if_neg hz] at hl
        rw [insert, if_pos hm, if_neg hz]
        dsimp only
        rw [ihr hl]
        dsimp only
        rw [if_neg (by simp)]
    · rw [if_neg hm] at hl
      exact absurd hl (by simp)

/-- A hasher is collision-free on the key type when equal hashes imply
`Equal` keys; buckets are then singletons. -/
def CollisionFree (hasher : Hasher K) (hf : K → Nat) : Prop :=
  ∀ k1 k2 : K, hf k1 = hf k2 → hasher.Equal k1 k2 = true

theorem cf_leaf_singleton {hasher : Hasher K} {hf : K → Nat}
    (hcf : CollisionFree hasher hf) {lk : Nat} {vs : List (K × V)} {sz : Nat}
    (hi : Inv hasher hf (.leaf lk vs sz)) : ∃ k0 v0, vs = [(k0, v0)] := by
  obtain ⟨hvne, _, _, hvh, hvd⟩ := inv_leaf_iff.mp hi
  rcases vs with _ | ⟨pr, tl⟩
  · exact absurd rfl hvne
  · rcases tl with _ | ⟨qr, tl2⟩
    · exact ⟨pr.1, pr.2, rfl⟩
    · rw [List.pairwise_cons] at hvd
      have h1 := hvh pr (by simp)
      have h2 := hvh qr (by simp)
      have he := hcf pr.1 qr.1 (h1.trans h2.symm)
      rw [hvd.1 qr (by simp)] at he
      exact absurd he (by simp)

theorem merge_superset_aux {hasher : Hasher K} {hf : K → Nat} (hp : HProps hasher hf)
    {f : MergeFunc V} (hv : ValidF f) (hcf : CollisionFree hasher hf) :
    ∀ (N : Nat) (a b : node K V), sizeOf a + sizeOf b ≤ N →
      Inv hasher hf a → Inv hasher hf b →
      (∀ k : K, lookup b (hf k) k hasher = none ∨
        lookup b (hf k) k hasher = lookup a (hf k) k hasher) →
      (merge a b hasher f).1 = a := by
  intro N
  induction N using Nat.strong_induction_on with
  | _ N ih =>
  intro a b hN hia hib hsub
  by_cases hab : a = b
  · subst hab
    rw [merge_self]
  by_cases hb : b = .nil
  · subst hb
    have ha : a ≠ .nil := hab
    rw [merge_nil_right ha]
  cases a with
  | nil =>
    exfalso
    obtain ⟨h, hm⟩ := exists_mem_hashKeys hib hb
    obtain ⟨pr, hpm, hph⟩ := exists_key_of_mem_hashKeys hib hm
    have hlb := lookup_entry hp hib hpm
    rcases hsub pr.1 with hx | hx
    · rw [hlb] at hx
      exact absurd hx (by simp)
    · rw [hlb] at hx
      exact absurd hx.symm (by simp [lookup])
  | leaf lk vs sz =>
    obtain ⟨k0, v0, hvs⟩ := cf_leaf_singleton hcf hia
    subst hvs
    have hbkeys : ∀ h ∈ hashKeys b, h = lk := by
      intro h hm
      obtain ⟨pr, hpm, hph⟩ := exists_key_of_mem_hashKeys hib hm
      have hlb := lookup_entry hp hib hpm
      rcases hsub pr.1 with hx | hx
      · rw [hlb] at hx
        exact absurd hx (by simp)
      · rw [hlb] at hx
        have hmem := mem_hashKeys_of_lookup_some hx.symm
        have hpl : hf pr.1 = lk := by simpa [hashKeys] using hmem
        rw [← hph, hpl]
    cases b with
    | nil => exact absurd rfl hb
    | branch p2 b2 l2 r2 s2 =>
      exfalso
      obtain ⟨_, _, _, hln2, hrn2, hsl2, hsr2, _, hil2, hir2⟩ := inv_branch_iff.mp hib
      obtain ⟨h1, hm1⟩ := exists_mem_hashKeys hil2 hln2
      obtain ⟨h2, hm2⟩ := exists_mem_hashKeys hir2 hrn2
      have e1 : h1 = lk := hbkeys h1 (by simp [hashKeys, hm1])
      have e2 : h2 = lk := hbkeys h2 (by simp [hashKeys, hm2])
      have hz1 := (hsl2 h1 hm1).2
      have hz2 := (hsr2 h2 hm2).2
      rw [e1] at hz1
      rw [e2] at hz2
      rw [hz1] at hz2
      exact absurd hz2 (by simp)
    | leaf olk ovs osz =>
      obtain ⟨q0, w0, hovs⟩ := cf_leaf_singleton hcf hib
      subst hovs
      have holk : olk = lk := hbkeys olk (by simp [hashKeys])
      subst holk
      have hoh := (inv_leaf_iff.mp hib).2.2.2.1
      have hq0 : hf q0 = olk := hoh (q0, w0) (by simp)
      have hlb : lookup (node.leaf olk [(q0, w0)] osz) (hf q0) q0 hasher =
          some w0 := lookup_entry (q := (q0, w0)) hp hib (by simp [entries])
      rcases hsub q0 with hx | hx
      · rw [hlb] at hx
        exact absurd hx (by simp)
      · rw [hlb] at hx
        have hla := hx.symm
        rw [hq0, lookup_eq_findBucket, bucketOf_leaf_self] at hla
        have hx2 : hasher.Equal q0 k0 = true ∧ v0 = w0 := by
          rcases hy : hasher.Equal q0 k0 with _ | _
          · rw [findBucket_cons_neg hy] at hla
            exact absurd hla (by simp [findBucket])
          · rw [findBucket_cons_pos hy] at hla
            exact ⟨rfl, by simpa using hla⟩
        have hlkk : lookup (node.leaf olk [(q0, w0)] osz) olk k0 hasher =
            some w0 := by
          rw [lookup_eq_findBucket, bucketOf_leaf_self]
          exact findBucket_cons_pos (hp.symm _ _ hx2.1)
        have hfeq : (f v0 w0).2 = true := by
          rw [← hx2.2, hv.idem]
        have hins := insert_unchanged_of_lookup hlkk hfeq
        rw [merge_leaf_left hab hb]
        simp [mergeLeafStep, mergeLeafFold, hins]
  | branch p1 b1 l1 r1 s1 =>
    cases b with
    | nil => exact absurd rfl hb
    | leaf olk ovs osz =>
      obtain ⟨q0, w0, hovs⟩ := cf_leaf_singleton hcf hib
      subst hovs
      have hoh := (inv_leaf_iff.mp hib).2.2.2.1
      have hq0 : hf q0 = olk := hoh (q0, w0) (by simp)
      have hlb : lookup (node.leaf olk [(q0, w0)] osz) (hf q0) q0 hasher =
          some w0 := lookup_entry (q := (q0, w0)) hp hib (by simp [entries])
      rcases hsub q0 with hx | hx
      · rw [hlb] at hx
        exact absurd hx (by simp)
      · rw [hlb] at hx
        have hla := hx.symm
        rw [hq0] at hla
        have hfeq : (f w0 w0).2 = true := by rw [hv.idem]
        have hins := insert_unchanged_of_lookup hla hfeq
        rw [merge_leaf_right]
        simp [mergeLeafStep, mergeLeafFold, hins]
    | branch p2 b2 l2 r2 s2 =>
      obtain ⟨hbb1, hib1, hplt1, hln1, hrn1, hsl1, hsr1, hszb1, hil1, hir1⟩ :=
        inv_branch_iff.mp hia
      obtain ⟨hbb2, hib2, hplt2, hln2, hrn2, hsl2, hsr2, hszb2, hil2, hir2⟩ :=
        inv_branch_iff.mp hib
      have hplt1h : p1 < 2 ^ lowBitIdx b1 := by
        rw [← hbb1]
        exact hplt1
      have hplt2h : p2 < 2 ^ lowBitIdx b2 := by
        rw [← hbb2]
        exact hplt2
      have hkey : ∀ h ∈ hashKeys (node.branch p2 b2 l2 r2 s2 : node K V),
          h ∈ hashKeys (node.branch p1 b1 l1 r1 s1 : node K V) := by
        intro h hm
        obtain ⟨pr, hpm, hph⟩ := exists_key_of_mem_hashKeys hib hm
        have hlb := lookup_entry hp hib hpm
        rcases hsub pr.1 with hx | hx
        · rw [hlb] at hx
          exact absurd hx (by simp)
        · rw [hlb] at hx
          have hmem := mem_hashKeys_of_lookup_some hx.symm
          rw [hph] at hmem
          exact hmem
      by_cases hc1 : b1 = b2 ∧ p1 = p2
      · obtain ⟨hbeq, hpeq⟩ := hc1
        subst hbeq
        subst hpeq
        have hsubl : ∀ k : K, lookup l2 (hf k) k hasher = none ∨
            lookup l2 (hf k) k hasher = lookup l1 (hf k) k hasher := by
          intro k
          rcases hlb : lookup l2 (hf k) k hasher with _ | v
          · exact Or.inl rfl
          · right
            have hmem2 := mem_hashKeys_of_lookup_some hlb
            have e1 : lookup (node.branch p1 b1 l2 r2 s2) (hf k) k hasher =
                lookup l2 (hf k) k hasher :=
              lookup_branch_pos (hsl2 _ hmem2).1 (hsl2 _ hmem2).2
            have e2 : lookup (node.branch p1 b1 l1 r1 s1) (hf k) k hasher =
                lookup l1 (hf k) k hasher :=
              lookup_branch_pos (hsl2 _ hmem2).1 (hsl2 _ hmem2).2
            rcases hsub k with hx | hx
            · rw [e1, hlb] at hx
              exact absurd hx (by simp)
            · rw [e1, e2, hlb] at hx
              exact hx
        have hsubr : ∀ k : K, lookup r2 (hf k) k hasher = none ∨
            lookup r2 (hf k) k hasher = lookup r1 (hf k) k hasher := by
          intro k
          rcases hlb : lookup r2 (hf k) k hasher with _ | v
          · exact Or.inl rfl
          · right
            have hmem2 := mem_hashKeys_of_lookup_some hlb
            have e1 : lookup (node.branch p1 b1 l2 r2 s2) (hf k) k hasher =
                lookup r2 (hf k) k hasher :=
              lookup_branch_neg (hsr2 _ hmem2).1 (hsr2 _ hmem2).2
            have e2 : lookup (node.branch p1 b1 l1 r1 s1) (hf k) k hasher =
                lookup r1 (hf k) k hasher :=
              lookup_branch_neg (hsr2 _ hmem2).1 (hsr2 _ hmem2).2
            rcases hsub k with hx | hx
            · rw [e1, hlb] at hx
              exact absurd hx (by simp)
            · rw [e1, e2, hlb] at hx
              exact hx
        have hl := ih (sizeOf l1 + sizeOf l2)
          (by simp only [node.branch.sizeOf_spec] at hN; omega)
          l1 l2 le_rfl hil1 hil2 hsubl
        have hr := ih (sizeOf r1 + sizeOf r2)
          (by simp only [node.branch.sizeOf_spec] at hN; omega)
          r1 r2 le_rfl hir1 hir2 hsubr
        rw [merge_branch hab, if_pos ⟨rfl, rfl⟩]
        dsimp only
        split
        · rfl
        · rw [if_pos (by simp [hl, hr])]
      · obtain ⟨h1, hm1⟩ := exists_mem_hashKeys hil2 hln2
        obtain ⟨h2, hm2⟩ := exists_mem_hashKeys hir2 hrn2
        have hm1b : h1 ∈ hashKeys (node.branch p2 b2 l2 r2 s2 : node K V) := by
          simp [hashKeys, hm1]
        have hm2b : h2 ∈ hashKeys (node.branch p2 b2 l2 r2 s2 : node K V) := by
          simp [hashKeys, hm2]
        have hm1a := hkey h1 hm1b
        have hm2a := hkey h2 hm2b
        have ht1 : Nat.testBit h1 (lowBitIdx b2) = false := by
          have hz1 := (hsl2 h1 hm1).2
          rw [hbb2, zeroBit_two_pow] at hz1
          simpa using hz1
        have ht2 : Nat.testBit h2 (lowBitIdx b2) = true := by
          have hz2 := (hsr2 h2 hm2).2
          rw [hbb2, zeroBit_two_pow] at hz2
          simpa using hz2
        have hjle : lowBitIdx b1 ≤ lowBitIdx b2 := by
          by_contra hgt
          push_neg at hgt
          have e1 := hashKeys_branch_mod hia h1 hm1a
          have e2 := hashKeys_branch_mod hia h2 hm2a
          have h12 : Nat.testBit h1 (lowBitIdx b2) =
              Nat.testBit h2 (lowBitIdx b2) := by
            have hmm : h1 % 2 ^ lowBitIdx b1 = h2 % 2 ^ lowBitIdx b1 := by
              rw [e1, e2]
            exact mod_two_pow_eq_iff.mp hmm _ hgt
          rw [ht1, ht2] at h12
          exact absurd h12 (by simp)
        have hmatch : matchKey p1 b1 p2 = true := by
          rw [hbb1, matchKey_two_pow]
          have e1 := hashKeys_branch_mod hia h1 hm1a
          have e2 := hashKeys_branch_mod hib h1 hm1b
          calc p2 % 2 ^ lowBitIdx b1
              = h1 % 2 ^ lowBitIdx b2 % 2 ^ lowBitIdx b1 := by rw [e2]
            _ = h1 % 2 ^ lowBitIdx b1 :=
              Nat.mod_mod_of_dvd _ (pow_dvd_pow 2 hjle)
            _ = p1 := e1
        have hj12 : lowBitIdx b1 < lowBitIdx b2 := by
          rcases Nat.lt_or_ge (lowBitIdx b1) (lowBitIdx b2) with h | h
          · exact h
          · exfalso
            have hje : lowBitIdx b1 = lowBitIdx b2 := le_antisymm hjle h
            have hbe : b1 = b2 := by rw [hbb1, hbb2, hje]
            have hpe : p1 = p2 := by
              have hmm := hmatch
              rw [hbb1, matchKey_two_pow] at hmm
              rw [← hmm]
              exact Nat.mod_eq_of_lt (by rw [hje]; exact hplt2h)
            exact hc1 ⟨hbe, hpe⟩
        have hblt : b1 < b2 := by
          rw [hbb1, hbb2]
          exact (Nat.pow_lt_pow_iff_right (by norm_num)).mpr hj12
        have hbbit : ∀ h ∈ hashKeys (node.branch p2 b2 l2 r2 s2 : node K V),
            Nat.testBit h (lowBitIdx b1) = Nat.testBit p2 (lowBitIdx b1) := by
          intro h hm
          have e2 := hashKeys_branch_mod hib h hm
          have hmm : h % 2 ^ lowBitIdx b2 = p2 % 2 ^ lowBitIdx b2 := by
            rw [e2, Nat.mod_eq_of_lt hplt2h]
          exact mod_two_pow_eq_iff.mp hmm _ hj12
        rw [merge_branch hab, if_neg hc1, if_neg (by omega : ¬ b1 > b2),
          if_pos ⟨hblt, hmatch⟩]
        rcases hzp : zeroBit p2 b1 with _ | _
        · rw [if_neg (by simp)]
          dsimp only
          have hsubr2 : ∀ k : K,
              lookup (node.branch p2 b2 l2 r2 s2) (hf k) k hasher = none ∨
              lookup (node.branch p2 b2 l2 r2 s2) (hf k) k hasher =
                lookup r1 (hf k) k hasher := by
            intro k
            rcases hlb : lookup (node.branch p2 b2 l2 r2 s2) (hf k) k hasher with
              _ | v
            · exact Or.inl rfl
            · right
              have hmemb := mem_hashKeys_of_lookup_some hlb
              have hmema := hkey _ hmemb
              have hmk : matchKey p1 b1 (hf k) = true :=
                hashKeys_branch_match hia _ hmema
              have hzk : zeroBit (hf k) b1 = false := by
                have hzz := hzp
                rw [hbb1, zeroBit_two_pow] at hzz ⊢
                rw [hbbit _ hmemb]
                exact hzz
              have hla : lookup (node.branch p1 b1 l1 r1 s1) (hf k) k hasher =
                  lookup r1 (hf k) k hasher := lookup_branch_neg hmk hzk
              rcases hsub k with hx | hx
              · rw [hlb] at hx
                exact absurd hx (by simp)
              · rw [← hla, ← hx, hlb]
          have hres := ih (sizeOf r1 + sizeOf (node.branch p2 b2 l2 r2 s2))
            (by simp only [node.branch.sizeOf_spec] at hN ⊢; omega)
            r1 (node.branch p2 b2 l2 r2 s2) le_rfl hir1 hib hsubr2
          rw [hres, if_pos rfl]
        · rw [if_pos rfl]
          dsimp only
          have hsubl2 : ∀ k : K,
              lookup (node.branch p2 b2 l2 r2 s2) (hf k) k hasher = none ∨
              lookup (node.branch p2 b2 l2 r2 s2) (hf k) k hasher =
                lookup l1 (hf k) k hasher := by
            intro k
            rcases hlb : lookup (node.branch p2 b2 l2 r2 s2) (hf k) k hasher with
              _ | v
            · exact Or.inl rfl
            · right
              have hmemb := mem_hashKeys_of_lookup_some hlb
              have hmema := hkey _ hmemb
              have hmk : matchKey p1 b1 (hf k) = true :=
                hashKeys_branch_match hia _ hmema
              have hzk : zeroBit (hf k) b1 = true := by
                have hzz := hzp
                rw [hbb1, zeroBit_two_pow] at hzz ⊢
                rw [hbbit _ hmemb]
                exact hzz
              have hla : lookup (node.branch p1 b1 l1 r1 s1) (hf k) k hasher =
                  lookup l1 (hf k) k hasher := lookup_branch_pos hmk hzk
              rcases hsub k with hx | hx
              · rw [hlb] at hx
                exact absurd hx (by simp)
              · rw [← hla, ← hx, hlb]
          have hres := ih (sizeOf l1 + sizeOf (node.branch p2 b2 l2 r2 s2))
            (by simp only [node.branch.sizeOf_spec] at hN ⊢; omega)
            l1 (node.branch p2 b2 l2 r2 s2) le_rfl hil1 hib hsubl2
          rw [hres, if_pos rfl]

theorem merge_superset {hasher : Hasher K} {hf : K → Nat} (hp : HProps hasher hf)
    {f : MergeFunc V} (hv : ValidF f) (hcf : CollisionFree hasher hf)
    {a b : node K V} (hia : Inv hasher hf a) (hib : Inv hasher hf b)
    (hsub : ∀ k : K, lookup b (hf k) k hasher = none ∨
      lookup b (hf k) k hasher = lookup a (hf k) k hasher) :
    (merge a b hasher f).1 = a :=
  merge_superset_aux hp hv hcf (sizeOf a + sizeOf b) a b le_rfl hia hib hsub

/-! ## equal: leaf characterization (C7) and canonicity -/

theorem equal_leaf_iff {hasher : Hasher K} {hf : K → Nat} (hp : HProps hasher hf)
    {feq : V → V → Bool} (hfr : ∀ v, feq v v = true)
    {alk : Nat} {avs : List (K × V)} {asz : Nat}
    {blk : Nat} {bvs : List (K × V)} {bsz : Nat}
    (hia : Inv hasher hf (.leaf alk avs asz)) (hib : Inv hasher hf (.leaf blk bvs bsz)) :
    equal (.leaf alk avs asz) (.leaf blk bvs bsz) hasher feq = true ↔
      (alk = blk ∧ avs.length = bvs.length ∧
        ∀ ap ∈ avs, ∃ bp ∈ bvs,
          hasher.Equal ap.1 bp.1 = true ∧ feq ap.2 bp.2 = true) := by
  by_cases hab : (.leaf alk avs asz : node K V) = .leaf blk bvs bsz
  · obtain ⟨h1, h2, h3⟩ : alk = blk ∧ avs = bvs ∧ asz = bsz := by simpa using hab
    subst h1
    subst h2
    subst h3
    constructor
    · intro _
      refine ⟨rfl, rfl, ?_⟩
      intro ap hap
      exact ⟨ap, hap, hp.refl _, hfr _⟩
    · intro _
      rw [equal, if_pos rfl]
  · rw [equal, if_neg hab]
    simp only [Bool.and_eq_true, beq_iff_eq, List.all_eq_true]
    constructor
    · rintro ⟨hlen, hall⟩
      have hcov : ∀ ap ∈ avs, ∃ bp ∈ bvs,
          hasher.Equal ap.1 bp.1 = true ∧ feq ap.2 bp.2 = true := by
        intro ap hap
        have hbody := hall ap hap
        rcases hfind : bvs.find? (fun bp => hasher.Equal ap.1 bp.1) with _ | bp
        · rw [hfind] at hbody
          simp at hbody
        · rw [hfind] at hbody
          exact ⟨bp, List.mem_of_find?_eq_some hfind,
            by simpa using List.find?_some hfind, hbody⟩
      refine ⟨?_, hlen, hcov⟩
      obtain ⟨hane, _, _, hah, _⟩ := inv_leaf_iff.mp hia
      obtain ⟨_, _, _, hbh, _⟩ := inv_leaf_iff.mp hib
      obtain ⟨ap0, hap0⟩ := List.exists_mem_of_ne_nil avs hane
      obtain ⟨bp0, hbm, hbe, _⟩ := hcov ap0 hap0
      rw [← hah ap0 hap0, ← hbh bp0 hbm]
      exact hp.congr _ _ hbe
    · rintro ⟨hlk, hlen, hcov⟩
      refine ⟨hlen, ?_⟩
      intro ap hap
      obtain ⟨bp, hbm, hbe, hbf⟩ := hcov ap hap
      obtain ⟨_, _, _, _, hbd⟩ := inv_leaf_iff.mp hib
      rcases hfind : bvs.find? (fun bp => hasher.Equal ap.1 bp.1) with _ | bp2
      · rw [List.find?_eq_none] at hfind
        exact absurd hbe (by simpa using hfind bp hbm)
      · rw [hfind]
        have hbp2 : bp2 = bp :=
          pairwise_distinct_unique hp hbd (List.mem_of_find?_eq_some hfind) hbm
            (hp.trans _ _ _ (hp.symm _ _ (by simpa using List.find?_some hfind)) hbe)
        rw [hbp2]
        exact hbf

theorem bucketOf_ne_nil_of_mem {hasher : Hasher K} {hf : K → Nat} {n : node K V}
    (hi : Inv hasher hf n) {h : Nat} (hm : h ∈ hashKeys n) :
    bucketOf n h ≠ [] := by
  obtain ⟨pr, hpm, hph⟩ := exists_key_of_mem_hashKeys hi hm
  have hmem := mem_bucketOf_of_mem_entries hi hpm
  rw [hph] at hmem
  exact List.ne_nil_of_mem hmem

/-- Patricia canonicity: two invariant-respecting trees whose buckets agree
up to permutation at every hash are reported equal by `equal`. -/
theorem equal_of_bucket_perm {hasher : Hasher K} {hf : K → Nat}
    (hp : HProps hasher hf) {feq : V → V → Bool} (hfr : ∀ v, feq v v = true) :
    ∀ (t1 t2 : node K V), Inv hasher hf t1 → Inv hasher hf t2 →
      (∀ h, (bucketOf t1 h).Perm (bucketOf t2 h)) →
      equal t1 t2 hasher feq = true := by
  intro t1
  induction t1 with
  | nil =>
    intro t2 hi1 hi2 hperm
    by_cases ht2 : t2 = .nil
    · subst ht2
      rfl
    · exfalso
      obtain ⟨h, hm⟩ := exists_mem_hashKeys hi2 ht2
      have hne := bucketOf_ne_nil_of_mem hi2 hm
      have hp2 : (bucketOf t2 h).Perm [] := (hperm h).symm
      exact hne hp2.eq_nil
  | leaf lk vs sz =>
    intro t2 hi1 hi2 hperm
    have hsup : ∀ h ∈ hashKeys t2, h = lk := by
      intro h hm
      have hne := bucketOf_ne_nil_of_mem hi2 hm
      by_contra hlk
      have hpn := hperm h
      rw [bucketOf_leaf_ne (fun hc => hlk hc.symm)] at hpn
      exact hne hpn.symm.eq_nil
    cases t2 with
    | nil =>
      exfalso
      obtain ⟨hvne, _⟩ := inv_leaf_iff.mp hi1
      have hpn := hperm lk
      rw [bucketOf_leaf_self] at hpn
      exact hvne hpn.eq_nil
    | branch p2 bb2 l2 r2 sz2 =>
      exfalso
      obtain ⟨_, _, _, hln2, hrn2, hsl2, hsr2, _, hil2, hir2⟩ := inv_branch_iff.mp hi2
      obtain ⟨h1, hm1⟩ := exists_mem_hashKeys hil2 hln2
      obtain ⟨h2, hm2⟩ := exists_mem_hashKeys hir2 hrn2
      have e1 : h1 = lk := hsup h1 (by simp [hashKeys, hm1])
      have e2 : h2 = lk := hsup h2 (by simp [hashKeys, hm2])
      have hz1 := (hsl2 h1 hm1).2
      have hz2 := (hsr2 h2 hm2).2
      rw [e1] at hz1
      rw [e2] at hz2
      rw [hz1] at hz2
      exact absurd hz2 (by simp)
    | leaf olk ovs osz =>
      have holk : olk = lk := hsup olk (by simp [hashKeys])
      subst holk
      have hpvs := hperm olk
      rw [bucketOf_leaf_self, bucketOf_leaf_self] at hpvs
      refine (equal_leaf_iff hp hfr hi1 hi2).mpr ⟨rfl, hpvs.length_eq, ?_⟩
      intro ap hap
      exact ⟨ap, hpvs.mem_iff.mp hap, hp.refl _, hfr _⟩
  | branch p bb l r sz ihl ihr =>
    intro t2 hi1 hi2 hperm
    obtain ⟨hbb, hib', hplt, hln, hrn, hsl, hsr, hszb, hil, hir⟩ :=
      inv_branch_iff.mp hi1
    have hplth : p < 2 ^ lowBitIdx bb := by
      rw [← hbb]
      exact hplt
    have hsupp12 : ∀ h, h ∈ hashKeys (node.branch p bb l r sz : node K V) →
        h ∈ hashKeys t2 := by
      intro h hm
      have hne := bucketOf_ne_nil_of_mem hi1 hm
      apply mem_hashKeys_of_bucketOf_ne_nil
      intro hc
      have hpn := hperm h
      rw [hc] at hpn
      exact hne hpn.eq_nil
    have hsupp21 : ∀ h, h ∈ hashKeys t2 →
        h ∈ hashKeys (node.branch p bb l r sz : node K V) := by
      intro h hm
      have hne := bucketOf_ne_nil_of_mem hi2 hm
      apply mem_hashKeys_of_bucketOf_ne_nil
      intro hc
      have hpn := hperm h
      rw [hc] at hpn
      exact hne hpn.symm.eq_nil
    obtain ⟨h1l, hm1l⟩ := exists_mem_hashKeys hil hln
    obtain ⟨h1r, hm1r⟩ := exists_mem_hashKeys hir hrn
    have hm1lb : h1l ∈ hashKeys (node.branch p bb l r sz : node K V) := by
      simp [hashKeys, hm1l]
    have hm1rb : h1r ∈ hashKeys (node.branch p bb l r sz : node K V) := by
      simp [hashKeys, hm1r]
    have ht1l : Nat.testBit h1l (lowBitIdx bb) = false := by
      have hz := (hsl h1l hm1l).2
      rw [hbb, zeroBit_two_pow] at hz
      simpa using hz
    have ht1r : Nat.testBit h1r (lowBitIdx bb) = true := by
      have hz := (hsr h1r hm1r).2
      rw [hbb, zeroBit_two_pow] at hz
      simpa using hz
    cases t2 with
    | nil =>
      exfalso
      have := hsupp12 h1l hm1lb
      simp [hashKeys] at this
    | leaf olk ovs osz =>
      exfalso
      have e1 : h1l = olk := by
        have := hsupp12 h1l hm1lb
        simpa [hashKeys] using this
      have e2 : h1r = olk := by
        have := hsupp12 h1r hm1rb
        simpa [hashKeys] using this
      rw [e1] at ht1l
      rw [e2] at ht1r
      rw [ht1l] at ht1r
      exact absurd ht1r (by simp)
    | branch p2 bb2 l2 r2 sz2 =>
      obtain ⟨hbb2, hib2, hplt2, hln2, hrn2, hsl2, hsr2, hszb2, hil2, hir2⟩ :=
        inv_branch_iff.mp hi2
      have hplt2h : p2 < 2 ^ lowBitIdx bb2 := by
        rw [← hbb2]
        exact hplt2
      obtain ⟨h2l, hm2l⟩ := exists_mem_hashKeys hil2 hln2
      obtain ⟨h2r, hm2r⟩ := exists_mem_hashKeys hir2 hrn2
      have hm2lb : h2l ∈ hashKeys (node.branch p2 bb2 l2 r2 sz2 : node K V) := by
        simp [hashKeys, hm2l]
      have hm2rb : h2r ∈ hashKeys (node.branch p2 bb2 l2 r2 sz2 : node K V) := by
        simp [hashKeys, hm2r]
      have ht2l : Nat.testBit h2l (lowBitIdx bb2) = false := by
        have hz := (hsl2 h2l hm2l).2
        rw [hbb2, zeroBit_two_pow] at hz
        simpa using hz
      have ht2r : Nat.testBit h2r (lowBitIdx bb2) = true := by
        have hz := (hsr2 h2r hm2r).2
        rw [hbb2, zeroBit_two_pow] at hz
        simpa using hz
      have hjle1 : lowBitIdx bb ≤ lowBitIdx bb2 := by
        by_contra hgt
        push_neg at hgt
        have e1 := hashKeys_branch_mod hi1 h2l (hsupp21 h2l hm2lb)
        have e2 := hashKeys_branch_mod hi1 h2r (hsupp21 h2r hm2rb)
        have h12 : Nat.testBit h2l (lowBitIdx bb2) =
            Nat.testBit h2r (lowBitIdx bb2) := by
          have hmm : h2l % 2 ^ lowBitIdx bb = h2r % 2 ^ lowBitIdx bb := by
            rw [e1, e2]
          exact mod_two_pow_eq_iff.mp hmm _ hgt
        rw [ht2l, ht2r] at h12
        exact absurd h12 (by simp)
      have hjle2 : lowBitIdx bb2 ≤ lowBitIdx bb := by
        by_contra hgt
        push_neg at hgt
        have e1 := hashKeys_branch_mod hi2 h1l (hsupp12 h1l hm1lb)
        have e2 := hashKeys_branch_mod hi2 h1r (hsupp12 h1r hm1rb)
        have h12 : Nat.testBit h1l (lowBitIdx bb) =
            Nat.testBit h1r (lowBitIdx bb) := by
          have hmm : h1l % 2 ^ lowBitIdx bb2 = h1r % 2 ^ lowBitIdx bb2 := by
            rw [e1, e2]
          exact mod_two_pow_eq_iff.mp hmm _ hgt
        rw [ht1l, ht1r] at h12
        exact absurd h12 (by simp)
      have hje : lowBitIdx bb2 = lowBitIdx bb := le_antisymm hjle2 hjle1
      have hbbeq : bb = bb2 := by rw [hbb, hbb2, hje]
      have hpeq : p = p2 := by
        have e1 := hashKeys_branch_mod hi1 h1l hm1lb
        have e2 := hashKeys_branch_mod hi2 h1l (hsupp12 h1l hm1lb)
        rw [hje] at e2
        rw [← e1, e2]
      subst hbbeq
      subst hpeq
      have hpl : ∀ h, (bucketOf l h).Perm (bucketOf l2 h) := by
        intro h
        by_cases hcond : matchKey p bb h = true ∧ zeroBit h bb = true
        · have e1 : bucketOf (.branch p bb l r sz) h = bucketOf l h :=
            bucketOf_branch_left hcond.1 hcond.2
          have e2 : bucketOf (.branch p bb l2 r2 sz2) h = bucketOf l2 h :=
            bucketOf_branch_left hcond.1 hcond.2
          rw [← e1, ← e2]
          exact hperm h
        · have e1 : bucketOf l h = [] := by
            by_contra hc
            have hm := mem_hashKeys_of_bucketOf_ne_nil hc
            exact hcond ⟨(hsl h hm).1, (hsl h hm).2⟩
          have e2 : bucketOf l2 h = [] := by
            by_contra hc
            have hm := mem_hashKeys_of_bucketOf_ne_nil hc
            exact hcond ⟨(hsl2 h hm).1, (hsl2 h hm).2⟩
          rw [e1, e2]
      have hpr : ∀ h, (bucketOf r h).Perm (bucketOf r2 h) := by
        intro h
        by_cases hcond : matchKey p bb h = true ∧ zeroBit h bb = false
        · have e1 : bucketOf (.branch p bb l r sz) h = bucketOf r h :=
            bucketOf_branch_right hcond.1 hcond.2
          have e2 : bucketOf (.branch p bb l2 r2 sz2) h = bucketOf r2 h :=
            bucketOf_branch_right hcond.1 hcond.2
          rw [← e1, ← e2]
          exact hperm h
        · have e1 : bucketOf r h = [] := by
            by_contra hc
            have hm := mem_hashKeys_of_bucketOf_ne_nil hc
            exact hcond ⟨(hsr h hm).1, (hsr h hm).2⟩
          have e2 : bucketOf r2 h = [] := by
            by_contra hc
            have hm := mem_hashKeys_of_bucketOf_ne_nil hc
            exact hcond ⟨(hsr2 h hm).1, (hsr2 h hm).2⟩
          rw [e1, e2]
      by_cases hab : (node.branch p bb l r sz : node K V) = node.branch p bb l2 r2 sz2
      · rw [equal, if_pos hab]
      · rw [equal, if_neg hab]
        rw [ihl l2 hil hil2 hpl, ihr r2 hir hir2 hpr]
        simp

/-! ## Order-insensitivity of insertion (C9) -/

theorem insertPairs_eq_none {hasher : Hasher K} {key : K} {value : V}
    {f : Option (MergeFunc V)} {vs : List (K × V)}
    (h : ∀ q ∈ vs, hasher.Equal key q.1 = false) :
    insertPairs hasher key value f vs = none := by
  induction vs with
  | nil => rfl
  | cons q tl ih =>
    obtain ⟨k1, v1⟩ := q
    have hk1 : hasher.Equal key k1 = false := h (k1, v1) (by simp)
    rw [insertPairs.eq_def]
    dsimp only
    rw [if_neg (by simp [hk1]), ih (fun q hq => h q (by simp [hq]))]

/-- Fold a list of bindings into a node with plain (merge-function-free)
inserts, hashing keys with `hf`. -/
def foldIns (hasher : Hasher K) (hf : K → Nat) : List (K × V) → node K V → node K V
  | [], t => t
  | pr :: rest, t =>
    foldIns hasher hf rest (insert t (hf pr.1) pr.1 pr.2 hasher none).1

theorem bucketOf_foldIns {hasher : Hasher K} {hf : K → Nat} (hp : HProps hasher hf) :
    ∀ (l : List (K × V)) (t : node K V), Inv hasher hf t →
      l.Pairwise (fun pr qr => hasher.Equal pr.1 qr.1 = false) →
      (∀ pr ∈ l, ∀ q ∈ bucketOf t (hf pr.1), hasher.Equal pr.1 q.1 = false) →
      Inv hasher hf (foldIns hasher hf l t) ∧
        ∀ h, bucketOf (foldIns hasher hf l t) h =
          bucketOf t h ++ l.filter (fun pr => hf pr.1 == h) := by
  intro l
  induction l with
  | nil =>
    intro t hi _ _
    exact ⟨hi, fun h => by simp [foldIns]⟩
  | cons pr rest ih =>
    intro t hi hd hdisj
    rw [List.pairwise_cons] at hd
    have hip : insertPairs hasher pr.1 pr.2 (none : Option (MergeFunc V))
        (bucketOf t (hf pr.1)) = none :=
      insertPairs_eq_none (hdisj pr (by simp))
    have hstep : ∀ h, bucketOf (insert t (hf pr.1) pr.1 pr.2 hasher none).1 h =
        if h = hf pr.1 then bucketOf t (hf pr.1) ++ [(pr.1, pr.2)]
        else bucketOf t h := by
      intro h
      rw [bucketOf_insert hi (hp.lt pr.1) h]
      by_cases hh : h = hf pr.1
      · rw [if_pos hh, if_pos hh, bucketIns_of_ip_none hip]
      · rw [if_neg hh, if_neg hh]
    have hinv1 : Inv hasher hf (insert t (hf pr.1) pr.1 pr.2 hasher none).1 :=
      inv_insert hp hi rfl
    have hdisj2 : ∀ qr ∈ rest,
        ∀ q ∈ bucketOf (insert t (hf pr.1) pr.1 pr.2 hasher none).1 (hf qr.1),
          hasher.Equal qr.1 q.1 = false := by
      intro qr hq q hqmem
      rw [hstep (hf qr.1)] at hqmem
      by_cases hh : hf qr.1 = hf pr.1
      · rw [if_pos hh] at hqmem
        rcases List.mem_append.mp hqmem with hmem | hmem
        · exact hdisj qr (by simp [hq]) q (by rw [hh]; exact hmem)
        · have hq1 : q = (pr.1, pr.2) := by simpa using hmem
          rw [hq1]
          exact hp.ne_symm (hd.1 qr hq)
      · rw [if_neg hh] at hqmem
        exact hdisj qr (by simp [hq]) q hqmem
    obtain ⟨hinv2, hbuck⟩ :=
      ih (insert t (hf pr.1) pr.1 pr.2 hasher none).1 hinv1 hd.2 hdisj2
    constructor
    · rw [foldIns]
      exact hinv2
    · intro h
      rw [foldIns, hbuck h, hstep h, List.filter_cons]
      by_cases hh : h = hf pr.1
      · rw [if_pos hh]
        subst hh
        simp
      · rw [if_neg hh]
        have hbeq : (hf pr.1 == h) = false :=
          beq_eq_false_iff_ne.mpr (fun hc => hh hc.symm)
        simp [hbeq]

/-- Fold a list of bindings into a tree with `Tree.Insert`. -/
def insertAll (t : Tree K V) (l : List (K × V)) : Tree K V :=
  l.foldl (fun t pr => t.Insert pr.1 pr.2) t

theorem insertAll_spec : ∀ (l : List (K × V)) (t : Tree K V),
    (insertAll t l).hasher = t.hasher ∧
      (insertAll t l).root = foldIns t.hasher (hfOf t.hasher) l t.root := by
  intro l
  induction l with
  | nil => intro t; exact ⟨rfl, rfl⟩
  | cons pr rest ih =>
    intro t
    obtain ⟨h1, h2⟩ := ih (t.Insert pr.1 pr.2)
    exact ⟨h1, h2⟩

theorem insertAll_equal_of_perm {hasher : Hasher K} (ho : HasherOK hasher)
    {feq : V → V → Bool} (hfr : ∀ v, feq v v = true)
    {l1 l2 : List (K × V)}
    (hd : l1.Pairwise (fun pr qr => hasher.Equal pr.1 qr.1 = false))
    (hperm : l1.Perm l2) :
    Tree.Equal (insertAll (New hasher) l1) (insertAll (New hasher) l2) feq =
      true := by
  have hp := ho.hprops
  have hd2 := (hperm.pairwise_iff (fun hh => hp.ne_symm hh)).mp hd
  obtain ⟨hh1, hr1⟩ := insertAll_spec l1 (New hasher)
  obtain ⟨hh2, hr2⟩ := insertAll_spec l2 (New hasher)
  obtain ⟨hinv1, hb1⟩ := bucketOf_foldIns hp l1 .nil inv_nil hd
    (by intro pr hm q hq; simp [bucketOf] at hq)
  obtain ⟨hinv2, hb2⟩ := bucketOf_foldIns hp l2 .nil inv_nil hd2
    (by intro pr hm q hq; simp [bucketOf] at hq)
  rw [Tree.Equal, hr1, hr2, hh1]
  apply equal_of_bucket_perm hp hfr _ _ hinv1 hinv2
  intro h
  rw [hb1 h, hb2 h, bucketOf_nil, List.nil_append, List.nil_append]
  exact hperm.filter _

/-! ## intersectionSize (C6) -/

set_option maxHeartbeats 1600000 in
theorem intersectionSize_self {hasher : Hasher K} (a : node K Unit) :
    intersectionSize a a hasher = nodeSize a := by
  rw [intersectionSize.eq_def]
  simp

set_option maxHeartbeats 1600000 in
theorem intersectionSize_leaf_left {hasher : Hasher K} {lk : Nat}
    {vs : List (K × Unit)} {sz : Nat} {b : node K Unit}
    (hne : (.leaf lk vs sz : node K Unit) ≠ b) :
    intersectionSize (.leaf lk vs sz) b hasher =
      vs.countP (fun pr => (lookup b lk pr.1 hasher).isSome) := by
  rw [intersectionSize.eq_def, if_neg hne]
  cases b with
  | nil => rfl
  | leaf lk2 vs2 sz2 => rfl
  | branch p bb l r sz2 => rfl

set_option maxHeartbeats 1600000 in
theorem intersectionSize_leaf_right {hasher : Hasher K} {p bb : Nat}
    {l r : node K Unit} {sz : Nat} {lk : Nat} {vs : List (K × Unit)} {osz : Nat} :
    intersectionSize (.branch p bb l r sz) (.leaf lk vs osz) hasher =
      vs.countP (fun pr =>
        (lookup (.branch p bb l r sz) lk pr.1 hasher).isSome) := by
  rw [intersectionSize.eq_def, if_neg (by simp)]

set_option maxHeartbeats 1600000 in
theorem intersectionSize_branch {hasher : Hasher K} {p1 b1 : Nat}
    {l1 r1 : node K Unit} {s1 : Nat} {p2 b2 : Nat} {l2 r2 : node K Unit} {s2 : Nat}
    (hne : (.branch p1 b1 l1 r1 s1 : node K Unit) ≠ .branch p2 b2 l2 r2 s2) :
    intersectionSize (.branch p1 b1 l1 r1 s1) (.branch p2 b2 l2 r2 s2) hasher =
      (if b1 = b2 ∧ p1 = p2 then
        intersectionSize l1 l2 hasher + intersectionSize r1 r2 hasher
      else if b1 > b2 then
        if b2 < b1 ∧ matchKey p2 b2 p1 = true then
          if zeroBit p1 b2 then
            intersectionSize l2 (.branch p1 b1 l1 r1 s1) hasher
          else intersectionSize r2 (.branch p1 b1 l1 r1 s1) hasher
        else 0
      else
        if b1 < b2 ∧ matchKey p1 b1 p2 = true then
          if zeroBit p2 b1 then
            intersectionSize l1 (.branch p2 b2 l2 r2 s2) hasher
          else intersectionSize r1 (.branch p2 b2 l2 r2 s2) hasher
        else 0) := by
  rw [intersectionSize.eq_def, if_neg hne]

theorem mem_hashKeys_of_mem_entries {hasher : Hasher K} {hf : K → Nat}
    {n : node K V} (hi : Inv hasher hf n) {pr : K × V} (hm : pr ∈ entries n) :
    hf pr.1 ∈ hashKeys n := by
  induction n with
  | nil => simp [entries] at hm
  | leaf lk vs sz =>
    obtain ⟨_, _, _, hvh, _⟩ := inv_leaf_iff.mp hi
    simp only [entries] at hm
    simp [hashKeys, hvh pr hm]
  | branch p bb l r sz ihl ihr =>
    obtain ⟨_, _, _, _, _, _, _, _, hil, hir⟩ := inv_branch_iff.mp hi
    simp only [entries, List.mem_append] at hm
    simp only [hashKeys, List.mem_append]
    rcases hm with hm | hm
    · exact Or.inl (ihl hil hm)
    · exact Or.inr (ihr hir hm)

/-- The entries of an invariant-respecting tree are globally pairwise
`Equal`-distinct (within a bucket by the leaf invariant, across buckets
because their hashes differ). -/
theorem pairwise_entries {hasher : Hasher K} {hf : K → Nat} (hp : HProps hasher hf)
    {n : node K V} (hi : Inv hasher hf n) :
    (entries n).Pairwise (fun pr qr => hasher.Equal pr.1 qr.1 = false) := by
  induction n with
  | nil => simp [entries]
  | leaf lk vs sz => exact (inv_leaf_iff.mp hi).2.2.2.2
  | branch p bb l r sz ihl ihr =>
    obtain ⟨_, _, _, _, _, hsl, hsr, _, hil, hir⟩ := inv_branch_iff.mp hi
    rw [entries, List.pairwise_append]
    refine ⟨ihl hil, ihr hir, ?_⟩
    intro pr hpm qr hqm
    rcases hx : hasher.Equal pr.1 qr.1 with _ | _
    · rfl
    · exfalso
      have hhe : hf pr.1 = hf qr.1 := hp.congr _ _ hx
      have hml := mem_hashKeys_of_mem_entries hil hpm
      have hmr := mem_hashKeys_of_mem_entries hir hqm
      have hz1 := (hsl _ hml).2
      have hz2 := (hsr _ hmr).2
      rw [hhe] at hz1
      rw [hz1] at hz2
      exact absurd hz2 (by simp)

theorem lookup_isSome_iff {hasher : Hasher K} {hf : K → Nat} (hp : HProps hasher hf)
    {b : node K V} (hib : Inv hasher hf b) {k : K} :
    (lookup b (hf k) k hasher).isSome = true ↔
      ∃ q ∈ entries b, hasher.Equal k q.1 = true := by
  constructor
  · intro h
    rcases hl : lookup b (hf k) k hasher with _ | v
    · rw [hl] at h
      simp at h
    · rw [lookup_eq_findBucket] at hl
      unfold findBucket at hl
      rcases hfq : (bucketOf b (hf k)).find? (fun pr => hasher.Equal k pr.1) with
        _ | q
      · rw [hfq] at hl
        simp at hl
      · have hqm := List.mem_of_find?_eq_some hfq
        exact ⟨q, mem_entries_of_mem_bucketOf hqm,
          by simpa using List.find?_some hfq⟩
  · rintro ⟨q, hqm, hqe⟩
    have hhq : hf k = hf q.1 := hp.congr _ _ hqe
    have hqb := mem_bucketOf_of_mem_entries hib hqm
    rw [lookup_eq_findBucket]
    rcases hfb : findBucket hasher k (bucketOf b (hf k)) with _ | v
    · rw [findBucket_eq_none_iff] at hfb
      have := hfb q (by rw [hhq]; exact hqb)
      rw [hqe] at this
      exact absurd this (by simp)
    · simp

/-- Injection of `Equal`-distinct lists: if every pair of `la` has an
`Equal`-keyed partner in `lb`, then `la` is no longer than `lb`. -/
theorem length_le_of_partner {hasher : Hasher K} {hf : K → Nat}
    (hp : HProps hasher hf) {la lb : List (K × V)}
    (hda : la.Pairwise (fun pr qr => hasher.Equal pr.1 qr.1 = false))
    (hcov : ∀ p ∈ la, ∃ q ∈ lb, hasher.Equal p.1 q.1 = true) :
    la.length ≤ lb.length := by
  have hchoice : ∀ i : Fin la.length, ∃ j : Fin lb.length,
      hasher.Equal (la.get i).1 (lb.get j).1 = true := by
    intro i
    obtain ⟨q, hq, he⟩ := hcov (la.get i) (by
      have := List.get_mem la i.1 i.2
      simpa using this)
    obtain ⟨j, hj⟩ := List.mem_iff_get.mp hq
    exact ⟨j, by rw [hj]; exact he⟩
  choose φ hφ using hchoice
  have hinj : Function.Injective φ := by
    intro i1 i2 h12
    by_contra hne
    have e1 := hφ i1
    have e2 := hφ i2
    rw [h12] at e1
    have heq : hasher.Equal (la.get i1).1 (la.get i2).1 = true :=
      hp.trans _ _ _ e1 (hp.symm _ _ e2)
    have hpg := List.pairwise_iff_get.mp hda
    rcases Nat.lt_or_ge i1.1 i2.1 with h | h
    · have hx := hpg i1 i2 h
      rw [heq] at hx
      exact absurd hx (by simp)
    · have hlt : i2.1 < i1.1 := by
        rcases Nat.lt_or_ge i2.1 i1.1 with h2 | h2
        · exact h2
        · exact absurd (Fin.ext (by omega)) hne
      have hx := hpg i2 i1 hlt
      rw [hp.symm _ _ heq] at hx
      exact absurd hx (by simp)
  have := Fintype.card_le_of_injective φ hinj
  simpa using this

theorem countP_partner_sym {hasher : Hasher K} {hf : K → Nat}
    (hp : HProps hasher hf) {la lb : List (K × V)}
    (hda : la.Pairwise (fun pr qr => hasher.Equal pr.1 qr.1 = false))
    (hdb : lb.Pairwise (fun pr qr => hasher.Equal pr.1 qr.1 = false)) :
    la.countP (fun pr => lb.any (fun q => hasher.Equal pr.1 q.1)) =
      lb.countP (fun pr => la.any (fun q => hasher.Equal pr.1 q.1)) := by
  rw [List.countP_eq_length_filter, List.countP_eq_length_filter]
  apply le_antisymm
  · apply length_le_of_partner hp (hda.filter _)
    intro p hpm
    rw [List.mem_filter] at hpm
    have hpm2 := hpm.2
    rw [List.any_eq_true] at hpm2
    obtain ⟨q, hq, he⟩ := hpm2
    refine ⟨q, ?_, he⟩
    rw [List.mem_filter]
    refine ⟨hq, ?_⟩
    simp only [List.any_eq_true]
    exact ⟨p, hpm.1, hp.symm _ _ he⟩
  · apply length_le_of_partner hp (hdb.filter _)
    intro p hpm
    rw [List.mem_filter] at hpm
    have hpm2 := hpm.2
    rw [List.any_eq_true] at hpm2
    obtain ⟨q, hq, he⟩ := hpm2
    refine ⟨q, ?_, he⟩
    rw [List.mem_filter]
    refine ⟨hq, ?_⟩
    simp only [List.any_eq_true]
    exact ⟨p, hpm.1, hp.symm _ _ he⟩

theorem countP_ext {α : Type} {l : List α} {p q : α → Bool}
    (h : ∀ a ∈ l, p a = q a) : l.countP p = l.countP q := by
  induction l with
  | nil => rfl
  | cons x xs ih =>
    rw [List.countP_cons, List.countP_cons, h x (by simp),
      ih (fun a ha => h a (by simp [ha]))]

theorem countP_lookup_sym {hasher : Hasher K} {hf : K → Nat}
    (hp : HProps hasher hf) {a b : node K Unit}
    (hia : Inv hasher hf a) (hib : Inv hasher hf b) :
    (entries a).countP (fun pr => (lookup b (hf pr.1) pr.1 hasher).isSome) =
      (entries b).countP (fun pr => (lookup a (hf pr.1) pr.1 hasher).isSome) := by
  have ea : ∀ pr ∈ entries a, ((lookup b (hf pr.1) pr.1 hasher).isSome) =
      (entries b).any (fun q => hasher.Equal pr.1 q.1) := by
    intro pr hm
    rcases h1 : (lookup b (hf pr.1) pr.1 hasher).isSome with _ | _
    · symm
      rcases h2 : (entries b).any (fun q => hasher.Equal pr.1 q.1) with _ | _
      · rfl
      · exfalso
        rw [List.any_eq_true] at h2
        obtain ⟨q, hq, he⟩ := h2
        have hs := (lookup_isSome_iff hp hib).mpr ⟨q, hq, he⟩
        rw [h1] at hs
        exact absurd hs (by simp)
    · symm
      rw [List.any_eq_true]
      exact (lookup_isSome_iff hp hib).mp h1
  have eb : ∀ pr ∈ entries b, ((lookup a (hf pr.1) pr.1 hasher).isSome) =
      (entries a).any (fun q => hasher.Equal pr.1 q.1) := by
    intro pr hm
    rcases h1 : (lookup a (hf pr.1) pr.1 hasher).isSome with _ | _
    · symm
      rcases h2 : (entries a).any (fun q => hasher.Equal pr.1 q.1) with _ | _
      · rfl
      · exfalso
        rw [List.any_eq_true] at h2
        obtain ⟨q, hq, he⟩ := h2
        have hs := (lookup_isSome_iff hp hia).mpr ⟨q, hq, he⟩
        rw [h1] at hs
        exact absurd hs (by simp)
    · symm
      rw [List.any_eq_true]
      exact (lookup_isSome_iff hp hia).mp h1
  rw [countP_ext ea, countP_ext eb,
    countP_partner_sym hp (pairwise_entries hp hia) (pairwise_entries hp hib)]

theorem intersectionSize_eq_aux {hasher : Hasher K} {hf : K → Nat}
    (hp : HProps hasher hf) :
    ∀ (N : Nat) (a b : node K Unit), sizeOf a + sizeOf b ≤ N →
      Inv hasher hf a → Inv hasher hf b →
      intersectionSize a b hasher =
        (entries a).countP
          (fun pr => (lookup b (hf pr.1) pr.1 hasher).isSome) := by
  intro N
  induction N using Nat.strong_induction_on with
  | _ N ih =>
  intro a b hN hia hib
  by_cases hab : a = b
  · subst hab
    rw [intersectionSize_self, nodeSize_eq_entries hia]
    symm
    apply List.countP_eq_length.mpr
    intro pr hm
    simp [lookup_entry hp hia hm]
  cases a with
  | nil =>
    rw [intersectionSize.eq_def, if_neg hab]
    cases b with
    | nil => exact absurd rfl hab
    | leaf lk vs sz =>
      exact List.countP_eq_zero.mpr (fun pr hm => by simp [lookup])
    | branch p bb l r sz => rfl
  | leaf lk vs sz =>
    rw [intersectionSize_leaf_left hab]
    obtain ⟨_, _, _, hvh, _⟩ := inv_leaf_iff.mp hia
    apply countP_ext
    intro pr hm
    rw [hvh pr hm]
  | branch p1 b1 l1 r1 s1 =>
    obtain ⟨hbb1, hib1, hplt1, hln1, hrn1, hsl1, hsr1, hszb1, hil1, hir1⟩ :=
      inv_branch_iff.mp hia
    have hplt1h : p1 < 2 ^ lowBitIdx b1 := by
      rw [← hbb1]
      exact hplt1
    cases b with
    | nil =>
      rw [intersectionSize.eq_def, if_neg hab]
      symm
      exact List.countP_eq_zero.mpr (fun pr hm => by simp [lookup])
    | leaf lk vs osz =>
      rw [intersectionSize_leaf_right]
      obtain ⟨_, _, _, hvh, _⟩ := inv_leaf_iff.mp hib
      have e1 : vs.countP (fun pr =>
            (lookup (node.branch p1 b1 l1 r1 s1) lk pr.1 hasher).isSome) =
          (entries (node.leaf lk vs osz)).countP (fun pr =>
            (lookup (node.branch p1 b1 l1 r1 s1) (hf pr.1) pr.1 hasher).isSome) :=
        countP_ext (fun pr hm => by rw [hvh pr hm])
      rw [e1, countP_lookup_sym hp hib hia]
    | branch p2 b2 l2 r2 s2 =>
      obtain ⟨hbb2, hib2, hplt2, hln2, hrn2, hsl2, hsr2, hszb2, hil2, hir2⟩ :=
        inv_branch_iff.mp hib
      have hplt2h : p2 < 2 ^ lowBitIdx b2 := by
        rw [← hbb2]
        exact hplt2
      rw [intersectionSize_branch hab]
      split
      · rename_i hc1
        obtain ⟨hbeq, hpeq⟩ := hc1
        subst hbeq
        subst hpeq
        rw [ih (sizeOf l1 + sizeOf l2)
            (by simp only [node.branch.sizeOf_spec] at hN; omega)
            l1 l2 le_rfl hil1 hil2,
          ih (sizeOf r1 + sizeOf r2)
            (by simp only [node.branch.sizeOf_spec] at hN; omega)
            r1 r2 le_rfl hir1 hir2,
          show entries (node.branch p1 b1 l1 r1 s1) = entries l1 ++ entries r1
            from rfl,
          List.countP_append]
        congr 1
        · apply countP_ext
          intro pr hm
          have hkm := mem_hashKeys_of_mem_entries hil1 hm
          rw [lookup_branch_pos (hsl1 _ hkm).1 (hsl1 _ hkm).2]
        · apply countP_ext
          intro pr hm
          have hkm := mem_hashKeys_of_mem_entries hir1 hm
          rw [lookup_branch_neg (hsr1 _ hkm).1 (hsr1 _ hkm).2]
      · rename_i hc1
        split
        · rename_i hgt
          split
          · rename_i hcont
            split
            · rename_i hz
              rw [ih (sizeOf l2 + sizeOf (node.branch p1 b1 l1 r1 s1))
                  (by simp only [node.branch.sizeOf_spec] at hN ⊢; omega)
                  l2 (node.branch p1 b1 l1 r1 s1) le_rfl hil2 hia,
                countP_lookup_sym hp hia hib,
                show entries (node.branch p2 b2 l2 r2 s2) =
                  entries l2 ++ entries r2 from rfl,
                List.countP_append]
              have hzero : (entries r2).countP (fun pr =>
                  (lookup (node.branch p1 b1 l1 r1 s1) (hf pr.1) pr.1
                    hasher).isSome) = 0 := by
                rw [List.countP_eq_zero]
                intro qr hm
                have hkm := mem_hashKeys_of_mem_entries hir2 hm
                have hz2 := (hsr2 _ hkm).2
                have hnone : lookup (node.branch p1 b1 l1 r1 s1) (hf qr.1) qr.1
                    hasher = none := by
                  apply lookup_eq_none_of_not_mem
                  intro hmem
                  have hs := support_of_contained hbb1 hbb2 hcont.1 hplt1
                    hcont.2 (hashKeys_branch_match hia _ hmem)
                  have hcontra := hs.2.trans hz
                  rw [hz2] at hcontra
                  exact absurd hcontra (by simp)
                rw [hnone]
                simp
              rw [hzero]
              omega
            · rename_i hz
              have hzf : zeroBit p1 b2 = false := by simpa using hz
              rw [ih (sizeOf r2 + sizeOf (node.branch p1 b1 l1 r1 s1))
                  (by simp only [node.branch.sizeOf_spec] at hN ⊢; omega)
                  r2 (node.branch p1 b1 l1 r1 s1) le_rfl hir2 hia,
                countP_lookup_sym hp hia hib,
                show entries (node.branch p2 b2 l2 r2 s2) =
                  entries l2 ++ entries r2 from rfl,
                List.countP_append]
              have hzero : (entries l2).countP (fun pr =>
                  (lookup (node.branch p1 b1 l1 r1 s1) (hf pr.1) pr.1
                    hasher).isSome) = 0 := by
                rw [List.countP_eq_zero]
                intro qr hm
                have hkm := mem_hashKeys_of_mem_entries hil2 hm
                have hz2 := (hsl2 _ hkm).2
                have hnone : lookup (node.branch p1 b1 l1 r1 s1) (hf qr.1) qr.1
                    hasher = none := by
                  apply lookup_eq_none_of_not_mem
                  intro hmem
                  have hs := support_of_contained hbb1 hbb2 hcont.1 hplt1
                    hcont.2 (hashKeys_branch_match hia _ hmem)
                  have hcontra := hs.2.trans hzf
                  rw [hz2] at hcontra
                  exact absurd hcontra (by simp)
                rw [hnone]
                simp
              rw [hzero]
              omega
          · rename_i hnc
            have hj21 : lowBitIdx b2 < lowBitIdx b1 := by
              have hpow : (2 : Nat) ^ lowBitIdx b2 < 2 ^ lowBitIdx b1 := by
                rw [← hbb1, ← hbb2]
                omega
              exact (Nat.pow_lt_pow_iff_right (by norm_num)).mp hpow
            symm
            rw [List.countP_eq_zero]
            intro pr hm hcontra
            rcases hl : lookup (node.branch p2 b2 l2 r2 s2) (hf pr.1) pr.1
                hasher with _ | v
            · rw [hl] at hcontra
              simp at hcontra
            · have hkb := mem_hashKeys_of_lookup_some hl
              have hka := mem_hashKeys_of_mem_entries hia hm
              have e1 := hashKeys_branch_mod hia _ hka
              have e2 := hashKeys_branch_mod hib _ hkb
              apply hnc
              refine ⟨hgt, ?_⟩
              rw [hbb2, matchKey_two_pow]
              calc p1 % 2 ^ lowBitIdx b2
                  = hf pr.1 % 2 ^ lowBitIdx b1 % 2 ^ lowBitIdx b2 := by rw [e1]
                _ = hf pr.1 % 2 ^ lowBitIdx b2 :=
                  Nat.mod_mod_of_dvd _ (pow_dvd_pow 2 (le_of_lt hj21))
                _ = p2 := e2
        · rename_i hle
          split
          · rename_i hcont
            split
            · rename_i hz
              rw [ih (sizeOf l1 + sizeOf (node.branch p2 b2 l2 r2 s2))
                  (by simp only [node.branch.sizeOf_spec] at hN ⊢; omega)
                  l1 (node.branch p2 b2 l2 r2 s2) le_rfl hil1 hib,
                show entries (node.branch p1 b1 l1 r1 s1) =
                  entries l1 ++ entries r1 from rfl,
                List.countP_append]
              have hzero : (entries r1).countP (fun pr =>
                  (lookup (node.branch p2 b2 l2 r2 s2) (hf pr.1) pr.1
                    hasher).isSome) = 0 := by
                rw [List.countP_eq_zero]
                intro qr hm hcontra
                rcases hl : lookup (node.branch p2 b2 l2 r2 s2) (hf qr.1) qr.1
                    hasher with _ | v
                · rw [hl] at hcontra
                  simp at hcontra
                · have hkb := mem_hashKeys_of_lookup_some hl
                  have hkm := mem_hashKeys_of_mem_entries hir1 hm
                  have hz2 := (hsr1 _ hkm).2
                  have hs := support_of_contained hbb2 hbb1 hcont.1 hplt2
                    hcont.2 (hashKeys_branch_match hib _ hkb)
                  have hcontra2 := hs.2.trans hz
                  rw [hz2] at hcontra2
                  exact absurd hcontra2 (by simp)
              rw [hzero]
              omega
            · rename_i hz
              have hzf : zeroBit p2 b1 = false := by simpa using hz
              rw [ih (sizeOf r1 + sizeOf (node.branch p2 b2 l2 r2 s2))
                  (by simp only [node.branch.sizeOf_spec] at hN ⊢; omega)
                  r1 (node.branch p2 b2 l2 r2 s2) le_rfl hir1 hib,
                show entries (node.branch p1 b1 l1 r1 s1) =
                  entries l1 ++ entries r1 from rfl,
                List.countP_append]
              have hzero : (entries l1).countP (fun pr =>
                  (lookup (node.branch p2 b2 l2 r2 s2) (hf pr.1) pr.1
                    hasher).isSome) = 0 := by
                rw [List.countP_eq_zero]
                intro qr hm hcontra
                rcases hl : lookup (node.branch p2 b2 l2 r2 s2) (hf qr.1) qr.1
                    hasher with _ | v
                · rw [hl] at hcontra
                  simp at hcontra
                · have hkb := mem_hashKeys_of_lookup_some hl
                  have hkm := mem_hashKeys_of_mem_entries hil1 hm
                  have hz2 := (hsl1 _ hkm).2
                  have hs := support_of_contained hbb2 hbb1 hcont.1 hplt2
                    hcont.2 (hashKeys_branch_match hib _ hkb)
                  have hcontra2 := hs.2.trans hzf
                  rw [hz2] at hcontra2
                  exact absurd hcontra2 (by simp)
              rw [hzero]
              omega
          · rename_i hnc
            have hble : b1 ≤ b2 := Nat.le_of_not_lt hle
            have hj12 : lowBitIdx b1 ≤ lowBitIdx b2 := by
              have hpow : (2 : Nat) ^ lowBitIdx b1 ≤ 2 ^ lowBitIdx b2 := by
                rw [← hbb1, ← hbb2]
                omega
              exact (Nat.pow_le_pow_iff_right (by norm_num)).mp hpow
            symm
            rw [List.countP_eq_zero]
            intro pr hm hcontra
            rcases hl : lookup (node.branch p2 b2 l2 r2 s2) (hf pr.1) pr.1
                hasher with _ | v
            · rw [hl] at hcontra
              simp at hcontra
            · have hkb := mem_hashKeys_of_lookup_some hl
              have hka := mem_hashKeys_of_mem_entries hia hm
              have e1 := hashKeys_branch_mod hia _ hka
              have e2 := hashKeys_branch_mod hib _ hkb
              have hmk : matchKey p1 b1 p2 = true := by
                rw [hbb1, matchKey_two_pow]
                calc p2 % 2 ^ lowBitIdx b1
                    = hf pr.1 % 2 ^ lowBitIdx b2 % 2 ^ lowBitIdx b1 := by
                      rw [e2]
                  _ = hf pr.1 % 2 ^ lowBitIdx b1 :=
                    Nat.mod_mod_of_dvd _ (pow_dvd_pow 2 hj12)
                  _ = p1 := e1
              rcases Nat.eq_or_lt_of_le hble with heq | hlt
              · apply hc1
                refine ⟨heq, ?_⟩
                have hmm := hmk
                rw [hbb1, matchKey_two_pow] at hmm
                rw [← hmm]
                exact Nat.mod_eq_of_lt (by rw [heq]; exact hplt2h)
              · exact hnc ⟨hlt, hmk⟩

theorem intersectionSize_eq {hasher : Hasher K} {hf : K → Nat}
    (hp : HProps hasher hf) {a b : node K Unit}
    (hia : Inv hasher hf a) (hib : Inv hasher hf b) :
    intersectionSize a b hasher =
      (entries a).countP (fun pr => (lookup b (hf pr.1) pr.1 hasher).isSome) :=
  intersectionSize_eq_aux hp (sizeOf a + sizeOf b) a b le_rfl hia hib

theorem intersectionSize_symm {hasher : Hasher K} {hf : K → Nat}
    (hp : HProps hasher hf) {a b : node K Unit}
    (hia : Inv hasher hf a) (hib : Inv hasher hf b) :
    intersectionSize a b hasher = intersectionSize b a hasher := by
  rw [intersectionSize_eq hp hia hib, intersectionSize_eq hp hib hia,
    countP_lookup_sym hp hia hib]

/-! ## Derived shape invariants: child branch bits and cached sizes (C4) -/

/-- Under the invariant, a branch directly below another branch disambiguates
a strictly higher bit: all keys of the child agree with the parent's prefix
up to and including the parent's branching index, while the child's own two
sides differ at the child's branching index. -/
theorem child_branch_bit_gt {hasher : Hasher K} {hf : K → Nat} {p bb : Nat}
    {l r : node K V} {sz : Nat} (hi : Inv hasher hf (.branch p bb l r sz))
    {p2 bb2 : Nat} {l2 r2 : node K V} {sz2 : Nat}
    (hc : l = node.branch p2 bb2 l2 r2 sz2 ∨ r = node.branch p2 bb2 l2 r2 sz2) :
    bb < bb2 := by
  obtain ⟨hbb, hib, hplt, hln, hrn, hsl, hsr, hszb, hil, hir⟩ := inv_branch_iff.mp hi
  have hch : ∃ z : Bool, Inv hasher hf (node.branch p2 bb2 l2 r2 sz2) ∧
      ∀ h ∈ hashKeys (node.branch p2 bb2 l2 r2 sz2 : node K V),
        matchKey p bb h = true ∧ zeroBit h bb = z := by
    rcases hc with hc | hc
    · exact ⟨true, hc ▸ hil, fun h hm => hsl h (by rw [hc]; exact hm)⟩
    · exact ⟨false, hc ▸ hir, fun h hm => hsr h (by rw [hc]; exact hm)⟩
  obtain ⟨z, hic, hsup⟩ := hch
  obtain ⟨hbb2, hib2, hplt2, hln2, hrn2, hsl2, hsr2, hszb2, hil2, hir2⟩ :=
    inv_branch_iff.mp hic
  obtain ⟨h1, hm1⟩ := exists_mem_hashKeys hil2 hln2
  obtain ⟨h2, hm2⟩ := exists_mem_hashKeys hir2 hrn2
  have hm1c : h1 ∈ hashKeys (node.branch p2 bb2 l2 r2 sz2 : node K V) := by
    show h1 ∈ hashKeys l2 ++ hashKeys r2
    exact List.mem_append.mpr (Or.inl hm1)
  have hm2c : h2 ∈ hashKeys (node.branch p2 bb2 l2 r2 sz2 : node K V) := by
    show h2 ∈ hashKeys l2 ++ hashKeys r2
    exact List.mem_append.mpr (Or.inr hm2)
  have ht1 : h1.testBit (lowBitIdx bb2) = false := by
    have h5 := (hsl2 h1 hm1).2
    rw [hbb2, zeroBit_two_pow] at h5
    simpa using h5
  have ht2 : h2.testBit (lowBitIdx bb2) = true := by
    have h5 := (hsr2 h2 hm2).2
    rw [hbb2, zeroBit_two_pow] at h5
    simpa using h5
  have e1 := hsup h1 hm1c
  have e2 := hsup h2 hm2c
  have hm1p : h1 % 2 ^ lowBitIdx bb = p := matchKey_two_pow.mp (by rw [← hbb]; exact e1.1)
  have hm2p : h2 % 2 ^ lowBitIdx bb = p := matchKey_two_pow.mp (by rw [← hbb]; exact e2.1)
  have hbit : h1.testBit (lowBitIdx bb) = h2.testBit (lowBitIdx bb) := by
    have z1 := e1.2
    have z2 := e2.2
    rw [hbb, zeroBit_two_pow] at z1 z2
    have h3 := z1.trans z2.symm
    have h4 := congrArg (fun b => !b) h3
    simpa using h4
  have hj : lowBitIdx bb < lowBitIdx bb2 := by
    by_contra hge
    push_neg at hge
    have heq : h1.testBit (lowBitIdx bb2) = h2.testBit (lowBitIdx bb2) := by
      rcases Nat.lt_or_ge (lowBitIdx bb2) (lowBitIdx bb) with hlt | hge2
      · exact mod_two_pow_eq_iff.mp (hm1p.trans hm2p.symm) _ hlt
      · have h6 : lowBitIdx bb2 = lowBitIdx bb := by omega
        rw [h6]
        exact hbit
    rw [ht1, ht2] at heq
    exact absurd heq (by simp)
  rw [hbb, hbb2]
  exact Nat.pow_lt_pow_right (by norm_num) hj

/-- Branch bits strictly increase below the bound `c` along every path. -/
def bbAbove : Nat → node K V → Prop
  | _, node.nil => True
  | _, node.leaf _ _ _ => True
  | c, node.branch _ bb l r _ => c < bb ∧ bbAbove bb l ∧ bbAbove bb r

/-- A child branch's branch bit is strictly greater than its parent's,
everywhere in the tree. -/
def BbOrdered (n : node K V) : Prop := bbAbove 0 n

theorem bbAbove_of_inv {hasher : Hasher K} {hf : K → Nat} {n : node K V} :
    Inv hasher hf n →
      ∀ c : Nat, (∀ p2 bb2 l2 r2 sz2, n = node.branch p2 bb2 l2 r2 sz2 → c < bb2) →
        bbAbove c n := by
  induction n with
  | nil => intro _ c _; exact trivial
  | leaf lk vs sz => intro _ c _; exact trivial
  | branch p bb l r sz ihl ihr =>
    intro hi c hc
    obtain ⟨hbb, hib, hplt, hln, hrn, hsl, hsr, hszb, hil, hir⟩ := inv_branch_iff.mp hi
    show c < bb ∧ bbAbove bb l ∧ bbAbove bb r
    refine ⟨hc p bb l r sz rfl, ?_, ?_⟩
    · exact ihl hil bb (fun p2 bb2 l2 r2 sz2 he => child_branch_bit_gt hi (Or.inl he))
    · exact ihr hir bb (fun p2 bb2 l2 r2 sz2 he => child_branch_bit_gt hi (Or.inr he))

theorem bbOrdered_of_inv {hasher : Hasher K} {hf : K → Nat} {n : node K V}
    (hi : Inv hasher hf n) : BbOrdered n :=
  bbAbove_of_inv hi 0 (fun p2 bb2 l2 r2 sz2 he => by
    rw [he] at hi
    rw [(inv_branch_iff.mp hi).1]
    positivity)

/-- Every cached size field in the tree equals the number of key-value pairs
stored in its subtree. -/
def SizesOK : node K V → Prop
  | node.nil => True
  | node.leaf _ vs sz => sz = vs.length
  | node.branch _ _ l r sz =>
    sz = (entries l).length + (entries r).length ∧ SizesOK l ∧ SizesOK r

theorem sizesOK_of_inv {hasher : Hasher K} {hf : K → Nat} {n : node K V} :
    Inv hasher hf n → SizesOK n := by
  induction n with
  | nil => intro _; exact trivial
  | leaf lk vs sz => intro hi; exact (inv_leaf_iff.mp hi).2.1
  | branch p bb l r sz ihl ihr =>
    intro hi
    obtain ⟨hbb, hib, hplt, hln, hrn, hsl, hsr, hszb, hil, hir⟩ := inv_branch_iff.mp hi
    show sz = (entries l).length + (entries r).length ∧ SizesOK l ∧ SizesOK r
    exact ⟨by rw [hszb, nodeSize_eq_entries hil, nodeSize_eq_entries hir],
      ihl hil, ihr hir⟩

/-! ## Reachable trees (C4) -/

/-- Trees built from the empty tree by the public operations: `Insert`,
`InsertOrMerge` with a valid merge function, `Remove`, and `Merge` with a
valid merge function. -/
inductive Reachable (hasher : Hasher K) : Tree K V → Prop where
  | new : Reachable hasher (New hasher)
  | ins {t : Tree K V} (ht : Reachable hasher t) (key : K) (value : V) :
      Reachable hasher (t.Insert key value)
  | insMerge {t : Tree K V} (ht : Reachable hasher t) (key : K) (value : V)
      {f : MergeFunc V} (hv : ValidF f) :
      Reachable hasher (t.InsertOrMerge key value (some f))
  | rem {t : Tree K V} (ht : Reachable hasher t) (key : K) :
      Reachable hasher (t.Remove key)
  | mer {t u : Tree K V} (ht : Reachable hasher t) (hu : Reachable hasher u)
      {f : MergeFunc V} (hv : ValidF f) : Reachable hasher (t.Merge u f)

theorem reachable_hasher {hasher : Hasher K} {t : Tree K V}
    (hr : Reachable hasher t) : t.hasher = hasher := by
  induction hr with
  | new => rfl
  | ins ht key value ih => exact ih
  | insMerge ht key value hv ih => exact ih
  | rem ht key ih => exact ih
  | mer ht hu hv iht ihu => exact iht

theorem treeInv_new {hasher : Hasher K} : TreeInv (New hasher : Tree K V) := inv_nil

theorem treeInv_insertOrMerge {t : Tree K V} (ho : HasherOK t.hasher)
    (hi : TreeInv t) {key : K} {value : V} {f : Option (MergeFunc V)} :
    TreeInv (t.InsertOrMerge key value f) :=
  inv_insert ho.hprops hi rfl

theorem treeInv_insert {t : Tree K V} (ho : HasherOK t.hasher) (hi : TreeInv t)
    {key : K} {value : V} : TreeInv (t.Insert key value) :=
  treeInv_insertOrMerge ho hi

theorem treeInv_remove {t : Tree K V} (hi : TreeInv t) {key : K} :
    TreeInv (t.Remove key) := inv_remove hi

theorem treeInv_merge {t u : Tree K V} (ho : HasherOK t.hasher) (hi : TreeInv t)
    (hu : Inv t.hasher (hfOf t.hasher) u.root) {f : MergeFunc V} :
    TreeInv (t.Merge u f) :=
  inv_merge ho.hprops hi hu

theorem reachable_treeInv {hasher : Hasher K} (ho : HasherOK hasher) {t : Tree K V}
    (hr : Reachable hasher t) : TreeInv t := by
  induction hr with
  | new => exact inv_nil
  | ins ht key value ih => exact treeInv_insert ((reachable_hasher ht).symm ▸ ho) ih
  | insMerge ht key value hv ih =>
    exact treeInv_insertOrMerge ((reachable_hasher ht).symm ▸ ho) ih
  | rem ht key ih => exact treeInv_remove ih
  | mer ht hu hv iht ihu =>
    refine treeInv_merge ((reachable_hasher ht).symm ▸ ho) iht ?_
    have h2 := ihu
    unfold TreeInv at h2
    rw [reachable_hasher hu, ← reachable_hasher ht] at h2
    exact h2

/-! ## A nil merge function always reports a change (C10) -/

/-- With a nil merge function, the bucket scan of `insert`'s leaf case never
takes the `return tree, false` path: a found key is overwritten and reported
as changed. -/
theorem insertPairs_none_f_changed {hasher : Hasher K} {key : K} {value : V} :
    ∀ {vs nvs : List (K × V)} {c : Bool},
      insertPairs hasher key value none vs = some (nvs, c) → c = true := by
  intro vs
  induction vs with
  | nil => intro nvs c h; simp [insertPairs] at h
  | cons hd tl ih =>
    intro nvs c h
    obtain ⟨k', v'⟩ := hd
    simp only [insertPairs] at h
    by_cases he : hasher.Equal key k' = true
    · rw [if_pos he] at h
      simp only [Option.some.injEq, Prod.mk.injEq] at h
      exact h.2.symm
    · rw [if_neg he] at h
      rcases hr : insertPairs hasher key value none tl with _ | ⟨nvs2, c2⟩
      · rw [hr] at h
        exact absurd h (by simp)
      · rw [hr] at h
        simp only [Option.some.injEq, Prod.mk.injEq] at h
        rw [← h.2]
        exact ih hr

/-! ## Concrete hashers and merge functions for witnesses -/

/-- A hasher on `Nat` keys with the identity hash function. -/
def natHasher : Hasher Nat := ⟨fun a b => a == b, fun k => k⟩

theorem natHasherOK : HasherOK natHasher := by
  refine ⟨?_, ?_, ?_, ?_⟩
  · intro a; simp [natHasher]
  · intro a b h
    simp only [natHasher, beq_iff_eq] at h ⊢
    omega
  · intro a b c h1 h2
    simp only [natHasher, beq_iff_eq] at h1 h2 ⊢
    omega
  · intro a b h
    simp only [natHasher, beq_iff_eq] at h
    simp [natHasher, h]

/-- A hasher on `Nat` keys that maps every key to the same hash value. -/
def constHasher : Hasher Nat := ⟨fun a b => a == b, fun _ => 0⟩

theorem constHasherOK : HasherOK constHasher := by
  refine ⟨?_, ?_, ?_, ?_⟩
  · intro a; simp [constHasher]
  · intro a b h
    simp only [constHasher, beq_iff_eq] at h ⊢
    omega
  · intro a b c h1 h2
    simp only [constHasher, beq_iff_eq] at h1 h2 ⊢
    omega
  · intro a b _; rfl

/-- A hasher on `Bool` keys whose hash function is injective. -/
def boolHasher : Hasher Bool := ⟨fun a b => a == b, fun b => cond b 1 0⟩

theorem boolHasherOK : HasherOK boolHasher :=
  ⟨by decide, by decide, by decide, by decide⟩

theorem boolHasher_cf : CollisionFree boolHasher (hfOf boolHasher) := by
  unfold CollisionFree
  decide

/-- The merge function taking the maximum, flagging equal arguments. -/
def fmax : MergeFunc Nat := fun x y => (max x y, x == y)

theorem fmax_valid : ValidF fmax := by
  refine ⟨?_, ?_, ?_⟩
  · intro x y
    unfold fmax
    rw [Nat.max_comm]
    congr 1
    rw [Bool.eq_iff_iff]
    simp only [beq_iff_eq]
    exact ⟨Eq.symm, Eq.symm⟩
  · intro x; simp [fmax]
  · intro x y h
    simpa [fmax] using h

/-! ## The claims -/

/-- Claim C1: for trees over the same well-behaved hasher and a `MergeFunc`
satisfying the commutativity, idempotence and eq contracts, `Merge` is the
keywise union: a lookup in the merged tree returns the value of the single
tree holding the key, and `f` applied to the two values (in `a`-then-`b`
order) for a shared key. `mergeOpt f` is exactly this union of
`Option`-valued lookups. -/
theorem claim_C1 {hasher : Hasher K} (ho : HasherOK hasher) {f : MergeFunc V}
    (hv : ValidF f) {t u : Tree K V} (hht : t.hasher = hasher)
    (hhu : u.hasher = hasher) (hit : TreeInv t) (hiu : TreeInv u) (k : K) :
    (t.Merge u f).Lookup k = mergeOpt f (t.Lookup k) (u.Lookup k) := by
  subst hht
  have hiu2 : Inv t.hasher (hfOf t.hasher) u.root := by
    have h2 := hiu
    unfold TreeInv at h2
    rw [hhu] at h2
    exact h2
  have hm := lookup_merge ho.hprops hv hit hiu2 k
  have hu2 : u.Lookup k = lookup u.root (hfOf t.hasher k) k t.hasher := by
    show lookup u.root (hfOf u.hasher k) k u.hasher = _
    rw [hhu]
  rw [hu2]
  exact hm

theorem claim_C1_witness :
    HasherOK natHasher ∧ ValidF fmax ∧
      TreeInv ((New natHasher).Insert 1 10) ∧ TreeInv ((New natHasher).Insert 2 20) ∧
      (((New natHasher).Insert 1 10).Merge ((New natHasher).Insert 2 20) fmax).Lookup 1 =
        mergeOpt fmax (((New natHasher).Insert 1 10).Lookup 1)
          (((New natHasher).Insert 2 20).Lookup 1) := by
  have i1 : TreeInv ((New natHasher).Insert 1 10) := treeInv_insert natHasherOK treeInv_new
  have i2 : TreeInv ((New natHasher).Insert 2 20) := treeInv_insert natHasherOK treeInv_new
  exact ⟨natHasherOK, fmax_valid, i1, i2, claim_C1 natHasherOK fmax_valid rfl rfl i1 i2 1⟩

/-- Claim C2 counterexample: the literal claim fails for hashers with
colliding keys. With a constant hash, `a = {1↦1, 0↦0}` and `b = {0↦0}` live
in one bucket; `a ⊇ b` keywise with `f`-equal values on the shared key `0`,
yet `merge(a, b, f)` folds `a`'s bucket into `b`'s leaf and returns a bucket
in a different order than `a.root`'s, so the result is a freshly built root,
not `a.root`. -/
theorem claim_C2_counterexample :
    HasherOK constHasher ∧ ValidF fmax ∧
      TreeInv (((New constHasher).Insert 1 1).Insert 0 0) ∧
      TreeInv ((New constHasher).Insert 0 0) ∧
      (∀ k : Nat, ((New constHasher).Insert 0 0).Lookup k = none ∨
        ((New constHasher).Insert 0 0).Lookup k =
          (((New constHasher).Insert 1 1).Insert 0 0).Lookup k) ∧
      ((((New constHasher).Insert 1 1).Insert 0 0).Merge
          ((New constHasher).Insert 0 0) fmax).root ≠
        (((New constHasher).Insert 1 1).Insert 0 0).root := by
  have ha : (((New constHasher).Insert 1 1).Insert 0 0).root =
      node.leaf 0 [((1 : Nat), (1 : Nat)), (0, 0)] 2 := by decide
  have hb : ((New constHasher).Insert 0 0).root =
      node.leaf 0 [((0 : Nat), (0 : Nat))] 1 := by decide
  refine ⟨constHasherOK, fmax_valid, ?_, ?_, ?_, ?_⟩
  · unfold TreeInv
    decide
  · unfold TreeInv
    decide
  · intro k
    by_cases hk : k = 0
    · right
      subst hk
      decide
    · left
      show lookup ((New constHasher).Insert 0 0).root (reverse64 0) k constHasher = none
      rw [hb]
      have h64 : reverse64 0 = 0 := by decide
      rw [h64]
      simp [lookup, constHasher, hk]
  · have hm : (merge (node.leaf 0 [((1 : Nat), (1 : Nat)), (0, 0)] 2)
        (node.leaf 0 [((0 : Nat), (0 : Nat))] 1) constHasher fmax).1 =
        node.leaf 0 [(0, 0), (1, 1)] 2 := by
      rw [merge.eq_def]
      decide
    have hroot : ((((New constHasher).Insert 1 1).Insert 0 0).Merge
        ((New constHasher).Insert 0 0) fmax).root =
        (merge (node.leaf 0 [((1 : Nat), (1 : Nat)), (0, 0)] 2)
          (node.leaf 0 [((0 : Nat), (0 : Nat))] 1) constHasher fmax).1 := by
      show (merge (((New constHasher).Insert 1 1).Insert 0 0).root
        ((New constHasher).Insert 0 0).root constHasher fmax).1 = _
      rw [ha, hb]
    rw [hroot, ha, hm]
    decide

/-- Claim C2, amended: the reference-identity (here: structural identity)
of the superset merge holds under the additional hypothesis that the hasher
is collision-free (`Equal`-distinct keys get distinct hashes). Without it
the property is refuted by `claim_C2_counterexample`: inside a multi-key
bucket the leaf fold can rebuild the other leaf's bucket in a different
order even when `a ⊇ b` with `f`-equal values on shared keys. -/
theorem claim_C2 {hasher : Hasher K} (ho : HasherOK hasher) {f : MergeFunc V}
    (hv : ValidF f) (hcf : CollisionFree hasher (hfOf hasher)) {t u : Tree K V}
    (hht : t.hasher = hasher) (hhu : u.hasher = hasher)
    (hit : TreeInv t) (hiu : TreeInv u)
    (hsub : ∀ k : K, u.Lookup k = none ∨ u.Lookup k = t.Lookup k) :
    (t.Merge u f).root = t.root := by
  subst hht
  have hiu2 : Inv t.hasher (hfOf t.hasher) u.root := by
    have h2 := hiu
    unfold TreeInv at h2
    rw [hhu] at h2
    exact h2
  have hsub2 : ∀ k : K, lookup u.root (hfOf t.hasher k) k t.hasher = none ∨
      lookup u.root (hfOf t.hasher k) k t.hasher =
        lookup t.root (hfOf t.hasher k) k t.hasher := by
    intro k
    have hu2 : u.Lookup k = lookup u.root (hfOf t.hasher k) k t.hasher := by
      show lookup u.root (hfOf u.hasher k) k u.hasher = _
      rw [hhu]
    rcases hsub k with h | h
    · left
      rw [← hu2]
      exact h
    · right
      rw [← hu2]
      exact h
  exact merge_superset ho.hprops hv hcf hit hiu2 hsub2

theorem claim_C2_witness :
    HasherOK boolHasher ∧ ValidF fmax ∧ CollisionFree boolHasher (hfOf boolHasher) ∧
      TreeInv ((New boolHasher).Insert true 3) ∧
      (∀ k : Bool, ((New boolHasher).Insert true 3).Lookup k = none ∨
        ((New boolHasher).Insert true 3).Lookup k =
          ((New boolHasher).Insert true 3).Lookup k) ∧
      (((New boolHasher).Insert true 3).Merge ((New boolHasher).Insert true 3)
          fmax).root = ((New boolHasher).Insert true 3).root := by
  have i1 : TreeInv ((New boolHasher).Insert true 3) :=
    treeInv_insert boolHasherOK treeInv_new
  exact ⟨boolHasherOK, fmax_valid, boolHasher_cf, i1, fun k => Or.inr rfl,
    claim_C2 boolHasherOK fmax_valid boolHasher_cf rfl rfl i1 i1 (fun k => Or.inr rfl)⟩

/-- Claim C3: for every finite sequence of insert and remove operations on an
initially empty tree with a well-behaved hasher, `Lookup` agrees with the
reference map semantics: it returns the most recently inserted value for an
`Equal`-equivalent key that was not subsequently removed, and `none`
otherwise. -/
theorem claim_C3 {hasher : Hasher K} (ho : HasherOK hasher)
    (ops : List (Op K V)) (k : K) :
    (runOps (New hasher) ops).Lookup k = refRun hasher ops k :=
  runOps_lookup ho ops k

theorem claim_C3_witness :
    HasherOK natHasher ∧
      (runOps (New natHasher) [Op.ins 1 2, Op.ins 2 3, Op.rem 1]).Lookup 1 =
        refRun natHasher [Op.ins 1 2, Op.ins 2 3, Op.rem 1] 1 :=
  ⟨natHasherOK, claim_C3 natHasherOK [Op.ins 1 2, Op.ins 2 3, Op.rem 1] 1⟩

/-- Claim C4: every tree reachable from the empty tree by `Insert`,
`InsertOrMerge` and `Merge` (with valid merge functions) and `Remove`, under
a well-behaved hasher, satisfies the global patricia invariants. `TreeInv`
spells out, at every branch, that each hashed key `k` below it satisfies
`(k &&& (branchBit - 1)) == pfx` (the `matchKey` test) and routes by
`zeroBit`, that both children are non-nil, that each cached branch size is
the sum of the children's, and that each leaf bucket is non-empty with all
pairs hashed to the leaf's key and pairwise `Equal`-distinct; `BbOrdered`
states that child branch bits strictly exceed their parent's; `SizesOK`
states every cached size equals the number of pairs in its subtree. -/
theorem claim_C4 {hasher : Hasher K} (ho : HasherOK hasher) {t : Tree K V}
    (hr : Reachable hasher t) :
    TreeInv t ∧ BbOrdered t.root ∧ SizesOK t.root := by
  have hi := reachable_treeInv ho hr
  exact ⟨hi, bbOrdered_of_inv hi, sizesOK_of_inv hi⟩

theorem claim_C4_witness :
    HasherOK natHasher ∧
      Reachable natHasher (((New natHasher).Insert 1 2).Remove 3) ∧
      (TreeInv (((New natHasher).Insert 1 2).Remove 3) ∧
        BbOrdered (((New natHasher).Insert 1 2).Remove 3).root ∧
        SizesOK (((New natHasher).Insert 1 2).Remove 3).root) := by
  have hr : Reachable natHasher (((New natHasher).Insert 1 2).Remove 3) :=
    Reachable.rem (Reachable.ins Reachable.new 1 2) 3
  exact ⟨natHasherOK, hr, claim_C4 natHasherOK hr⟩

/-- Claim C5: when `merge` returns with the equal flag true (well-behaved
hasher, `MergeFunc` satisfying the eq contract), the two input trees
represented equal maps: every lookup agrees, so they have the same key set
and `f`-equal values on every shared key. -/
theorem claim_C5 {hasher : Hasher K} (ho : HasherOK hasher) {f : MergeFunc V}
    (hv : ValidF f) {t u : Tree K V} (hht : t.hasher = hasher)
    (hhu : u.hasher = hasher) (hit : TreeInv t) (hiu : TreeInv u)
    (hfl : (merge t.root u.root t.hasher f).2 = true) (k : K) :
    t.Lookup k = u.Lookup k := by
  subst hht
  have hiu2 : Inv t.hasher (hfOf t.hasher) u.root := by
    have h2 := hiu
    unfold TreeInv at h2
    rw [hhu] at h2
    exact h2
  have hm := merge_flag_sound ho.hprops hv hit hiu2 hfl k
  have hu2 : u.Lookup k = lookup u.root (hfOf t.hasher k) k t.hasher := by
    show lookup u.root (hfOf u.hasher k) k u.hasher = _
    rw [hhu]
  rw [hu2]
  exact hm

theorem claim_C5_witness :
    HasherOK natHasher ∧ ValidF fmax ∧ TreeInv ((New natHasher).Insert 1 10) ∧
      (merge ((New natHasher).Insert 1 10).root ((New natHasher).Insert 1 10).root
        ((New natHasher).Insert 1 10).hasher fmax).2 = true ∧
      ((New natHasher).Insert 1 10).Lookup 1 = ((New natHasher).Insert 1 10).Lookup 1 := by
  have i1 : TreeInv ((New natHasher).Insert 1 10) := treeInv_insert natHasherOK treeInv_new
  have hfl : (merge ((New natHasher).Insert 1 10).root ((New natHasher).Insert 1 10).root
      ((New natHasher).Insert 1 10).hasher fmax).2 = true := by
    rw [merge_self]
  exact ⟨natHasherOK, fmax_valid, i1, hfl,
    claim_C5 natHasherOK fmax_valid rfl rfl i1 i1 hfl 1⟩

/-- Claim C6: for sets over the same well-behaved hasher (satisfying the
representation invariant), `IntersectionSize` counts exactly the elements of
`s` whose key is also present in `t`, and the operation is symmetric. -/
theorem claim_C6 {hasher : Hasher K} (ho : HasherOK hasher) {s t : Set K}
    (hhs : s.m.hasher = hasher) (hht : t.m.hasher = hasher)
    (his : TreeInv s.m) (hit : TreeInv t.m) :
    s.IntersectionSize t =
        (entries s.m.root).countP (fun pr => (t.m.Lookup pr.1).isSome) ∧
      s.IntersectionSize t = t.IntersectionSize s := by
  subst hhs
  have hisI : Inv s.m.hasher (hfOf s.m.hasher) s.m.root := his
  have hitI : Inv s.m.hasher (hfOf s.m.hasher) t.m.root := by
    have h2 := hit
    unfold TreeInv at h2
    rw [hht] at h2
    exact h2
  constructor
  · unfold Set.IntersectionSize
    by_cases hs0 : s.m.root = node.nil
    · rw [if_pos (Or.inl hs0), hs0]
      simp [entries]
    · by_cases ht0 : t.m.root = node.nil
      · rw [if_pos (Or.inr ht0)]
        symm
        rw [List.countP_eq_zero]
        intro pr hpr
        have hnone : t.m.Lookup pr.1 = none := by
          show lookup t.m.root (t.m.hash pr.1) pr.1 t.m.hasher = none
          rw [ht0]
          rfl
        rw [hnone]
        simp
      · rw [if_neg (by push_neg; exact ⟨hs0, ht0⟩)]
        rw [intersectionSize_eq ho.hprops hisI hitI]
        apply countP_ext
        intro pr hpr
        have hlk : t.m.Lookup pr.1 =
            lookup t.m.root (hfOf s.m.hasher pr.1) pr.1 s.m.hasher := by
          show lookup t.m.root (hfOf t.m.hasher pr.1) pr.1 t.m.hasher = _
          rw [hht]
        rw [hlk]
  · unfold Set.IntersectionSize
    by_cases hs0 : s.m.root = node.nil
    · by_cases ht0 : t.m.root = node.nil
      · rw [if_pos (Or.inl hs0), if_pos (Or.inl ht0)]
      · rw [if_pos (Or.inl hs0), if_pos (Or.inr hs0)]
    · by_cases ht0 : t.m.root = node.nil
      · rw [if_pos (Or.inr ht0), if_pos (Or.inl ht0)]
      · rw [if_neg (by push_neg; exact ⟨hs0, ht0⟩),
          if_neg (by push_neg; exact ⟨ht0, hs0⟩)]
        rw [hht]
        exact intersectionSize_symm ho.hprops hisI hitI

theorem claim_C6_witness :
    HasherOK natHasher ∧ TreeInv ((NewSet natHasher).Insert 1).m ∧
      TreeInv ((NewSet natHasher).Insert 2).m ∧
      (((NewSet natHasher).Insert 1).IntersectionSize ((NewSet natHasher).Insert 2) =
        (entries ((NewSet natHasher).Insert 1).m.root).countP
          (fun pr => (((NewSet natHasher).Insert 2).m.Lookup pr.1).isSome) ∧
      ((NewSet natHasher).Insert 1).IntersectionSize ((NewSet natHasher).Insert 2) =
        ((NewSet natHasher).Insert 2).IntersectionSize ((NewSet natHasher).Insert 1)) := by
  have i1 : TreeInv ((NewSet natHasher).Insert 1).m :=
    treeInv_insert natHasherOK treeInv_new
  have i2 : TreeInv ((NewSet natHasher).Insert 2).m :=
    treeInv_insert natHasherOK treeInv_new
  exact ⟨natHasherOK, i1, i2, claim_C6 natHasherOK rfl rfl i1 i2⟩

/-- Claim C7: for two leaf nodes under the representation invariant, with a
well-behaved hasher and a reflexive value comparison, `equal` returns true
iff both have the same hashed key, the same bucket length, and every pair of
`a`'s bucket has an `Equal`/`f_val_eq`-matching pair in `b`'s bucket. -/
theorem claim_C7 {hasher : Hasher K} {hf : K → Nat} (hp : HProps hasher hf)
    {feq : V → V → Bool} (hfr : ∀ v, feq v v = true)
    {alk : Nat} {avs : List (K × V)} {asz : Nat}
    {blk : Nat} {bvs : List (K × V)} {bsz : Nat}
    (hia : Inv hasher hf (.leaf alk avs asz))
    (hib : Inv hasher hf (.leaf blk bvs bsz)) :
    equal (.leaf alk avs asz) (.leaf blk bvs bsz) hasher feq = true ↔
      (alk = blk ∧ avs.length = bvs.length ∧
        ∀ ap ∈ avs, ∃ bp ∈ bvs,
          hasher.Equal ap.1 bp.1 = true ∧ feq ap.2 bp.2 = true) :=
  equal_leaf_iff hp hfr hia hib

theorem claim_C7_witness :
    HProps natHasher (hfOf natHasher) ∧ (∀ v : Nat, (v == v) = true) ∧
      Inv natHasher (hfOf natHasher) (node.leaf (reverse64 1) [((1 : Nat), (5 : Nat))] 1) ∧
      (equal (node.leaf (reverse64 1) [((1 : Nat), (5 : Nat))] 1)
          (node.leaf (reverse64 1) [((1 : Nat), (5 : Nat))] 1) natHasher
          (fun a b => a == b) = true ↔
        (reverse64 1 = reverse64 1 ∧
          [((1 : Nat), (5 : Nat))].length = [((1 : Nat), (5 : Nat))].length ∧
          ∀ ap ∈ [((1 : Nat), (5 : Nat))], ∃ bp ∈ [((1 : Nat), (5 : Nat))],
            natHasher.Equal ap.1 bp.1 = true ∧ (ap.2 == bp.2) = true)) := by
  have hia : Inv natHasher (hfOf natHasher)
      (node.leaf (reverse64 1) [((1 : Nat), (5 : Nat))] 1) := by decide
  exact ⟨natHasherOK.hprops, fun v => beq_self_eq_true v, hia,
    claim_C7 natHasherOK.hprops (fun v => beq_self_eq_true v) hia hia⟩

/-- Claim C8: self-merge is the identity: `merge(a, a, f)` returns `a`'s own
root (in Go: the same reference) with equal flag true, for every merge
function. -/
theorem claim_C8 (t : Tree K V) (f : MergeFunc V) :
    (t.Merge t f).root = t.root ∧ (merge t.root t.root t.hasher f).2 = true := by
  constructor
  · show (merge t.root t.root t.hasher f).1 = t.root
    rw [merge_self]
  · rw [merge_self]

/-- Claim C9: inserting bindings with pairwise `Equal`-distinct keys into an
empty tree in two different orders yields trees that `Equal` reports equal
(with any reflexive value comparison): the trie shape is canonical in the
hashed keys, and bucket order differences are absorbed by `equal`'s
unordered bucket comparison. -/
theorem claim_C9 {hasher : Hasher K} (ho : HasherOK hasher) {feq : V → V → Bool}
    (hfr : ∀ v, feq v v = true) {l1 l2 : List (K × V)}
    (hd : l1.Pairwise (fun pr qr => hasher.Equal pr.1 qr.1 = false))
    (hperm : l1.Perm l2) :
    Tree.Equal (insertAll (New hasher) l1) (insertAll (New hasher) l2) feq = true :=
  insertAll_equal_of_perm ho hfr hd hperm

theorem claim_C9_witness :
    HasherOK natHasher ∧ (∀ v : Nat, (v == v) = true) ∧
      ([((1 : Nat), (10 : Nat)), (2, 20)].Pairwise
        (fun pr qr => natHasher.Equal pr.1 qr.1 = false)) ∧
      [((1 : Nat), (10 : Nat)), (2, 20)].Perm [(2, 20), (1, 10)] ∧
      Tree.Equal (insertAll (New natHasher) [((1 : Nat), (10 : Nat)), (2, 20)])
        (insertAll (New natHasher) [(2, 20), (1, 10)]) (fun a b => a == b) = true := by
  have hd : [((1 : Nat), (10 : Nat)), (2, 20)].Pairwise
      (fun pr qr => natHasher.Equal pr.1 qr.1 = false) := by decide
  have hpm : [((1 : Nat), (10 : Nat)), (2, 20)].Perm [(2, 20), (1, 10)] :=
    List.Perm.swap (2, 20) (1, 10) []
  exact ⟨natHasherOK, fun v => beq_self_eq_true v, hd, hpm,
    claim_C9 natHasherOK (fun v => beq_self_eq_true v) hd hpm⟩

/-- Claim C10: with a nil merge function (the path taken by the plain
`Insert` method), `insert` always reports `changed = true` — and hence (by
the flag's contract with reference identity) returns a freshly constructed
root — for every input tree, even when the key is already mapped to the same
value; only `InsertOrMerge` with a merge function whose eq flag reports
equality can return the input node unchanged. -/
theorem claim_C10 (n : node K V) (hash : Nat) (key : K) (value : V)
    (hasher : Hasher K) : (insert n hash key value hasher none).2 = true := by
  induction n with
  | nil => rfl
  | leaf lk vs sz =>
    simp only [insert]
    by_cases hlk : lk = hash
    · rw [if_pos hlk]
      rcases hip : insertPairs hasher key value none vs with _ | ⟨nvs, c⟩
      · simp [hip]
      · have hc := insertPairs_none_f_changed hip
        subst hc
        simp [hip]
    · rw [if_neg hlk]
  | branch p bb l r sz ihl ihr =>
    simp only [insert]
    by_cases hm : matchKey p bb hash = true
    · rw [if_pos hm]
      by_cases hz : zeroBit hash bb = true
      · rw [if_pos hz]
        simp [ihl]
      · rw [if_neg hz]
        simp [ihr]
    · rw [if_neg hm]

end pmmap
